import Mathlib

/-!
# Street-sign translator: transliteration engine, language-pack store, OCR engine

A shallow embedding of `src/modules/translit-engine.js`,
`src/modules/pack-manager.js` and `src/modules/ocr-engine.js`.

Strings are lists of code points (`Str`).  The host string functions are
embedded as follows.

* `trim` removes the ECMAScript `WhiteSpace` and `LineTerminator` code points
  from both ends.
* The case conversions `toLowerCase` and `toUpperCase` of the host work on all
  of Unicode and are a parameter of the engine, a `CaseHost`: the methods
  `CaseHost.transliterate`, `CaseHost.transliterateOffline` and
  `CaseHost.basicTransliteration` are the engine on every text.  The
  definitions `toLowerCase` and `toUpperCase` are the conversions of the ASCII
  letters, which is what every host computes on a text with no cased character
  outside ASCII; `transliterate`, `transliterateOffline` and `basicTransliteration` are
  the engine with these conversions (`asciiCase`).
* `split(' ')` cuts at every single U+0020.
* A property read `obj[key]` on an object literal finds the own entries first
  and then the properties every plain object inherits from `Object.prototype`.
* A call ends in an `Outcome`: it returns, it throws, or it depends on host
  objects that the embedding does not describe (`hostDefined`).
* `localStorage` holds, under a `package_` key, the JSON text of a package
  record, a non-empty text that `JSON.parse` rejects, or the empty text; the
  record stands for its text.
* The rendering methods of the package manager work on the document only and
  are left out.
* What the recognition library and the remote endpoint answer during one call
  of the OCR engine is given by an `OcrHost`; a call yields the engine after
  it, how it ended, and the events it caused (`Ran`).
-/

namespace StreetSign

/-- A string, as its list of code points. -/
abbrev Str := List Char

/-! ## Host string functions -/

/-- The code points removed by `String.prototype.trim`: ECMAScript `WhiteSpace`
and `LineTerminator`. -/
def isWhiteSpace (c : Char) : Bool :=
  let n := c.toNat
  n == 0x09 || n == 0x0A || n == 0x0B || n == 0x0C || n == 0x0D || n == 0x20 ||
  n == 0xA0 || n == 0x1680 || (0x2000 ≤ n && n ≤ 0x200A) || n == 0x2028 ||
  n == 0x2029 || n == 0x202F || n == 0x205F || n == 0x3000 || n == 0xFEFF

/-- The function `String.prototype.trimStart`. -/
def trimStart (s : Str) : Str := s.dropWhile isWhiteSpace

/-- The function `String.prototype.trimEnd`. -/
def trimEnd (s : Str) : Str := (s.reverse.dropWhile isWhiteSpace).reverse

/-- The function `String.prototype.trim`. -/
def trim (s : Str) : Str := trimEnd (trimStart s)

/-- The function `String.prototype.toLowerCase` on a text with no cased
character outside ASCII: the capitals `A` to `Z` become small letters and every other code
point is kept. -/
def toLowerCase (s : Str) : Str := s.map Char.toLower

/-- The function `String.prototype.toUpperCase` on a text with no cased
character outside ASCII: the small letters `a` to `z` become capitals and every other code
point is kept. -/
def toUpperCase (s : Str) : Str := s.map Char.toUpper

/-- The case conversions of the host on every text: they follow the Unicode
case mappings, may change the length of a text (`ß` becomes `SS`) and may
depend on the neighbouring characters (the final sigma). -/
structure CaseHost where
  /-- The function `String.prototype.toLowerCase`. -/
  toLowerCase : Str → Str
  /-- The function `String.prototype.toUpperCase`. -/
  toUpperCase : Str → Str

/-- The conversions of the ASCII letters as a host: what every host computes on
a text with no cased character outside ASCII. -/
def asciiCase : CaseHost :=
  { toLowerCase := fun s => s.map Char.toLower
    toUpperCase := fun s => s.map Char.toUpper }

/-- The call `s.split(' ')`: the pieces between consecutive U+0020; the empty
string gives one empty piece. -/
def splitSpace : Str → List Str
  | [] => [[]]
  | c :: cs =>
    if c = ' ' then [] :: splitSpace cs
    else
      match splitSpace cs with
      | [] => [[c]]
      | w :: ws => (c :: w) :: ws

/-! ## Property reads on object literals -/

/-- The properties a plain object inherits from `Object.prototype`, each with
the text its value converts to when appended to a string (functions are
rendered the way V8 prints a built-in). -/
def objectPrototype : List (String × String) :=
  [("constructor", "function Object() \x7b [native code] \x7d"),
   ("__defineGetter__", "function __defineGetter__() \x7b [native code] \x7d"),
   ("__defineSetter__", "function __defineSetter__() \x7b [native code] \x7d"),
   ("hasOwnProperty", "function hasOwnProperty() \x7b [native code] \x7d"),
   ("__lookupGetter__", "function __lookupGetter__() \x7b [native code] \x7d"),
   ("__lookupSetter__", "function __lookupSetter__() \x7b [native code] \x7d"),
   ("isPrototypeOf", "function isPrototypeOf() \x7b [native code] \x7d"),
   ("propertyIsEnumerable", "function propertyIsEnumerable() \x7b [native code] \x7d"),
   ("toString", "function toString() \x7b [native code] \x7d"),
   ("valueOf", "function valueOf() \x7b [native code] \x7d"),
   ("__proto__", "[object Object]"),
   ("toLocaleString", "function toLocaleString() \x7b [native code] \x7d")]

/-- Own entries of an object literal whose keys and values are strings. -/
abbrev Table := List (Str × Str)

/-- A list of string pairs as a table of code-point lists. -/
def mkTable (l : List (String × String)) : Table :=
  l.map fun p => (p.1.toList, p.2.toList)

/-- Whether `key` names a property inherited from `Object.prototype`. -/
def isInherited (key : Str) : Bool :=
  ((mkTable objectPrototype).lookup key).isSome

/-- The read `map[key]` on an object literal with string values, as the text
the value converts to; `none` is `undefined`.  Own entries shadow the inherited
properties, whose values are objects and so always truthy. -/
def getProp (map : Table) (key : Str) : Option Str :=
  match map.lookup key with
  | some v => some v
  | none => (mkTable objectPrototype).lookup key

/-! ## Transliteration engine: the fallback table -/

/-- The object literal `basicMaps` of `basicTransliteration`: per language code,
the own entries in source order. -/
def basicMaps : List (String × List (String × String)) :=
  [
   ("hi",
    [("a", "अ"), ("b", "ब"), ("c", "क"), ("d", "द"), ("e", "ए"), ("f", "फ"),
     ("g", "ग"), ("h", "ह"), ("i", "इ"), ("j", "ज"), ("k", "क"), ("l", "ल"),
     ("m", "म"), ("n", "न"), ("o", "ओ"), ("p", "प"), ("q", "क"), ("r", "र"),
     ("s", "स"), ("t", "त"), ("u", "उ"), ("v", "व"), ("w", "व"), ("x", "क्स"),
     ("y", "य"), ("z", "ज"), ("road", "रोड"), ("street", "सड़क"), ("main", "मुख्य")]),
   ("ta",
    [("a", "அ"), ("b", "ப"), ("c", "க"), ("d", "த"), ("e", "எ"), ("f", "ப"),
     ("g", "க"), ("h", "ஹ"), ("i", "இ"), ("j", "ஜ"), ("k", "க"), ("l", "ல"),
     ("m", "ம"), ("n", "ந"), ("o", "ஒ"), ("p", "ப"), ("r", "ர"), ("s", "ஸ"),
     ("t", "த"), ("u", "உ"), ("v", "வ"), ("y", "ய"), ("z", "ஜ"), ("road", "ரோடு"),
     ("street", "தெரு"), ("main", "மெயின்")]),
   ("te",
    [("a", "అ"), ("b", "బ"), ("c", "క"), ("d", "ద"), ("e", "ఎ"), ("f", "ఫ"),
     ("g", "గ"), ("h", "హ"), ("i", "ఇ"), ("j", "జ"), ("k", "క"), ("l", "ల"),
     ("m", "మ"), ("n", "న"), ("o", "ఒ"), ("p", "ప"), ("r", "ర"), ("s", "స"),
     ("t", "త"), ("u", "ఉ"), ("v", "వ"), ("y", "య"), ("z", "జ"), ("road", "రోడ్"),
     ("street", "వీధి"), ("main", "మెయిన్")]),
   ("kn",
    [("a", "ಅ"), ("b", "ಬ"), ("c", "ಕ"), ("d", "ದ"), ("e", "ಎ"), ("f", "ಫ"),
     ("g", "ಗ"), ("h", "ಹ"), ("i", "ಇ"), ("j", "ಜ"), ("k", "ಕ"), ("l", "ಲ"),
     ("m", "ಮ"), ("n", "ನ"), ("o", "ಒ"), ("p", "ಪ"), ("r", "ರ"), ("s", "ಸ"),
     ("t", "ತ"), ("u", "ಉ"), ("v", "ವ"), ("y", "ಯ"), ("z", "ಜ"), ("road", "ರೋಡ್"),
     ("street", "ರಸ್ತೆ"), ("main", "ಮುಖ್ಯ")]),
   ("ml",
    [("a", "അ"), ("b", "ബ"), ("c", "ക"), ("d", "ദ"), ("e", "എ"), ("f", "ഫ"),
     ("g", "ഗ"), ("h", "ഹ"), ("i", "ഇ"), ("j", "ജ"), ("k", "ക"), ("l", "ല"),
     ("m", "മ"), ("n", "ന"), ("o", "ഒ"), ("p", "പ"), ("r", "ര"), ("s", "സ"),
     ("t", "ത"), ("u", "ഉ"), ("v", "വ"), ("y", "യ"), ("z", "ജ"), ("road", "റോഡ്"),
     ("street", "തെരുവ്"), ("main", "മുഖ്യ")]),
   ("bn",
    [("a", "অ"), ("b", "ব"), ("c", "ক"), ("d", "দ"), ("e", "এ"), ("f", "ফ"),
     ("g", "গ"), ("h", "হ"), ("i", "ই"), ("j", "জ"), ("k", "ক"), ("l", "ল"),
     ("m", "ম"), ("n", "ন"), ("o", "ও"), ("p", "প"), ("r", "র"), ("s", "স"),
     ("t", "ত"), ("u", "উ"), ("v", "ভ"), ("y", "য়"), ("z", "জ"), ("road", "রোড"),
     ("street", "সড়ক"), ("main", "মুখ্য")]),
   ("gu",
    [("a", "અ"), ("b", "બ"), ("c", "ક"), ("d", "દ"), ("e", "એ"), ("f", "ફ"),
     ("g", "ગ"), ("h", "હ"), ("i", "ઇ"), ("j", "જ"), ("k", "ક"), ("l", "લ"),
     ("m", "મ"), ("n", "ન"), ("o", "ઓ"), ("p", "પ"), ("r", "ર"), ("s", "સ"),
     ("t", "ત"), ("u", "ઉ"), ("v", "વ"), ("y", "ય"), ("z", "જ"), ("road", "રોડ"),
     ("street", "રસ્તો"), ("main", "મુખ્ય")]),
   ("pa",
    [("a", "ਅ"), ("b", "ਬ"), ("c", "ਕ"), ("d", "ਦ"), ("e", "ਏ"), ("f", "ਫ"),
     ("g", "ਗ"), ("h", "ਹ"), ("i", "ਇ"), ("j", "ਜ"), ("k", "ਕ"), ("l", "ਲ"),
     ("m", "ਮ"), ("n", "ਨ"), ("o", "ਓ"), ("p", "ਪ"), ("r", "ਰ"), ("s", "ਸ"),
     ("t", "ਤ"), ("u", "ਉ"), ("v", "ਵ"), ("y", "ਯ"), ("z", "ਜ"), ("road", "ਰੋਡ"),
     ("street", "ਗਲੀ"), ("main", "ਮੁੱਖ")]),
   ("or",
    [("a", "ଅ"), ("b", "ବ"), ("c", "କ"), ("d", "ଦ"), ("e", "ଏ"), ("f", "ଫ"),
     ("g", "ଗ"), ("h", "ହ"), ("i", "ଇ"), ("j", "ଜ"), ("k", "କ"), ("l", "ଲ"),
     ("m", "ମ"), ("n", "ନ"), ("o", "ଓ"), ("p", "ପ"), ("r", "ର"), ("s", "ସ"),
     ("t", "ତ"), ("u", "ଉ"), ("v", "ଭ"), ("y", "ୟ"), ("z", "ଜ"), ("road", "ରୋଡ"),
     ("street", "ଗଳି"), ("main", "ମୁଖ୍ୟ")])]

/-- The outcome of the read `basicMaps[targetLang]`. -/
inductive MapRead where
  /-- One of the nine own entries. -/
  | table (map : Table)
  /-- A property inherited from `Object.prototype`: a truthy host object. -/
  | inherited
  /-- The value `undefined`. -/
  | undefined
  deriving DecidableEq, Repr

/-- The read `basicMaps[targetLang]`. -/
def readBasicMap (targetLang : Str) : MapRead :=
  match (basicMaps.map fun p => (p.1.toList, mkTable p.2)).lookup targetLang with
  | some map => .table map
  | none => if isInherited targetLang then .inherited else .undefined

/-- An exception value. -/
inductive JSError where
  /-- A `SyntaxError`, as thrown by `JSON.parse`. -/
  | syntaxError
  /-- A `TypeError`, as thrown by a property read on `undefined`. -/
  | typeError
  /-- A storage or quota failure reported by the host. -/
  | hostError
  deriving DecidableEq, Repr

/-- How a call ends. -/
inductive Outcome (α : Type) where
  /-- The call returns (for an async function: the promise fulfils). -/
  | returned (value : α)
  /-- The call throws (the promise rejects). -/
  | threw (error : JSError)
  /-- The call reads own properties of a host object (a built-in function or
  `Object.prototype` used as a table) or builds a pattern the embedding does
  not describe; what it does is fixed by the host. -/
  | hostDefined
  deriving DecidableEq, Repr

/-- The statement `result += map[char] || char` for one `char`. -/
def mapChar (map : Table) (char : Char) : Str :=
  match getProp map [char] with
  | some v => if v.isEmpty then [char] else v
  | none => [char]

/-- The inner loop `for (let char of word) result += map[char] || char`. -/
def mapChars (map : Table) (result word : Str) : Str :=
  word.foldl (fun result char => result ++ mapChar map char) result

/-- One iteration of `for (let word of words)`, from `result` to the next
`result`. -/
def mapWord (map : Table) (result word : Str) : Str :=
  match getProp map word with
  | some v =>
    if v.isEmpty then mapChars map result word ++ [' '] else result ++ (v ++ [' '])
  | none => mapChars map result word ++ [' ']

/-- The method `basicTransliteration(text, targetLang)` with the conversions of
the ASCII letters. -/
def basicTransliteration (text targetLang : Str) : Outcome Str :=
  if targetLang = "en".toList then .returned (toUpperCase text)
  else
    match readBasicMap targetLang with
    | .undefined => .returned text
    | .inherited => .hostDefined
    | .table map =>
      let words := splitSpace (toLowerCase text)
      .returned (trim (words.foldl (mapWord map) []))

/-- The method `applyCharacterMapping(text, targetLang)`. -/
def applyCharacterMapping (text _targetLang : Str) : Str := text

/-! ## Language-pack store -/

/-- An entry of the catalog `availablePackages`. -/
structure LanguagePackage where
  name : Str
  size : Str
  languages : List Str
  description : Str
  words : Nat
  icon : Str
  popular : Bool
  deriving DecidableEq, Repr

/-- The object literal `this.availablePackages`: own entries in source order. -/
def availablePackages : List (String × LanguagePackage) :=
  [
   ("hindi",
    { name := "Hindi Pack".toList, size := "2.3 MB".toList, languages := ["hi".toList],
      description := "Hindi OCR + Devanagari transliteration".toList,
      words := 15000, icon := "🕉️".toList, popular := false }),
   ("tamil",
    { name := "Tamil Pack".toList, size := "2.1 MB".toList, languages := ["ta".toList],
      description := "Tamil OCR + Tamil script transliteration".toList,
      words := 12000, icon := "𑌅".toList, popular := false }),
   ("telugu",
    { name := "Telugu Pack".toList, size := "2.2 MB".toList, languages := ["te".toList],
      description := "Telugu OCR + Telugu script transliteration".toList,
      words := 13000, icon := "తె".toList, popular := false }),
   ("kannada",
    { name := "Kannada Pack".toList, size := "2.0 MB".toList, languages := ["kn".toList],
      description := "Kannada OCR + Kannada script transliteration".toList,
      words := 11000, icon := "ಕ".toList, popular := false }),
   ("multi-indic",
    { name := "Multi-Indic Pack".toList, size := "8.5 MB".toList, languages := ["hi".toList, "ta".toList, "te".toList, "kn".toList],
      description := "All major Indian languages in one pack".toList,
      words := 75000, icon := "🇮🇳".toList, popular := true })]

/-- The outcome of the read `this.availablePackages[packageId]`. -/
inductive PackRead where
  /-- A catalog entry. -/
  | pack (p : LanguagePackage)
  /-- A property inherited from `Object.prototype`: a truthy host object with
  no `languages` property. -/
  | inherited
  /-- The value `undefined`. -/
  | undefined
  deriving DecidableEq, Repr

/-- The read `this.availablePackages[packageId]`. -/
def readPackage (packageId : Str) : PackRead :=
  match (availablePackages.map fun p => (p.1.toList, p.2)).lookup packageId with
  | some p => .pack p
  | none => if isInherited packageId then .inherited else .undefined

/-- The object literal `words` of `getCommonWords`. -/
def commonWordsTable : List (String × List String) :=
  [
   ("hi", ["रोड", "मार्ग", "गली", "चौक", "नगर", "महात्मा गांधी", "नेहरू"]),
   ("ta", ["ரோடு", "தெரு", "சந்திப்பு", "நகர்", "மெயின்"]),
   ("te", ["రోడ్", "వీధి", "క్రాస్", "నగర్", "మెయిన్"]),
   ("kn", ["ರೋಡ್", "ರಸ್ತೆ", "ಚೌಕ", "ನಗರ", "ಮೈನ್"]),
   ("en", ["ROAD", "STREET", "MAIN", "CROSS", "CIRCLE"])]

/-- The object literal `rules` of `getTranslitRules`. -/
def translitRulesTable : List (String × List (String × String)) :=
  [
   ("hi", [("road", "रोड"), ("street", "सड़क"), ("main", "मुख्य")]),
   ("ta", [("road", "ரோடு"), ("street", "தெரு"), ("main", "மெயின்")]),
   ("te", [("road", "రోడ్"), ("street", "వీధి"), ("main", "మెయిన్")]),
   ("kn", [("road", "ರೋಡ್"), ("street", "ರಸ್ತೆ"), ("main", "ಮುಖ್ಯ")]),
   ("en", [("road", "ROAD"), ("street", "STREET"), ("main", "MAIN")])]

/-- The object literal `patterns` of `getOCRPatterns`. -/
def ocrPatternsTable : List (String × List String) :=
  [
   ("hi", ["[ा-्]", "[०-९]"]),
   ("ta", ["[ா-்]", "[௦-௯]"]),
   ("te", ["[ా-్]", "[౦-౯]"]),
   ("kn", ["[ಾ-್]", "[೦-೯]"]),
   ("en", ["[A-Za-z]", "[0-9]"])]

/-- The method `getCommonWords(language)`, as stored: `none` when the read
gives an inherited function, which `JSON.stringify` leaves out. -/
def getCommonWords (language : Str) : Option (List Str) :=
  match (commonWordsTable.map fun p => (p.1.toList, p.2.map String.toList)).lookup language with
  | some ws => some ws
  | none => if isInherited language then none else some []

/-- The method `getTranslitRules(language)`, as stored: `none` when the read
gives an inherited function, which `JSON.stringify` leaves out. -/
def getTranslitRules (language : Str) : Option Table :=
  match (translitRulesTable.map fun p => (p.1.toList, mkTable p.2)).lookup language with
  | some t => some t
  | none => if isInherited language then none else some []

/-- The method `getOCRPatterns(language)`, as stored: `none` when the read
gives an inherited function, which `JSON.stringify` leaves out. -/
def getOCRPatterns (language : Str) : Option (List Str) :=
  match (ocrPatternsTable.map fun p => (p.1.toList, p.2.map String.toList)).lookup language with
  | some ps => some ps
  | none => if isInherited language then none else some []

/-- The per-language object built by `generateLanguageData`; a field is `none`
when the property is absent. -/
structure LangData where
  commonWords : Option (List Str)
  transliteration : Option Table
  ocrPatterns : Option (List Str)
  deriving DecidableEq, Repr

/-- The `metadata` object of a stored package. -/
structure Metadata where
  id : Str
  name : Str
  version : Str
  installed : Str
  languages : List Str
  deriving DecidableEq, Repr

/-- The object `packageData` of `storePackage`; `words` is `data.words`, own
entries in insertion order, and `version` is `data.version`. -/
structure PackageData where
  metadata : Metadata
  words : List (Str × LangData)
  version : Str
  deriving DecidableEq, Repr

/-- The method `generateLanguageData(languages)`: one property per language, a
repeated language overwriting its entry in place. -/
def generateLanguageData (languages : List Str) : List (Str × LangData) :=
  languages.foldl
    (fun data lang =>
      let entry : LangData :=
        { commonWords := getCommonWords lang
          transliteration := getTranslitRules lang
          ocrPatterns := getOCRPatterns lang }
      if (data.lookup lang).isSome then
        data.map fun p => if p.1 = lang then (lang, entry) else p
      else data ++ [(lang, entry)])
    []

/-- A value held by `localStorage` under a `package_` key: the JSON text of a
package record, a non-empty text that `JSON.parse` rejects, or the empty text,
which is falsy. -/
inductive Blob where
  | record (data : PackageData)
  | corrupt
  | empty
  deriving DecidableEq, Repr

/-- The state the package manager works on: `localStorage` (keys in `key(i)`
order) and the set `this.installedPackages` (in insertion order). -/
structure PackageManager where
  localStorage : List (Str × Blob)
  installedPackages : List Str
  deriving DecidableEq, Repr

/-- The call `localStorage.getItem(key)`. -/
def getItem (storage : List (Str × Blob)) (key : Str) : Option Blob :=
  storage.lookup key

/-- The call `localStorage.setItem(key, value)`: an existing key keeps its
place. -/
def setItem (storage : List (Str × Blob)) (key : Str) (value : Blob) : List (Str × Blob) :=
  if (storage.lookup key).isSome then
    storage.map fun p => if p.1 = key then (key, value) else p
  else storage ++ [(key, value)]

/-- The call `localStorage.removeItem(key)`. -/
def removeItem (storage : List (Str × Blob)) (key : Str) : List (Str × Blob) :=
  storage.filter fun p => !(p.1 == key)

/-- The call `set.add(x)`. -/
def setAdd (set : List Str) (x : Str) : List Str :=
  if x ∈ set then set else set ++ [x]

/-- The call `set.delete(x)`. -/
def setDelete (set : List Str) (x : Str) : List Str :=
  set.filter fun y => !(y == x)

/-- The storage key of a package: the template literal with the id after
`package_`. -/
def packageKey (packageId : Str) : Str := "package_".toList ++ packageId

/-- The method `isPackageInstalled(packageId)`. -/
def isPackageInstalled (pm : PackageManager) (packageId : Str) : Bool :=
  decide (packageId ∈ pm.installedPackages)

/-- The method `getPackageData(packageId)`; `none` is `null`. -/
def getPackageData (pm : PackageManager) (packageId : Str) : Outcome (Option PackageData) :=
  match getItem pm.localStorage (packageKey packageId) with
  | some (.record data) => .returned (some data)
  | some .corrupt => .threw .syntaxError
  | some .empty => .returned none
  | none => .returned none

/-- What the host decides during one `downloadPackage` call. -/
structure DownloadHost where
  /-- The text of `new Date().toISOString()`. -/
  now : Str
  /-- Whether `localStorage.setItem` returns rather than throwing. -/
  writeOk : Bool
  /-- Whether the quota re-check `checkStorageQuota()` fulfils. -/
  quotaOk : Bool
  deriving DecidableEq, Repr

/-- The method `storePackage(packageId, pack)`: the state it leaves and how it
ends. -/
def storePackage (host : DownloadHost) (pm : PackageManager) (packageId : Str)
    (pack : LanguagePackage) : PackageManager × Outcome Unit :=
  let packageData : PackageData :=
    { metadata :=
        { id := packageId, name := pack.name, version := "1.0.0".toList,
          installed := host.now, languages := pack.languages }
      words := generateLanguageData pack.languages
      version := "1.0.0".toList }
  if host.writeOk then
    let pm1 : PackageManager :=
      { pm with localStorage := setItem pm.localStorage (packageKey packageId) (.record packageData) }
    if host.quotaOk then (pm1, .returned ()) else (pm1, .threw .hostError)
  else (pm, .threw .hostError)

/-- Which alert `downloadPackage` shows, if any. -/
inductive DownloadAlert where
  /-- The id is not in the catalog: the method returns at once. -/
  | ignored
  /-- The alert "downloaded successfully". -/
  | succeeded
  /-- The alert "Failed to download". -/
  | failed
  deriving DecidableEq, Repr

/-- The method `downloadPackage(packageId)`: the state it leaves and the alert
it shows.  For an inherited id `storePackage` throws a `TypeError` at
`pack.languages.forEach` before it writes. -/
def downloadPackage (host : DownloadHost) (pm : PackageManager) (packageId : Str) :
    PackageManager × DownloadAlert :=
  match readPackage packageId with
  | .undefined => (pm, .ignored)
  | .inherited => (pm, .failed)
  | .pack pack =>
    match storePackage host pm packageId pack with
    | (pm1, .returned _) =>
      ({ pm1 with installedPackages := setAdd pm1.installedPackages packageId }, .succeeded)
    | (pm1, _) => (pm1, .failed)

/-- The method `uninstallPackage(packageId)`, with the answer the user gives to
`confirm`.  The read `pack.name` throws when the id is installed but
`availablePackages[packageId]` is `undefined`. -/
def uninstallPackage (pm : PackageManager) (packageId : Str) (confirmed : Bool) :
    Outcome PackageManager :=
  if packageId ∉ pm.installedPackages then .returned pm
  else
    match readPackage packageId with
    | .undefined => .threw .typeError
    | _ =>
      if confirmed then
        .returned
          { localStorage := removeItem pm.localStorage (packageKey packageId)
            installedPackages := setDelete pm.installedPackages packageId }
      else .returned pm

/-- The method `loadInstalledPackages()`: every key that starts with `package_`
adds the rest of the key to the set. -/
def loadInstalledPackages (pm : PackageManager) : PackageManager :=
  { pm with
    installedPackages :=
      pm.localStorage.foldl
        (fun set p =>
          if "package_".toList.isPrefixOf p.1 then setAdd set (p.1.drop 8) else set)
        pm.installedPackages }

/-! ## Transliteration engine: the installed-pack path -/

/-- The outcome of the read `packageData.data.words[language]` when truthy. -/
inductive LangRead where
  /-- An own entry of `words`. -/
  | data (d : LangData)
  /-- A property inherited from `Object.prototype`: a truthy host object with
  no `transliteration` property. -/
  | inherited
  deriving DecidableEq, Repr

/-- The loop of `getLanguageData` over the remaining installed ids. -/
def getLanguageDataFrom (pm : PackageManager) (language : Str) :
    List Str → Outcome (Option LangRead)
  | [] => .returned none
  | packageId :: rest =>
    match getPackageData pm packageId with
    | .threw e => .threw e
    | .hostDefined => .hostDefined
    | .returned none => getLanguageDataFrom pm language rest
    | .returned (some packageData) =>
      match packageData.words.lookup language with
      | some d => .returned (some (.data d))
      | none =>
        if isInherited language then .returned (some .inherited)
        else getLanguageDataFrom pm language rest

/-- The method `getLanguageData(language)`; `none` is `null`. -/
def getLanguageData (pm : PackageManager) (language : Str) : Outcome (Option LangRead) :=
  getLanguageDataFrom pm language pm.installedPackages

/-- The class `\w` of a pattern without the `u` and `i` flags: the digits, the
ASCII letters and the underscore. -/
def isWordChar (c : Char) : Bool :=
  let n := c.toNat
  (48 ≤ n && n ≤ 57) || (65 ≤ n && n ≤ 90) || n == 95 || (97 ≤ n && n ≤ 122)

/-- Whether the text starts with a `\w` character. -/
def startsWithWordChar : Str → Bool
  | [] => false
  | c :: _ => isWordChar c

/-- The call `result.replace(new RegExp('\\b' + english + '\\b', 'g'), native)`
for a non-empty `english` of `\w` characters, scanning from a position:
`prevWord` tells whether the character before the position is a `\w`, and
`skip` counts the characters of the last match still to be passed.  A match
needs a word boundary before, the characters of `english`, and a word boundary
after; the scan resumes after the match. -/
def replaceWordFrom (english native : Str) : Bool → Nat → Str → Str
  | _, _, [] => []
  | _, skip + 1, c :: cs => replaceWordFrom english native (isWordChar c) skip cs
  | prevWord, 0, c :: cs =>
    if !prevWord && english.isPrefixOf (c :: cs) &&
        !startsWithWordChar ((c :: cs).drop english.length) then
      native ++ replaceWordFrom english native (isWordChar c) (english.length - 1) cs
    else c :: replaceWordFrom english native (isWordChar c) 0 cs

/-- The call `result.replace(new RegExp('\\b' + english + '\\b', 'g'), native)`.
The embedding describes it when `english` is a non-empty run of `\w` characters
(the pattern then is that literal word) and `native` has no `$` (the
replacement then is that literal text). -/
def replaceWord (english native result : Str) : Outcome Str :=
  if !english.isEmpty && english.all isWordChar && !native.contains '$' then
    .returned (replaceWordFrom english native false 0 result)
  else .hostDefined

/-- The loop `for (const [english, native] of Object.entries(...))`. -/
def applyWordMappings : Table → Str → Outcome Str
  | [], result => .returned result
  | (english, native) :: rest, result =>
    match replaceWord english native result with
    | .returned result1 => applyWordMappings rest result1
    | .threw e => .threw e
    | .hostDefined => .hostDefined

/-- The statements of the `try` block of `transliterateOffline`, with the
conversions of the ASCII letters. -/
def transliterateOfflineBody (pm : PackageManager) (text targetLang : Str) : Outcome Str :=
  let cleanText := trim text
  match getLanguageData pm targetLang with
  | .threw e => .threw e
  | .hostDefined => .hostDefined
  | .returned none => basicTransliteration cleanText targetLang
  | .returned (some langData) =>
    let result := toLowerCase cleanText
    let mapped : Outcome Str :=
      match langData with
      | .data { transliteration := some rules, .. } => applyWordMappings rules result
      | _ => .returned result
    match mapped with
    | .returned result1 => .returned (trim (applyCharacterMapping result1 targetLang))
    | .threw e => .threw e
    | .hostDefined => .hostDefined

/-- The method `transliterateOffline(text, targetLang, sourceLang)` with the
conversions of the ASCII letters: the `try` block, and `return text` in the
`catch` block. -/
def transliterateOffline (pm : PackageManager) (text targetLang _sourceLang : Str) :
    Outcome Str :=
  match transliterateOfflineBody pm text targetLang with
  | .threw _ => .returned text
  | o => o

/-- The method `transliterateOnline(text, targetLang, sourceLang)` with the
conversions of the ASCII letters. -/
def transliterateOnline (pm : PackageManager) (text targetLang sourceLang : Str) :
    Outcome Str :=
  transliterateOffline pm text targetLang sourceLang

/-- The method `transliterate(text, targetLang, sourceLang)` of an engine whose
`this.provider` is `provider`, with the conversions of the ASCII letters. -/
def transliterate (pm : PackageManager) (provider text targetLang sourceLang : Str) :
    Outcome Str :=
  if text.isEmpty || (trim text).isEmpty then .returned []
  else if provider = "api".toList then transliterateOnline pm text targetLang sourceLang
  else if provider = "local".toList then transliterateOffline pm text targetLang sourceLang
  else if provider = "hybrid".toList then
    match transliterateOffline pm text targetLang sourceLang with
    | .threw _ => transliterateOffline pm text targetLang sourceLang
    | o => o
  else transliterateOffline pm text targetLang sourceLang

/-- The method `basicTransliteration(text, targetLang)`. -/
def CaseHost.basicTransliteration (host : CaseHost) (text targetLang : Str) : Outcome Str :=
  if targetLang = "en".toList then .returned (host.toUpperCase text)
  else
    match readBasicMap targetLang with
    | .undefined => .returned text
    | .inherited => .hostDefined
    | .table map =>
      let words := splitSpace (host.toLowerCase text)
      .returned (trim (words.foldl (mapWord map) []))

/-- The statements of the `try` block of `transliterateOffline`. -/
def CaseHost.transliterateOfflineBody (host : CaseHost) (pm : PackageManager)
    (text targetLang : Str) : Outcome Str :=
  let cleanText := trim text
  match getLanguageData pm targetLang with
  | .threw e => .threw e
  | .hostDefined => .hostDefined
  | .returned none => host.basicTransliteration cleanText targetLang
  | .returned (some langData) =>
    let result := host.toLowerCase cleanText
    let mapped : Outcome Str :=
      match langData with
      | .data { transliteration := some rules, .. } => applyWordMappings rules result
      | _ => .returned result
    match mapped with
    | .returned result1 => .returned (trim (applyCharacterMapping result1 targetLang))
    | .threw e => .threw e
    | .hostDefined => .hostDefined

/-- The method `transliterateOffline(text, targetLang, sourceLang)`: the `try`
block, and `return text` in the `catch` block. -/
def CaseHost.transliterateOffline (host : CaseHost) (pm : PackageManager)
    (text targetLang _sourceLang : Str) : Outcome Str :=
  match host.transliterateOfflineBody pm text targetLang with
  | .threw _ => .returned text
  | o => o

/-- The method `transliterateOnline(text, targetLang, sourceLang)`. -/
def CaseHost.transliterateOnline (host : CaseHost) (pm : PackageManager)
    (text targetLang sourceLang : Str) : Outcome Str :=
  host.transliterateOffline pm text targetLang sourceLang

/-- The method `transliterate(text, targetLang, sourceLang)` of an engine whose
`this.provider` is `provider`. -/
def CaseHost.transliterate (host : CaseHost) (pm : PackageManager)
    (provider text targetLang sourceLang : Str) : Outcome Str :=
  if text.isEmpty || (trim text).isEmpty then .returned []
  else if provider = "api".toList then host.transliterateOnline pm text targetLang sourceLang
  else if provider = "local".toList then host.transliterateOffline pm text targetLang sourceLang
  else if provider = "hybrid".toList then
    match host.transliterateOffline pm text targetLang sourceLang with
    | .threw _ => host.transliterateOffline pm text targetLang sourceLang
    | o => o
  else host.transliterateOffline pm text targetLang sourceLang

/-- A store with nothing installed and nothing stored. -/
def emptyStore : PackageManager := { localStorage := [], installedPackages := [] }

/-- The nine language codes that are own keys of `basicMaps`. -/
def fallbackCodes : List Str := basicMaps.map fun p => p.1.toList

/-! ## Definitions used to state the claims -/

/-- A store whose only installed package has a stored text that `JSON.parse`
rejects. -/
def corruptStore : PackageManager :=
  { localStorage := [("package_hindi".toList, .corrupt)], installedPackages := ["hindi".toList] }

/-- A word map whose keys are non-empty runs of `\w` characters and whose values
are non-empty and have no `\w` character, no white space and no `$`. -/
def PlainRules (rules : Table) : Bool :=
  rules.all fun p =>
    !p.1.isEmpty && p.1.all isWordChar && !p.2.isEmpty &&
      p.2.all fun c => !isWordChar c && !isWhiteSpace c && !(c == '$')

/-- The store after a successful download of the catalog pack `hindi` into the
empty store. -/
def hindiStore : PackageManager :=
  (downloadPackage ⟨"2024-01-01T00:00:00.000Z".toList, true, true⟩ emptyStore
    "hindi".toList).1

/-- The per-language object that `generateLanguageData` builds for `lang`. -/
def generatedLangData (lang : Str) : LangData :=
  { commonWords := getCommonWords lang
    transliteration := getTranslitRules lang
    ocrPatterns := getOCRPatterns lang }

/-- Whether every word map that `storePackage` writes for the catalog pack has
plain keys and values. -/
def packRulesPlain (pack : LanguagePackage) : Bool :=
  (generateLanguageData pack.languages).all fun e =>
    match e.2.transliteration with
    | some rules => PlainRules rules
    | none => true

/-- The text passes the guard `!text || !text.trim()`. -/
def NonBlank (text : Str) : Prop := trim text ≠ []

instance (text : Str) : Decidable (NonBlank text) := by
  unfold NonBlank; infer_instance

/-- Neither the first nor the last character of the text is white space. -/
def Trimmed (s : Str) : Prop :=
  (∀ c ∈ s.head?, isWhiteSpace c = false) ∧ (∀ c ∈ s.getLast?, isWhiteSpace c = false)

instance (s : Str) : Decidable (Trimmed s) := by
  unfold Trimmed; infer_instance

/-- The own entries of `basicMaps[targetLang]`, empty when there are none. -/
def fallbackTable (targetLang : Str) : Table :=
  match readBasicMap targetLang with
  | .table map => map
  | _ => []

/-- The nine tables of `basicMaps`. -/
def fallbackTables : List Table := basicMaps.map fun p => mkTable p.2

/-- Lower case of one code point among the ASCII letters, the capitals of
Latin-1 (`À` to `Þ`) and the Kelvin sign U+212A, whose lower case is `k`. -/
def latinLower (c : Char) : Char :=
  let n := c.toNat
  if n = 0x212A then 'k'
  else if 0xC0 ≤ n ∧ n ≤ 0xDE ∧ n ≠ 0xD7 then Char.ofNat (n + 32)
  else c.toLower

/-- Upper case of one code point among the ASCII letters and the small letters
of Latin-1 (`à` to `þ`, and `ß`, whose upper case is `SS`). -/
def latinUpper (c : Char) : Str :=
  let n := c.toNat
  if n = 0xDF then ['S', 'S']
  else if 0xE0 ≤ n ∧ n ≤ 0xFE ∧ n ≠ 0xF7 then [Char.ofNat (n - 32)]
  else [c.toUpper]

/-- The conversions of a host written out for the ASCII letters, the letters
`À` to `þ` of Latin-1 and the Kelvin sign: what every host computes on a text
whose cased characters are all among these. -/
def latinCase : CaseHost :=
  { toLowerCase := fun s => s.map latinLower
    toUpperCase := fun s => s.flatMap latinUpper }

/-- Every character of every key of the table has an entry of its own in the
table. -/
def keysAllMapped (map : Table) : Bool :=
  map.all fun p => p.1.all fun d => (map.lookup [d]).isSome

/-- Every key of the table and every inherited property name has a character
with an entry of its own in the table. -/
def keysHaveMappedChar (map : Table) : Bool :=
  ((map.map fun p => p.1) ++ (mkTable objectPrototype).map fun p => p.1).all fun key =>
    key.any fun d => (map.lookup [d]).isSome

/-- Every value of the table is non-empty and free of white space. -/
def valuesPlain (map : Table) : Bool :=
  map.all fun p => !p.2.isEmpty && p.2.all fun c => !isWhiteSpace c

/-- The substitution of one character as the claims word it: the entry of the
table for that character, the character itself when there is none. -/
def substituteChar (map : Table) (c : Char) : Str :=
  match map.lookup [c] with
  | some v => v
  | none => [c]

/-- The replacement of one word as the claims word it: the entry of the table
when the whole word is a key of it, the substitutions of its characters put
together otherwise. -/
def substituteWord (map : Table) (word : Str) : Str :=
  match map.lookup word with
  | some v => v
  | none => word.flatMap (substituteChar map)

/-- The fallback result as the claims word it: the trimmed, lower-cased text cut
into words at every single space, each word replaced, and the pieces joined by
single spaces. -/
def wordwiseFallback (map : Table) (text : Str) : Str :=
  List.intercalate [' '] ((splitSpace (toLowerCase (trim text))).map (substituteWord map))

/-- The fallback result as the claims word it, with the lower-casing of the
host: the trimmed, lower-cased text cut into words at every single space, each
word replaced, and the pieces joined by single spaces. -/
def CaseHost.wordwiseFallback (host : CaseHost) (map : Table) (text : Str) : Str :=
  List.intercalate [' '] ((splitSpace (host.toLowerCase (trim text))).map (substituteWord map))

/-- The text cut into its maximal runs of `\w` characters and the single
characters between them. -/
def tokens : Str → List Str
  | [] => []
  | c :: cs =>
    if isWordChar c then
      match tokens cs with
      | [] => [[c]]
      | t :: ts => if startsWithWordChar t then (c :: t) :: ts else [c] :: t :: ts
    else [c] :: tokens cs

/-- The value of `rules` for the piece `t`, the piece itself when it is no key. -/
def lookupOr (rules : Table) (t : Str) : Str :=
  match rules.lookup t with
  | some v => v
  | none => t

/-- The whole-word replacement as the claims word it: every maximal run of `\w`
characters that is a key of `rules` is replaced by its value, and everything
else is kept. -/
def replaceWholeWords (rules : Table) (s : Str) : Str :=
  ((tokens s).map (lookupOr rules)).flatten

/-- One pass of the whole-word replacement on a piece. -/
def substTok (english native t : Str) : Str := if t = english then native else t

/-- A cut of a text into non-empty pieces, each either free of `\w` characters or
a run of `\w` characters that the next piece does not continue. -/
def ValidToks : List Str → Prop
  | [] => True
  | t :: ts =>
    ValidToks ts ∧ t ≠ [] ∧
      ((∀ c ∈ t, isWordChar c = false) ∨
        ((∀ c ∈ t, isWordChar c = true) ∧ startsWithWordChar ts.flatten = false))

/-! ## Language-pack store: installed languages and sequences of calls -/

/-- The loop of `getInstalledLanguages` over the remaining installed ids, with
the set `languages` built so far.  For an inherited id the read gives a truthy
host object and `pack.languages.forEach` throws a `TypeError`. -/
def getInstalledLanguagesFrom : List Str → List Str → Outcome (List Str)
  | [], languages => .returned languages
  | packageId :: rest, languages =>
    match readPackage packageId with
    | .pack pack => getInstalledLanguagesFrom rest (pack.languages.foldl setAdd languages)
    | .undefined => getInstalledLanguagesFrom rest languages
    | .inherited => .threw .typeError

/-- The method `getInstalledLanguages()`. -/
def getInstalledLanguages (pm : PackageManager) : Outcome (List Str) :=
  getInstalledLanguagesFrom pm.installedPackages []

/-- The store at startup: the constructor's empty set, then
`loadInstalledPackages()` over the storage found. -/
def startup (storage : List (Str × Blob)) : PackageManager :=
  loadInstalledPackages { localStorage := storage, installedPackages := [] }

/-- A call on the store: `downloadPackage(packageId)` with what the host decides
during it, or `uninstallPackage(packageId)` with the user's answer. -/
inductive StoreCall where
  | download (host : DownloadHost) (packageId : Str)
  | uninstall (packageId : Str) (confirmed : Bool)
  deriving DecidableEq, Repr

/-- The state a call leaves; a call that throws before it changes anything
leaves the state as it was. -/
def applyCall (pm : PackageManager) : StoreCall → PackageManager
  | .download host packageId => (downloadPackage host pm packageId).1
  | .uninstall packageId confirmed =>
    match uninstallPackage pm packageId confirmed with
    | .returned pm1 => pm1
    | _ => pm

/-- The state a sequence of calls leaves. -/
def runCalls (pm : PackageManager) (calls : List StoreCall) : PackageManager :=
  calls.foldl applyCall pm

/-- Whether storage has an entry under `key`. -/
def hasItem (storage : List (Str × Blob)) (key : Str) : Bool :=
  (getItem storage key).isSome

/-- Every installed id has an entry under `package_<id>`. -/
def InstalledAreStored (pm : PackageManager) : Prop :=
  ∀ packageId, packageId ∈ pm.installedPackages →
    hasItem pm.localStorage (packageKey packageId) = true

/-- An entry under `package_<id>` exists exactly for the installed ids. -/
def StoredIffInstalled (pm : PackageManager) : Prop :=
  ∀ packageId, hasItem pm.localStorage (packageKey packageId) = true ↔
    packageId ∈ pm.installedPackages

/-- A download of a catalog pack whose storage write succeeds and whose quota
re-check then fails. -/
def failsAfterWrite : StoreCall → Bool
  | .download host packageId =>
    (match readPackage packageId with
      | .pack _ => true
      | _ => false) && host.writeOk && !host.quotaOk
  | .uninstall _ _ => false

/-- The store after the startup rebuild over a storage whose only key is
`package_foo`, an id the catalog does not have. -/
def foreignStore : PackageManager := startup [("package_foo".toList, .corrupt)]

/-! ## OCR engine -/

/-- The fields of an `OCREngine`: `provider`, `tesseractWorker` (`none` is
`null`; a worker is named by a number), `isInitialized`, and
`apiKeys.ocrSpace`. -/
structure OCREngine where
  provider : Str
  tesseractWorker : Option Nat
  isInitialized : Bool
  ocrSpace : Str
  deriving DecidableEq, Repr

/-- The engine the constructor builds. -/
def newOCREngine : OCREngine :=
  { provider := "api".toList, tesseractWorker := none, isInitialized := false, ocrSpace := [] }

/-- The method `setProvider(provider)`. -/
def setProvider (engine : OCREngine) (provider : Str) : OCREngine :=
  { engine with provider := provider }

/-- The method `setApiKeys(keys)`, with `keys.ocrSpace`. -/
def setApiKeys (engine : OCREngine) (ocrSpace : Str) : OCREngine :=
  { engine with ocrSpace := ocrSpace }

/-- What `PackageManager.setMode(mode)` does to the OCR engine:
`window.ocrEngine.setProvider(mode)`. -/
def setMode (engine : OCREngine) (mode : Str) : OCREngine :=
  setProvider engine mode

/-- An exception of the OCR engine. -/
inductive OcrFailure where
  /-- The value of `new Error(message)`. -/
  | error (message : Str)
  /-- A `TypeError`. -/
  | typeError
  /-- A rejection that comes from the recognition library or the network. -/
  | rejected
  deriving DecidableEq, Repr

/-- How a call of the OCR engine ends. -/
inductive Attempt (α : Type) where
  | done (value : α)
  | failed (failure : OcrFailure)
  deriving DecidableEq, Repr

/-- What the calls of the OCR engine do outside the engine's fields. -/
inductive OcrEvent where
  /-- The call `Tesseract.createWorker` fulfilled with this worker. -/
  | workerCreated (worker : Nat)
  /-- The call `worker.terminate()`. -/
  | workerTerminated (worker : Nat)
  /-- The call `worker.recognize(imageData)`. -/
  | recognizeCalled (worker : Nat)
  /-- The method `processLocally` was entered. -/
  | localPath
  /-- The method `processWithAPI` was entered. -/
  | remotePath
  /-- The request to the remote endpoint was sent. -/
  | remoteRequest
  deriving DecidableEq, Repr

/-- The object `result.data` of a recognition: the text and the score the
library reports (`none` when the field is absent). -/
structure Recognition where
  text : Str
  confidence : Option Nat
  deriving DecidableEq, Repr

/-- An element of `data.ParsedResults`. -/
structure ParsedResult where
  parsedText : Str
  fileParseExitCode : Int
  deriving DecidableEq, Repr

/-- The JSON body `data` of the remote response: `IsErroredOnProcessing`,
`ErrorMessage` and `ParsedResults` (`none` when the field is absent). -/
structure ApiResponse where
  isErroredOnProcessing : Bool
  errorMessage : Option Str
  parsedResults : Option (List ParsedResult)
  deriving DecidableEq, Repr

/-- What the host decides during one call of the OCR engine, for the image at
hand. -/
structure OcrHost where
  /-- Whether `typeof Tesseract` is not `'undefined'`. -/
  tesseractLoaded : Bool
  /-- The worker `Tesseract.createWorker` fulfils with; `none` when it rejects. -/
  createWorker : Option Nat
  /-- Whether `worker.loadLanguage` fulfils. -/
  loadLanguageOk : Bool
  /-- Whether `worker.initialize` fulfils. -/
  initOk : Bool
  /-- Whether `worker.setParameters` fulfils. -/
  setParametersOk : Bool
  /-- The result of `worker.recognize`; `none` when it rejects. -/
  recognize : Option Recognition
  /-- Whether `fetch(imageData)` and `response.blob()` fulfil. -/
  fetchImageOk : Bool
  /-- The parsed body of the remote response; `none` when the request or
  `ocrResponse.json()` rejects. -/
  remote : Option ApiResponse
  deriving DecidableEq, Repr

/-- The object an OCR call returns. -/
structure OCRResult where
  text : Str
  confidence : Nat
  provider : Str
  deriving DecidableEq, Repr

/-- The engine after a call, how the call ended, and what it did. -/
structure Ran (α : Type) where
  engine : OCREngine
  result : Attempt α
  events : List OcrEvent

/-- The method `initializeTesseract()`.  The worker is stored in
`this.tesseractWorker` as soon as it is created; `this.isInitialized` is set
after `loadLanguage` and `initialize`. -/
def initializeTesseract (host : OcrHost) (pm : PackageManager) (engine : OCREngine) :
    Ran Unit :=
  if engine.isInitialized then ⟨engine, .done (), []⟩
  else if !host.tesseractLoaded then
    ⟨engine, .failed (.error "Tesseract.js not loaded".toList), []⟩
  else
    match host.createWorker with
    | none => ⟨engine, .failed .rejected, []⟩
    | some worker =>
      let engine1 := { engine with tesseractWorker := some worker }
      match getInstalledLanguages pm with
      | .returned _ =>
        if !host.loadLanguageOk then ⟨engine1, .failed .rejected, [.workerCreated worker]⟩
        else if !host.initOk then ⟨engine1, .failed .rejected, [.workerCreated worker]⟩
        else ⟨{ engine1 with isInitialized := true }, .done (), [.workerCreated worker]⟩
      | _ => ⟨engine1, .failed .typeError, [.workerCreated worker]⟩

/-- The expression `result.data.confidence || 85`. -/
def confidenceOr85 (confidence : Option Nat) : Nat :=
  match confidence with
  | some score => if score = 0 then 85 else score
  | none => 85

/-- The `try` block of `processLocally`, on the engine's worker. -/
def recognizeWith (host : OcrHost) (engine : OCREngine) : Ran OCRResult :=
  match engine.tesseractWorker with
  | none => ⟨engine, .failed .typeError, []⟩
  | some worker =>
    if !host.setParametersOk then ⟨engine, .failed .rejected, []⟩
    else
      match host.recognize with
      | none => ⟨engine, .failed .rejected, [.recognizeCalled worker]⟩
      | some data =>
        ⟨engine,
         .done
           { text := trim data.text, confidence := confidenceOr85 data.confidence,
             provider := "local".toList },
         [.recognizeCalled worker]⟩

/-- The method `processLocally(imageData, options)`. -/
def processLocally (host : OcrHost) (pm : PackageManager) (engine : OCREngine) :
    Ran OCRResult :=
  if engine.isInitialized then
    let r := recognizeWith host engine
    ⟨r.engine, r.result, .localPath :: r.events⟩
  else
    match initializeTesseract host pm engine with
    | ⟨engine1, .failed failure, events⟩ => ⟨engine1, .failed failure, .localPath :: events⟩
    | ⟨engine1, .done _, events⟩ =>
      let r := recognizeWith host engine1
      ⟨r.engine, r.result, .localPath :: (events ++ r.events)⟩

/-- The expression `data.ErrorMessage || 'OCR processing failed'`. -/
def errorMessageOrDefault (errorMessage : Option Str) : Str :=
  match errorMessage with
  | some message => if message.isEmpty then "OCR processing failed".toList else message
  | none => "OCR processing failed".toList

/-- What `processWithAPI` does with the body `data` of the response. -/
def readResponse (data : ApiResponse) : Attempt OCRResult :=
  if data.isErroredOnProcessing then .failed (.error (errorMessageOrDefault data.errorMessage))
  else
    match data.parsedResults with
    | some (first :: _) =>
      .done
        { text := first.parsedText
          confidence := if first.fileParseExitCode = 1 then 95 else 75
          provider := "api".toList }
    | _ => .failed (.error "No text found in image".toList)

/-- The method `processWithAPI(imageData, options)`. -/
def processWithAPI (host : OcrHost) (engine : OCREngine) : Ran OCRResult :=
  if engine.ocrSpace.isEmpty then
    ⟨engine, .failed (.error "OCR API key not configured".toList), [.remotePath]⟩
  else if !host.fetchImageOk then ⟨engine, .failed .rejected, [.remotePath]⟩
  else
    match host.remote with
    | none => ⟨engine, .failed .rejected, [.remotePath, .remoteRequest]⟩
    | some data => ⟨engine, readResponse data, [.remotePath, .remoteRequest]⟩

/-- The method `processImage(imageData, options)`. -/
def processImage (host : OcrHost) (pm : PackageManager) (engine : OCREngine) :
    Ran OCRResult :=
  if engine.provider = "api".toList then processWithAPI host engine
  else if engine.provider = "local".toList then processLocally host pm engine
  else if engine.provider = "hybrid".toList then
    match processLocally host pm engine with
    | ⟨engine1, .done value, events⟩ => ⟨engine1, .done value, events⟩
    | ⟨engine1, .failed _, events⟩ =>
      let r := processWithAPI host engine1
      ⟨r.engine, r.result, events ++ r.events⟩
  else ⟨engine, .failed (.error ("Unknown provider: ".toList ++ engine.provider)), []⟩

/-- The method `terminate()`. -/
def terminate (engine : OCREngine) : Ran Unit :=
  match engine.tesseractWorker with
  | some worker =>
    ⟨{ engine with tesseractWorker := none, isInitialized := false }, .done (),
     [.workerTerminated worker]⟩
  | none => ⟨engine, .done (), []⟩

/-- What `SignTranslatorApp.handleModeChange(mode)` does to the OCR engine, with
the text of the API key field.  For `offline` the local constant
`packageManager` is the element found in the document (or `null`), and the read
`packageManager.installedPackages.size` throws a `TypeError`; for `online` with
an empty key field the method returns before it reaches the engines. -/
def handleModeChange (engine : OCREngine) (mode apiKeyField : Str) : Attempt OCREngine :=
  if mode = "offline".toList then .failed .typeError
  else if mode = "online".toList then
    if apiKeyField.isEmpty then .done engine else .done (setProvider engine mode)
  else .done (setProvider engine mode)

/-- A call on the local OCR engine: a local recognition, an initialisation
attempt, or a teardown. -/
inductive LocalCall where
  | recognize (host : OcrHost)
  | init (host : OcrHost)
  | teardown
  deriving DecidableEq, Repr

/-- The engine a local call leaves and what the call did. -/
def applyLocal (pm : PackageManager) (engine : OCREngine) : LocalCall → OCREngine × List OcrEvent
  | .recognize host => ((processLocally host pm engine).engine, (processLocally host pm engine).events)
  | .init host =>
    ((initializeTesseract host pm engine).engine, (initializeTesseract host pm engine).events)
  | .teardown => ((terminate engine).engine, (terminate engine).events)

/-- The engine a sequence of local calls leaves and everything the calls did, in
order. -/
def runLocal (pm : PackageManager) : OCREngine → List LocalCall → OCREngine × List OcrEvent
  | engine, [] => (engine, [])
  | engine, call :: rest =>
    let step := applyLocal pm engine call
    let tail := runLocal pm step.1 rest
    (tail.1, step.2 ++ tail.2)

/-- The engine is marked initialised exactly when it holds a worker. -/
def InitializedIffWorker (engine : OCREngine) : Prop :=
  engine.isInitialized = true ↔ engine.tesseractWorker.isSome = true

/-- No two workers are created without a teardown between them. -/
def createdOnceBetweenTeardowns : Bool → List OcrEvent → Bool
  | _, [] => true
  | live, .workerCreated _ :: rest => !live && createdOnceBetweenTeardowns true rest
  | _, .workerTerminated _ :: rest => createdOnceBetweenTeardowns false rest
  | live, _ :: rest => createdOnceBetweenTeardowns live rest

instance (engine : OCREngine) : Decidable (InitializedIffWorker engine) := by
  unfold InitializedIffWorker; infer_instance

/-- Whether an initialisation with this host, once it has created a worker, runs
to its end: the installed languages are read, `loadLanguage` and `initialize`
fulfil. -/
def initCompletes (pm : PackageManager) (host : OcrHost) : Bool :=
  !host.tesseractLoaded || host.createWorker.isNone ||
    ((match getInstalledLanguages pm with
      | .returned _ => true
      | _ => false) && host.loadLanguageOk && host.initOk)

/-- Whether a local call, if it initialises, runs the initialisation to its
end. -/
def completesInit (pm : PackageManager) : LocalCall → Bool
  | .recognize host => initCompletes pm host
  | .init host => initCompletes pm host
  | .teardown => true

/-- The call `transliterate(transliterate(text, lang), lang)`: the second call
is made on what the first returns. -/
def transliterateTwice (pm : PackageManager) (provider text targetLang sourceLang : Str) :
    Outcome Str :=
  match transliterate pm provider text targetLang sourceLang with
  | .returned once => transliterate pm provider once targetLang sourceLang
  | o => o

/-- Every key of the table is made of the letters `a` to `z`, and every
character of a value is its own lower case and has no entry in the table. -/
def tableFixed (map : Table) : Bool :=
  map.all fun p =>
    (p.1.all fun c => 97 ≤ c.toNat && c.toNat ≤ 122) &&
      p.2.all fun d => d.toLower == d && (map.lookup [d]).isNone

/-! ## Basic facts about the host string functions -/

theorem dropWhile_append_of_all {p : Char → Bool} (a l : Str) (h : ∀ c ∈ a, p c = true) :
    (a ++ l).dropWhile p = l.dropWhile p := by
  induction a with
  | nil => rfl
  | cons x a ih =>
    have hx : p x = true := h x (List.mem_cons_self x a)
    rw [List.cons_append, List.dropWhile_cons, if_pos hx]
    exact ih fun c hc => h c (List.mem_cons_of_mem x hc)

theorem dropWhile_of_head {p : Char → Bool} (l : Str) (h : ∀ c ∈ l.head?, p c = false) :
    l.dropWhile p = l := by
  cases l with
  | nil => rfl
  | cons x l =>
    have hx : p x = false := h x rfl
    rw [List.dropWhile_cons]
    simp [hx]

theorem head_dropWhile {p : Char → Bool} (l : Str) : ∀ c ∈ (l.dropWhile p).head?, p c = false := by
  intro c hc
  have h := List.head?_dropWhile_not p l
  rw [Option.mem_def] at hc
  rw [hc] at h
  exact h

theorem getLast_dropWhile {p : Char → Bool} (l : Str) (c : Char)
    (h : (l.dropWhile p).getLast? = some c) : l.getLast? = some c := by
  obtain ⟨t, ht⟩ := List.dropWhile_suffix (l := l) p
  rw [← ht, List.getLast?_append, h]
  rfl

theorem trimStart_of_all (s : Str) (h : s.all isWhiteSpace = true) : trimStart s = [] := by
  unfold trimStart
  rw [List.dropWhile_eq_nil_iff]
  simpa using h

theorem trim_of_all (s : Str) (h : s.all isWhiteSpace = true) : trim s = [] := by
  simp [trim, trimStart_of_all s h, trimEnd]

theorem trim_trimmed (s : Str) : Trimmed (trim s) := by
  unfold trim trimEnd trimStart
  constructor
  · intro c hc
    rw [Option.mem_def, List.head?_reverse] at hc
    have h1 := getLast_dropWhile _ c hc
    rw [List.getLast?_reverse] at h1
    exact head_dropWhile s c h1
  · intro c hc
    rw [Option.mem_def, List.getLast?_reverse] at hc
    exact head_dropWhile _ c hc

theorem trim_sandwich (a m b : Str) (ha : ∀ c ∈ a, isWhiteSpace c = true)
    (hb : ∀ c ∈ b, isWhiteSpace c = true) (hm : Trimmed m) : trim (a ++ m ++ b) = m := by
  cases m with
  | nil =>
    apply trim_of_all
    simp only [List.append_nil, List.all_append, Bool.and_eq_true, List.all_eq_true]
    exact ⟨ha, hb⟩
  | cons x m =>
    have h1 : trimStart (a ++ (x :: m) ++ b) = (x :: m) ++ b := by
      unfold trimStart
      rw [List.append_assoc, dropWhile_append_of_all a _ ha]
      exact dropWhile_of_head _ fun c hc => hm.1 c (by simpa using hc)
    unfold trim trimEnd
    rw [h1, List.reverse_append,
      dropWhile_append_of_all b.reverse _ fun c hc => hb c (List.mem_reverse.mp hc),
      dropWhile_of_head _ fun c hc => hm.2 c (by rw [← List.head?_reverse]; exact hc),
      List.reverse_reverse]

theorem trim_append_space (m : Str) (hm : Trimmed m) : trim (m ++ [' ']) = m := by
  have h := trim_sandwich [] m [' '] (by simp) (by simp; decide) hm
  simpa using h

theorem toNat_ofNat_small (n : Nat) (h : n < 0xd800) : (Char.ofNat n).toNat = n := by
  unfold Char.ofNat
  have hv : n.isValidChar := Or.inl h
  simp only [hv, dif_pos]
  simp [Char.ofNatAux, Char.toNat, UInt32.toNat]

theorem toNat_toLower (c : Char) :
    c.toLower.toNat = if 65 ≤ c.toNat ∧ c.toNat ≤ 90 then c.toNat + 32 else c.toNat := by
  unfold Char.toLower
  simp only [ge_iff_le]
  split
  · rename_i h
    exact toNat_ofNat_small _ (by omega)
  · rfl

theorem isWhiteSpace_of_printable (c : Char) (h : 33 ≤ c.toNat ∧ c.toNat ≤ 126) :
    isWhiteSpace c = false := by
  simp only [isWhiteSpace, Bool.or_eq_false_iff, Bool.and_eq_false_imp, beq_eq_false_iff_ne,
    ne_eq, decide_eq_false_iff_not, decide_eq_true_eq]
  omega

theorem isWhiteSpace_of_isWordChar (c : Char) (h : isWordChar c = true) :
    isWhiteSpace c = false := by
  apply isWhiteSpace_of_printable
  simp only [isWordChar, Bool.or_eq_true, Bool.and_eq_true, decide_eq_true_eq,
    beq_iff_eq] at h
  omega

theorem isWhiteSpace_toLower (c : Char) : isWhiteSpace c.toLower = isWhiteSpace c := by
  by_cases h : 65 ≤ c.toNat ∧ c.toNat ≤ 90
  · have h1 : c.toLower.toNat = c.toNat + 32 := by rw [toNat_toLower, if_pos h]
    rw [isWhiteSpace_of_printable c (by omega), isWhiteSpace_of_printable c.toLower (by omega)]
  · have h1 : c.toLower = c := by
      unfold Char.toLower
      simp only [ge_iff_le]
      rw [if_neg h]
    rw [h1]

theorem trimmed_toLowerCase (m : Str) (hm : Trimmed m) : Trimmed (toLowerCase m) := by
  unfold Trimmed toLowerCase at *
  rw [List.head?_map, List.getLast?_map]
  constructor
  · intro c hc
    simp only [Option.mem_def, Option.map_eq_some'] at hc
    obtain ⟨d, hd, rfl⟩ := hc
    rw [isWhiteSpace_toLower]
    exact hm.1 d hd
  · intro c hc
    simp only [Option.mem_def, Option.map_eq_some'] at hc
    obtain ⟨d, hd, rfl⟩ := hc
    rw [isWhiteSpace_toLower]
    exact hm.2 d hd

/-! ## The dispatch of `transliterate` -/

theorem trim_nil : trim [] = [] := by decide

theorem NonBlank.ne_nil {text : Str} (h : NonBlank text) : text ≠ [] := by
  intro h0; subst h0; exact h trim_nil

theorem transliterateOffline_ne_threw (pm : PackageManager) (text targetLang sourceLang : Str)
    (e : JSError) : transliterateOffline pm text targetLang sourceLang ≠ .threw e := by
  unfold transliterateOffline
  cases h : transliterateOfflineBody pm text targetLang <;> simp

theorem transliterate_of_nonBlank (pm : PackageManager) (provider text targetLang sourceLang : Str)
    (h : NonBlank text) :
    transliterate pm provider text targetLang sourceLang =
      transliterateOffline pm text targetLang sourceLang := by
  have h1 : text.isEmpty = false := by
    cases text with
    | nil => exact absurd rfl h.ne_nil
    | cons c cs => rfl
  have h2 : (trim text).isEmpty = false := by
    unfold NonBlank at h
    cases ht : trim text with
    | nil => exact absurd ht h
    | cons c cs => rfl
  unfold transliterate
  simp only [h1, h2, Bool.or_self, Bool.false_eq_true, if_false]
  unfold transliterateOnline
  split
  · rfl
  · split
    · rfl
    · split
      · cases ho : transliterateOffline pm text targetLang sourceLang with
        | returned v => rfl
        | threw e => exact absurd ho (transliterateOffline_ne_threw _ _ _ _ e)
        | hostDefined => rfl
      · rfl

theorem basicTransliteration_ne_threw (text targetLang : Str) (e : JSError) :
    basicTransliteration text targetLang ≠ .threw e := by
  unfold basicTransliteration
  split
  · simp
  · split <;> simp

theorem transliterateOffline_of_noData (pm : PackageManager) (text targetLang sourceLang : Str)
    (h : getLanguageData pm targetLang = .returned none) :
    transliterateOffline pm text targetLang sourceLang =
      basicTransliteration (trim text) targetLang := by
  unfold transliterateOffline transliterateOfflineBody
  simp only [h]
  cases hb : basicTransliteration (trim text) targetLang with
  | returned v => rfl
  | threw e => exact absurd hb (basicTransliteration_ne_threw _ _ e)
  | hostDefined => rfl

theorem transliterate_of_noData (pm : PackageManager) (provider text targetLang sourceLang : Str)
    (hd : getLanguageData pm targetLang = .returned none) (h : NonBlank text) :
    transliterate pm provider text targetLang sourceLang =
      basicTransliteration (trim text) targetLang := by
  rw [transliterate_of_nonBlank _ _ _ _ _ h, transliterateOffline_of_noData _ _ _ _ hd]

/-! ## Fixed entries, unknown codes, blank texts, failures and providers -/

/-- C1: with no installed package supplying data for the target language,
`transliterate("road", lang)` returns the `road` entry of the built-in table for
each of the nine codes hi, ta, te, kn, ml, bn, gu, pa, or, and `"ROAD"` for en,
whatever the provider and the source hint. -/
theorem transliterate_road (pm : PackageManager) (provider sourceLang : Str)
    (lang expected : String)
    (hl : (lang, expected) ∈
      [("hi", "रोड"), ("ta", "ரோடு"), ("te", "రోడ్"), ("kn", "ರೋಡ್"), ("ml", "റോഡ്"),
       ("bn", "রোড"), ("gu", "રોડ"), ("pa", "ਰੋਡ"), ("or", "ରୋଡ"), ("en", "ROAD")])
    (hd : getLanguageData pm lang.toList = .returned none) :
    transliterate pm provider "road".toList lang.toList sourceLang =
      .returned expected.toList := by
  rw [transliterate_of_noData pm provider _ _ sourceLang hd (by decide)]
  simp only [List.mem_cons, Prod.mk.injEq, List.mem_singleton, List.not_mem_nil, or_false] at hl
  rcases hl with h | h | h | h | h | h | h | h | h | h <;> obtain ⟨rfl, rfl⟩ := h <;> decide

/-- C1, at the empty store and provider `local`, for Hindi. -/
theorem transliterate_road_witness :
    transliterate emptyStore "local".toList "road".toList "hi".toList "auto".toList =
      .returned "रोड".toList :=
  transliterate_road emptyStore "local".toList "auto".toList "hi" "रोड" (by decide) (by decide)

/-- C4, as stated, fails: for the code `fr`, which the fallback table does not
have, the text `" a "` comes back as `"a"`, without its leading and trailing
space. -/
theorem transliterate_unknown_not_unchanged :
    "fr".toList ≠ "en".toList ∧ "fr".toList ∉ fallbackCodes ∧
    getLanguageData emptyStore "fr".toList = .returned none ∧ NonBlank " a ".toList ∧
    transliterate emptyStore "local".toList " a ".toList "fr".toList "auto".toList =
      .returned "a".toList ∧
    transliterate emptyStore "local".toList " a ".toList "fr".toList "auto".toList ≠
      .returned " a ".toList := by
  decide

theorem readBasicMap_of_not_mem (targetLang : Str) (h : targetLang ∉ fallbackCodes)
    (hi : isInherited targetLang = false) : readBasicMap targetLang = .undefined := by
  unfold readBasicMap
  have hnone : (basicMaps.map fun p => (p.1.toList, mkTable p.2)).lookup targetLang = none := by
    rw [List.lookup_eq_none_iff]
    intro p hp
    simp only [List.mem_map] at hp
    obtain ⟨q, hq, rfl⟩ := hp
    simp only [bne_iff_ne, ne_eq]
    intro heq
    apply h
    unfold fallbackCodes
    exact List.mem_map.mpr ⟨q, hq, heq.symm⟩
  rw [hnone]
  simp [hi]

/-- C4, amended: for every target language code that is not `en`, not one of the
nine codes of the fallback table and not the name of a property inherited from
`Object.prototype`, with no installed pack data for it, and for every non-blank
text, `transliterate(text, lang)` returns the trimmed text, its letter case
kept. -/
theorem transliterate_unknown_trimmed (pm : PackageManager)
    (provider text targetLang sourceLang : Str)
    (hen : targetLang ≠ "en".toList) (hcodes : targetLang ∉ fallbackCodes)
    (hinh : isInherited targetLang = false)
    (hd : getLanguageData pm targetLang = .returned none) (h : NonBlank text) :
    transliterate pm provider text targetLang sourceLang = .returned (trim text) := by
  rw [transliterate_of_noData pm provider _ _ sourceLang hd h]
  unfold basicTransliteration
  rw [if_neg hen, readBasicMap_of_not_mem targetLang hcodes hinh]

/-- C4 amended, for the code `fr` and the text `"  Main Road "`. -/
theorem transliterate_unknown_trimmed_witness :
    transliterate emptyStore "local".toList "  Main Road ".toList "fr".toList "auto".toList =
      .returned "Main Road".toList :=
  transliterate_unknown_trimmed emptyStore "local".toList "  Main Road ".toList "fr".toList
    "auto".toList (by decide) (by decide) (by decide) (by decide) (by decide)

/-- C5: for every target language, provider setting and source hint,
`transliterate` returns the empty string, and does not throw, whenever the text
is empty or made of white space only. -/
theorem transliterate_blank (pm : PackageManager) (provider text targetLang sourceLang : Str)
    (h : text.all isWhiteSpace = true) :
    transliterate pm provider text targetLang sourceLang = .returned [] := by
  unfold transliterate
  simp [trim_of_all text h]

/-- C5, for the text of three spaces. -/
theorem transliterate_blank_witness :
    transliterate emptyStore "hybrid".toList "   ".toList "hi".toList "auto".toList =
      .returned [] :=
  transliterate_blank emptyStore "hybrid".toList "   ".toList "hi".toList "auto".toList
    (by decide)

theorem transliterateOffline_of_threw (pm : PackageManager) (text targetLang sourceLang : Str)
    (e : JSError) (h : transliterateOfflineBody pm text targetLang = .threw e) :
    transliterateOffline pm text targetLang sourceLang = .returned text := by
  unfold transliterateOffline
  rw [h]

/-- C8: for every non-blank text and every target language, if a step inside the
`try` block of the offline transliteration throws (the installed-package lookup,
say, because a stored text is not valid JSON), `transliterate` does not throw
and returns the original text, neither trimmed nor lower-cased. -/
theorem transliterate_fail_soft (pm : PackageManager) (provider text targetLang sourceLang : Str)
    (e : JSError) (h : NonBlank text)
    (hfail : transliterateOfflineBody pm text targetLang = .threw e) :
    transliterate pm provider text targetLang sourceLang = .returned text := by
  rw [transliterate_of_nonBlank _ _ _ _ _ h]
  exact transliterateOffline_of_threw pm text targetLang sourceLang e hfail

/-- C8, for a store whose `package_hindi` text is not valid JSON: the lookup
throws a `SyntaxError` and `" Main Road "` comes back as it went in. -/
theorem transliterate_fail_soft_witness :
    getPackageData corruptStore "hindi".toList = .threw .syntaxError ∧
    transliterate corruptStore "local".toList " Main Road ".toList "hi".toList "auto".toList =
      .returned " Main Road ".toList :=
  ⟨by decide,
   transliterate_fail_soft corruptStore "local".toList " Main Road ".toList "hi".toList
     "auto".toList .syntaxError (by decide) (by decide)⟩

/-- C9, as stated, fails: with a stored text that is not valid JSON, the blank
text of three spaces gives `""` from `transliterate` and the three spaces from
`transliterateOffline`. -/
theorem transliterate_blank_ne_offline :
    transliterate corruptStore "local".toList "   ".toList "hi".toList "auto".toList =
      .returned [] ∧
    transliterateOffline corruptStore "   ".toList "hi".toList "auto".toList =
      .returned "   ".toList ∧
    transliterate corruptStore "local".toList "   ".toList "hi".toList "auto".toList ≠
      transliterateOffline corruptStore "   ".toList "hi".toList "auto".toList := by
  decide

theorem transliterateOffline_sourceLang (pm : PackageManager)
    (text targetLang sourceLang sourceLang1 : Str) :
    transliterateOffline pm text targetLang sourceLang =
      transliterateOffline pm text targetLang sourceLang1 := rfl

theorem transliterate_of_blank (pm : PackageManager) (provider text targetLang sourceLang : Str)
    (h : ¬ NonBlank text) :
    transliterate pm provider text targetLang sourceLang = .returned [] := by
  unfold NonBlank at h
  have ht : trim text = [] := not_not.mp h
  unfold transliterate
  simp [ht]

/-- C9, amended: the result of `transliterate` depends only on the text, the
target language and the installed package data: any two provider settings and
any two source hints give the same outcome; for every non-blank text that
outcome is the one of `transliterateOffline(text, targetLang)`, and for a blank
text it is the empty string. -/
theorem transliterate_provider_independent (pm : PackageManager)
    (provider provider1 text targetLang sourceLang sourceLang1 : Str) :
    transliterate pm provider text targetLang sourceLang =
      transliterate pm provider1 text targetLang sourceLang1 ∧
    (NonBlank text →
      transliterate pm provider text targetLang sourceLang =
        transliterateOffline pm text targetLang sourceLang1) ∧
    (¬ NonBlank text →
      transliterate pm provider text targetLang sourceLang = .returned []) := by
  refine ⟨?_, ?_, ?_⟩
  · by_cases h : NonBlank text
    · rw [transliterate_of_nonBlank _ _ _ _ _ h, transliterate_of_nonBlank _ _ _ _ _ h]
      rfl
    · rw [transliterate_of_blank _ _ _ _ _ h, transliterate_of_blank _ _ _ _ _ h]
  · intro h
    rw [transliterate_of_nonBlank _ _ _ _ _ h]
    rfl
  · exact transliterate_of_blank _ _ _ _ _

/-- C9 amended, for the providers `online` and `hybrid` on `"Main Road"`. -/
theorem transliterate_provider_independent_witness :
    NonBlank "Main Road".toList ∧
    transliterate emptyStore "online".toList "Main Road".toList "hi".toList "auto".toList =
      transliterateOffline emptyStore "Main Road".toList "hi".toList "en".toList :=
  ⟨by decide,
   (transliterate_provider_independent emptyStore "online".toList "hybrid".toList
     "Main Road".toList "hi".toList "auto".toList "en".toList).2.1 (by decide)⟩

/-! ## The store: download and uninstall -/

theorem lookup_map_replace (storage : List (Str × Blob)) (key : Str) (value : Blob)
    (h : (List.lookup key storage).isSome = true) :
    List.lookup key (storage.map fun p => if p.1 = key then (key, value) else p) =
      some value := by
  induction storage with
  | nil => simp at h
  | cons p rest ih =>
    obtain ⟨a, b⟩ := p
    by_cases hk : a = key
    · subst hk
      rw [List.map_cons]
      simp only [if_true]
      rw [List.lookup_cons]
      simp
    · have hne : (key == a) = false := beq_eq_false_iff_ne.mpr fun h1 => hk h1.symm
      have h1 : (List.lookup key rest).isSome = true := by
        rw [List.lookup_cons, hne] at h
        exact h
      rw [List.map_cons]
      simp only [if_neg hk]
      rw [List.lookup_cons, hne]
      exact ih h1

theorem getItem_setItem (storage : List (Str × Blob)) (key : Str) (value : Blob) :
    getItem (setItem storage key value) key = some value := by
  unfold getItem setItem
  split
  · rename_i h
    exact lookup_map_replace storage key value h
  · rename_i h
    have hnone : List.lookup key storage = none := by
      cases hl : List.lookup key storage with
      | none => rfl
      | some v => simp [hl] at h
    rw [List.lookup_append, hnone]
    simp [List.lookup]

theorem getItem_removeItem (storage : List (Str × Blob)) (key : Str) :
    getItem (removeItem storage key) key = none := by
  unfold getItem removeItem
  rw [List.lookup_eq_none_iff]
  intro p hp
  have := (List.mem_filter.mp hp).2
  simp only [Bool.not_eq_true', beq_eq_false_iff_ne, ne_eq] at this
  simpa using fun h1 => this h1.symm

theorem mem_setAdd (set : List Str) (x : Str) : x ∈ setAdd set x := by
  unfold setAdd
  split
  · assumption
  · simp

theorem not_mem_setDelete (set : List Str) (x : Str) : x ∉ setDelete set x := by
  unfold setDelete
  simp [List.mem_filter]

theorem downloadPackage_succeeded (host : DownloadHost) (pm : PackageManager) (packageId : Str)
    (h : (downloadPackage host pm packageId).2 = .succeeded) :
    ∃ pack data, readPackage packageId = .pack pack ∧
      (downloadPackage host pm packageId).1 =
        { localStorage := setItem pm.localStorage (packageKey packageId) (.record data)
          installedPackages := setAdd pm.installedPackages packageId } := by
  unfold downloadPackage at h ⊢
  cases hr : readPackage packageId with
  | undefined => simp [hr] at h
  | inherited => simp [hr] at h
  | pack pack =>
    simp only [hr] at h ⊢
    unfold storePackage at h ⊢
    by_cases hw : host.writeOk = true
    · by_cases hq : host.quotaOk = true
      · simp only [hw, hq, if_true]
        exact ⟨pack, _, rfl, rfl⟩
      · simp [hw, hq] at h
    · simp [hw] at h

/-- C10: for every package id, after `download(id)` succeeds,
`isPackageInstalled(id)` is true and `getPackageData(id)` returns a record; a
confirmed `uninstall(id)` that follows returns and leaves
`isPackageInstalled(id)` false and `getPackageData(id)` returning `null`. -/
theorem download_then_uninstall (host : DownloadHost) (pm : PackageManager) (packageId : Str)
    (h : (downloadPackage host pm packageId).2 = .succeeded) :
    isPackageInstalled (downloadPackage host pm packageId).1 packageId = true ∧
    (∃ data, getPackageData (downloadPackage host pm packageId).1 packageId =
      .returned (some data)) ∧
    ∃ pm2, uninstallPackage (downloadPackage host pm packageId).1 packageId true =
        .returned pm2 ∧
      isPackageInstalled pm2 packageId = false ∧
      getPackageData pm2 packageId = .returned none := by
  obtain ⟨pack, data, hr, hpm⟩ := downloadPackage_succeeded host pm packageId h
  rw [hpm]
  refine ⟨?_, ⟨data, ?_⟩, ?_⟩
  · simp [isPackageInstalled, mem_setAdd]
  · simp [getPackageData, getItem_setItem]
  · refine ⟨PackageManager.mk
        (removeItem (setItem pm.localStorage (packageKey packageId) (.record data))
          (packageKey packageId))
        (setDelete (setAdd pm.installedPackages packageId) packageId), ?_, ?_, ?_⟩
    · unfold uninstallPackage
      simp only [mem_setAdd, not_true_eq_false, if_false, hr, if_true]
    · simp [isPackageInstalled, not_mem_setDelete]
    · simp [getPackageData, getItem_removeItem]

/-- C10, for the catalog id `hindi` on the empty store. -/
theorem download_then_uninstall_witness :
    (downloadPackage ⟨"2024-01-01T00:00:00.000Z".toList, true, true⟩ emptyStore
      "hindi".toList).2 = .succeeded ∧
    isPackageInstalled (downloadPackage ⟨"2024-01-01T00:00:00.000Z".toList, true, true⟩
      emptyStore "hindi".toList).1 "hindi".toList = true :=
  ⟨by decide,
   (download_then_uninstall ⟨"2024-01-01T00:00:00.000Z".toList, true, true⟩ emptyStore
     "hindi".toList (by decide)).1⟩

/-! ## The fallback on characters without an entry -/

theorem lookup_mem_keys {β : Type} (l : List (Str × β)) (k : Str) (v : β)
    (h : l.lookup k = some v) : k ∈ l.map fun p => p.1 := by
  rw [List.lookup_eq_some_iff] at h
  obtain ⟨l1, l2, rfl, _⟩ := h
  exact List.mem_map.mpr ⟨(k, v), List.mem_append_right l1 (List.mem_cons_self _ _), rfl⟩

theorem lookup_mem_values {β : Type} (l : List (Str × β)) (k : Str) (v : β)
    (h : l.lookup k = some v) : v ∈ l.map fun p => p.2 := by
  rw [List.lookup_eq_some_iff] at h
  obtain ⟨l1, l2, rfl, _⟩ := h
  exact List.mem_map.mpr ⟨(k, v), List.mem_append_right l1 (List.mem_cons_self _ _), rfl⟩

theorem readBasicMap_table (targetLang : Str) (map : Table)
    (h : readBasicMap targetLang = .table map) : map ∈ fallbackTables := by
  unfold readBasicMap at h
  cases hl : (basicMaps.map fun p => (p.1.toList, mkTable p.2)).lookup targetLang with
  | none =>
    rw [hl] at h
    simp only at h
    split at h <;> cases h
  | some m =>
    rw [hl] at h
    simp only [MapRead.table.injEq] at h
    subst h
    have := lookup_mem_values _ _ _ hl
    simpa [fallbackTables] using this

set_option maxRecDepth 100000 in
theorem fallbackTables_keysHaveMappedChar :
    ∀ map ∈ fallbackTables, keysHaveMappedChar map = true := by
  decide

theorem inherited_lookup_singleton (c : Char) :
    (mkTable objectPrototype).lookup [c] = none := by
  rw [List.lookup_eq_none_iff]
  intro p hp
  have hlen : ∀ q ∈ mkTable objectPrototype, 2 ≤ q.1.length := by decide
  have h2 := hlen p hp
  rw [bne_iff_ne]
  intro heq
  rw [← heq] at h2
  simp at h2

theorem getProp_singleton (map : Table) (c : Char) : getProp map [c] = map.lookup [c] := by
  unfold getProp
  cases h : map.lookup [c] with
  | some v => rfl
  | none => exact inherited_lookup_singleton c

theorem mapChar_of_lookup_none (map : Table) (c : Char) (h : map.lookup [c] = none) :
    mapChar map c = [c] := by
  unfold mapChar
  rw [getProp_singleton, h]

theorem mapChars_eq (map : Table) (result word : Str) :
    mapChars map result word = result ++ word.flatMap (mapChar map) := by
  unfold mapChars
  induction word generalizing result with
  | nil => simp
  | cons c cs ih =>
    rw [List.foldl_cons, ih, List.flatMap_cons, List.append_assoc]

theorem mapWord_eq (map : Table) (result word : Str) :
    mapWord map result word = result ++ mapWord map [] word := by
  unfold mapWord
  cases getProp map word with
  | none =>
    simp only
    rw [mapChars_eq map result, mapChars_eq map [], List.nil_append, List.append_assoc]
  | some v =>
    simp only
    split
    · rw [mapChars_eq map result, mapChars_eq map [], List.nil_append, List.append_assoc]
    · rw [List.nil_append]

theorem foldl_mapWord (map : Table) (words : List Str) (result : Str) :
    words.foldl (mapWord map) result = result ++ (words.map (mapWord map [])).flatten := by
  induction words generalizing result with
  | nil => simp
  | cons w ws ih =>
    rw [List.foldl_cons, ih, mapWord_eq, List.map_cons, List.flatten_cons, List.append_assoc]

theorem splitSpace_ne_nil (s : Str) : splitSpace s ≠ [] := by
  cases s with
  | nil => simp [splitSpace]
  | cons c cs =>
    unfold splitSpace
    split
    · simp
    · split <;> simp

theorem mem_of_mem_splitSpace (s w : Str) (hw : w ∈ splitSpace s) (c : Char) (hc : c ∈ w) :
    c ∈ s := by
  induction s generalizing w with
  | nil =>
    simp only [splitSpace, List.mem_singleton] at hw
    subst hw
    exact hc
  | cons x xs ih =>
    unfold splitSpace at hw
    split at hw
    · rcases List.mem_cons.mp hw with h | h
      · subst h
        cases hc
      · exact List.mem_cons_of_mem x (ih w h hc)
    · cases hs : splitSpace xs with
      | nil => exact absurd hs (splitSpace_ne_nil xs)
      | cons u us =>
        rw [hs] at hw ih
        simp only at hw
        rcases List.mem_cons.mp hw with h | h
        · subst h
          rcases List.mem_cons.mp hc with h1 | h1
          · subst h1
            exact List.mem_cons_self _ _
          · exact List.mem_cons_of_mem x (ih u (List.mem_cons_self _ _) h1)
        · exact List.mem_cons_of_mem x (ih w (List.mem_cons_of_mem u h) hc)

theorem splitSpace_flatten (s : Str) :
    ((splitSpace s).map fun w => w ++ [' ']).flatten = s ++ [' '] := by
  induction s with
  | nil => rfl
  | cons x xs ih =>
    unfold splitSpace
    split
    · rename_i hx
      subst hx
      rw [List.map_cons, List.flatten_cons, ih]
      rfl
    · cases hs : splitSpace xs with
      | nil => exact absurd hs (splitSpace_ne_nil xs)
      | cons u us =>
        rw [hs] at ih
        simp only [List.map_cons, List.flatten_cons, List.cons_append] at ih ⊢
        rw [ih]

theorem mapWord_of_unmapped (map : Table) (hk : keysHaveMappedChar map = true) (word : Str)
    (hw : ∀ d ∈ word, map.lookup [d] = none) : mapWord map [] word = word ++ [' '] := by
  have hno : ∀ key ∈ (map.map fun p => p.1) ++ (mkTable objectPrototype).map fun p => p.1,
      key ≠ word := by
    intro key hkey heq
    unfold keysHaveMappedChar at hk
    rw [List.all_eq_true] at hk
    have h1 := hk key hkey
    rw [List.any_eq_true] at h1
    obtain ⟨d, hd, hsome⟩ := h1
    rw [heq] at hd
    rw [hw d hd] at hsome
    cases hsome
  have hprop : getProp map word = none := by
    unfold getProp
    cases h1 : map.lookup word with
    | some v =>
      exact absurd rfl (hno word (List.mem_append_left _ (lookup_mem_keys _ _ _ h1)))
    | none =>
      simp only
      cases h2 : (mkTable objectPrototype).lookup word with
      | some v =>
        exact absurd rfl (hno word (List.mem_append_right _ (lookup_mem_keys _ _ _ h2)))
      | none => rfl
  have hchars : word.flatMap (mapChar map) = word := by
    clear hno hprop
    induction word with
    | nil => rfl
    | cons c cs ih =>
      rw [List.flatMap_cons, mapChar_of_lookup_none map c (hw c (List.mem_cons_self _ _)),
        ih fun d hd => hw d (List.mem_cons_of_mem c hd)]
      rfl
  unfold mapWord
  rw [hprop]
  simp only
  rw [mapChars_eq, hchars, List.nil_append]

theorem basicTransliteration_table (text targetLang : Str) (map : Table)
    (hmap : readBasicMap targetLang = .table map) :
    basicTransliteration text targetLang =
      .returned (trim ((splitSpace (toLowerCase text)).foldl (mapWord map) [])) := by
  have hen : targetLang ≠ "en".toList := by
    intro h
    subst h
    have hu : readBasicMap "en".toList = .undefined := by decide
    rw [hu] at hmap
    cases hmap
  unfold basicTransliteration
  rw [if_neg hen, hmap]

/-- C2, at the word `constructor` for Hindi: the word is no entry of the table,
so the claim asks for the substitutions of its characters, `"कओनसतरउकतओर"`; the
read `map[word]` finds the inherited `Object.prototype.constructor` instead and
the code returns the text of that function. -/
theorem transliterate_constructor_inherited :
    readBasicMap "hi".toList = .table (fallbackTable "hi".toList) ∧
    getLanguageData emptyStore "hi".toList = .returned none ∧
    NonBlank "constructor".toList ∧
    (fallbackTable "hi".toList).lookup "constructor".toList = none ∧
    wordwiseFallback (fallbackTable "hi".toList) "constructor".toList =
      "कओनसतरउकतओर".toList ∧
    transliterate emptyStore "local".toList "constructor".toList "hi".toList "auto".toList =
      .returned "function Object() \x7b [native code] \x7d".toList := by
  decide

/-! ## Whole-word replacement: the pattern scan against the cut into pieces -/

theorem startsWithWordChar_append (t r : Str) (ht : t ≠ []) :
    startsWithWordChar (t ++ r) = startsWithWordChar t := by
  cases t with
  | nil => exact absurd rfl ht
  | cons c cs => rfl

theorem tokens_flatten (s : Str) : (tokens s).flatten = s := by
  induction s with
  | nil => rfl
  | cons c cs ih =>
    unfold tokens
    split
    · cases ht : tokens cs with
      | nil =>
        rw [ht] at ih
        simp only [List.flatten_cons, List.flatten_nil, List.append_nil] at ih ⊢
        rw [← ih]
      | cons t ts =>
        rw [ht] at ih
        simp only
        split
        · rw [List.flatten_cons, List.cons_append, ← List.flatten_cons, ih]
        · rw [List.flatten_cons, ih]
          rfl
    · rw [List.flatten_cons, ih]
      rfl

theorem tokens_valid (s : Str) : ValidToks (tokens s) := by
  induction s with
  | nil => exact True.intro
  | cons c cs ih =>
    unfold tokens
    split
    · rename_i hc
      cases ht : tokens cs with
      | nil =>
        refine ⟨True.intro, by simp, Or.inr ⟨?_, rfl⟩⟩
        intro d hd
        rw [List.mem_singleton.mp hd]
        exact hc
      | cons t ts =>
        rw [ht] at ih
        obtain ⟨hts, hne, hkind⟩ := ih
        simp only
        split
        · rename_i hst
          refine ⟨hts, by simp, Or.inr ?_⟩
          rcases hkind with hother | ⟨hword, hnext⟩
          · cases t with
            | nil => exact absurd rfl hne
            | cons x xs =>
              have := hother x (List.mem_cons_self _ _)
              simp only [startsWithWordChar] at hst
              rw [this] at hst
              cases hst
          · refine ⟨?_, hnext⟩
            intro d hd
            rcases List.mem_cons.mp hd with h | h
            · rw [h]; exact hc
            · exact hword d h
        · rename_i hst
          refine ⟨⟨hts, hne, hkind⟩, by simp, Or.inr ⟨?_, ?_⟩⟩
          · intro d hd
            rw [List.mem_singleton.mp hd]
            exact hc
          · rw [List.flatten_cons, startsWithWordChar_append t _ hne]
            simpa using hst
    · rename_i hc
      refine ⟨ih, by simp, Or.inl ?_⟩
      intro d hd
      rw [List.mem_singleton.mp hd]
      simpa using hc

theorem replaceWordFrom_nonword (english native : Str) (hne : english ≠ [])
    (hw : ∀ c ∈ english, isWordChar c = true) (prevWord : Bool) (c : Char) (r : Str)
    (hc : isWordChar c = false) :
    replaceWordFrom english native prevWord 0 (c :: r) =
      c :: replaceWordFrom english native false 0 r := by
  cases english with
  | nil => exact absurd rfl hne
  | cons k ks =>
    have hkc : (k == c) = false := by
      rw [beq_eq_false_iff_ne]
      intro h
      rw [← h, hw k (List.mem_cons_self _ _)] at hc
      cases hc
    rw [replaceWordFrom]
    simp only [List.isPrefixOf, hkc, Bool.false_and, Bool.and_false, Bool.false_eq_true,
      if_false, hc]

theorem replaceWordFrom_nonwords (english native : Str) (hne : english ≠ [])
    (hw : ∀ c ∈ english, isWordChar c = true) (o r : Str)
    (ho : ∀ c ∈ o, isWordChar c = false) :
    replaceWordFrom english native false 0 (o ++ r) =
      o ++ replaceWordFrom english native false 0 r := by
  induction o with
  | nil => rfl
  | cons c cs ih =>
    rw [List.cons_append,
      replaceWordFrom_nonword english native hne hw false c _ (ho c (List.mem_cons_self _ _)),
      ih fun d hd => ho d (List.mem_cons_of_mem c hd)]
    rfl

theorem replaceWordFrom_inside (english native : Str) (u r : Str)
    (hu : ∀ c ∈ u, isWordChar c = true) :
    replaceWordFrom english native true 0 (u ++ r) =
      u ++ replaceWordFrom english native true 0 r := by
  induction u with
  | nil => rfl
  | cons c cs ih =>
    rw [List.cons_append, replaceWordFrom]
    simp only [Bool.not_true, Bool.false_and, Bool.false_eq_true, if_false,
      hu c (List.mem_cons_self _ _)]
    rw [ih fun d hd => hu d (List.mem_cons_of_mem c hd)]
    rfl

theorem replaceWordFrom_skip (english native : Str) (u r : Str)
    (hu : ∀ c ∈ u, isWordChar c = true) :
    replaceWordFrom english native true u.length (u ++ r) =
      replaceWordFrom english native true 0 r := by
  induction u with
  | nil => rfl
  | cons c cs ih =>
    rw [List.cons_append, List.length_cons, replaceWordFrom,
      hu c (List.mem_cons_self _ _)]
    exact ih fun d hd => hu d (List.mem_cons_of_mem c hd)

theorem replaceWordFrom_boundary (english native : Str) (hne : english ≠ [])
    (hw : ∀ c ∈ english, isWordChar c = true) (r : Str)
    (hr : startsWithWordChar r = false) :
    replaceWordFrom english native true 0 r = replaceWordFrom english native false 0 r := by
  cases r with
  | nil => rfl
  | cons c cs =>
    have hc : isWordChar c = false := hr
    rw [replaceWordFrom_nonword english native hne hw true c cs hc,
      replaceWordFrom_nonword english native hne hw false c cs hc]

theorem no_match_inside_word (english w r : Str)
    (hw : ∀ c ∈ english, isWordChar c = true)
    (hword : ∀ c ∈ w, isWordChar c = true) (hr : startsWithWordChar r = false)
    (heq : w ≠ english) :
    (english.isPrefixOf (w ++ r) &&
      !startsWithWordChar ((w ++ r).drop english.length)) = false := by
  rw [Bool.and_eq_false_iff]
  by_cases hp : english.isPrefixOf (w ++ r) = true
  · right
    rw [List.isPrefixOf_iff_prefix] at hp
    obtain ⟨t, ht⟩ := hp
    rcases List.append_eq_append_iff.mp ht with ⟨a, ha, _⟩ | ⟨a, ha, hra⟩
    · cases a with
      | nil =>
        rw [List.append_nil] at ha
        exact absurd ha heq
      | cons x xs =>
        have hx : isWordChar x = true := hword x (by rw [ha]; simp)
        rw [ha, List.append_assoc, List.drop_left]
        simp [startsWithWordChar, hx]
    · cases a with
      | nil =>
        rw [List.append_nil] at ha
        exact absurd ha.symm heq
      | cons x xs =>
        have hx : isWordChar x = true := hw x (by rw [ha]; simp)
        rw [hra] at hr
        simp [startsWithWordChar, hx] at hr
  · left
    exact Bool.eq_false_iff.mpr hp

theorem replaceWordFrom_word (english native : Str) (hne : english ≠ [])
    (hw : ∀ c ∈ english, isWordChar c = true) (w r : Str) (hwne : w ≠ [])
    (hword : ∀ c ∈ w, isWordChar c = true) (hr : startsWithWordChar r = false) :
    replaceWordFrom english native false 0 (w ++ r) =
      substTok english native w ++ replaceWordFrom english native false 0 r := by
  by_cases heq : w = english
  · subst heq
    cases w with
    | nil => exact absurd rfl hne
    | cons k ks =>
      have hpre : (k :: ks).isPrefixOf (k :: (ks ++ r)) = true := by
        rw [List.isPrefixOf_iff_prefix, ← List.cons_append]
        exact List.prefix_append _ _
      have hdrop : (k :: (ks ++ r)).drop (k :: ks).length = r := by
        rw [← List.cons_append, List.drop_left]
      rw [List.cons_append, replaceWordFrom, hpre, hdrop, hr]
      simp only [Bool.not_false, Bool.and_self, if_true, substTok,
        hw k (List.mem_cons_self _ _), List.length_cons, Nat.add_sub_cancel]
      rw [replaceWordFrom_skip _ _ ks r fun d hd => hw d (List.mem_cons_of_mem k hd),
        replaceWordFrom_boundary _ _ hne hw r hr]
  · cases w with
    | nil => exact absurd rfl hwne
    | cons c cs =>
      have hno := no_match_inside_word english (c :: cs) r hw hword hr heq
      rw [List.cons_append] at hno
      rw [List.cons_append, replaceWordFrom]
      simp only [Bool.not_false, Bool.true_and, Bool.and_assoc] at hno ⊢
      rw [hno]
      simp only [Bool.false_eq_true, if_false, hword c (List.mem_cons_self _ _), substTok,
        if_neg heq, List.cons_append]
      rw [replaceWordFrom_inside _ _ cs r fun d hd => hword d (List.mem_cons_of_mem c hd),
        replaceWordFrom_boundary _ _ hne hw r hr]

theorem substTok_nonword (english native t : Str) (hne : t ≠ [])
    (hw : ∀ c ∈ english, isWordChar c = true) (ht : ∀ c ∈ t, isWordChar c = false) :
    substTok english native t = t := by
  unfold substTok
  rw [if_neg]
  intro heq
  cases t with
  | nil => exact absurd rfl hne
  | cons x xs =>
    have h1 := ht x (List.mem_cons_self _ _)
    rw [hw x (by rw [← heq]; exact List.mem_cons_self _ _)] at h1
    cases h1

theorem replaceWordFrom_toks (english native : Str) (hne : english ≠ [])
    (hw : ∀ c ∈ english, isWordChar c = true) (ts : List Str) (hts : ValidToks ts) :
    replaceWordFrom english native false 0 ts.flatten =
      (ts.map (substTok english native)).flatten := by
  induction ts with
  | nil => rfl
  | cons t ts ih =>
    obtain ⟨hrest, htne, hkind⟩ := hts
    rw [List.flatten_cons, List.map_cons, List.flatten_cons, ← ih hrest]
    rcases hkind with hother | ⟨hword, hnext⟩
    · rw [replaceWordFrom_nonwords _ _ hne hw t _ hother,
        substTok_nonword _ _ t htne hw hother]
    · exact replaceWordFrom_word _ _ hne hw t _ htne hword hnext

theorem startsWithWordChar_map_substTok (english native : Str)
    (hw : ∀ c ∈ english, isWordChar c = true) (ts : List Str) (hts : ValidToks ts)
    (h : startsWithWordChar ts.flatten = false) :
    startsWithWordChar (ts.map (substTok english native)).flatten = false := by
  cases ts with
  | nil => rfl
  | cons t ts =>
    obtain ⟨_, htne, hkind⟩ := hts
    rw [List.flatten_cons, startsWithWordChar_append t _ htne] at h
    have hother : ∀ c ∈ t, isWordChar c = false := by
      rcases hkind with hother | ⟨hword, _⟩
      · exact hother
      · cases t with
        | nil => exact absurd rfl htne
        | cons x xs =>
          have hx : isWordChar x = true := hword x (List.mem_cons_self _ _)
          have hx2 : isWordChar x = false := h
          rw [hx] at hx2
          cases hx2
    rw [List.map_cons, List.flatten_cons, substTok_nonword _ _ t htne hw hother,
      startsWithWordChar_append t _ htne]
    exact h

theorem validToks_map_substTok (english native : Str)
    (hw : ∀ c ∈ english, isWordChar c = true) (hnat : native ≠ [])
    (hn : ∀ c ∈ native, isWordChar c = false) (ts : List Str) (hts : ValidToks ts) :
    ValidToks (ts.map (substTok english native)) := by
  induction ts with
  | nil => exact True.intro
  | cons t ts ih =>
    obtain ⟨hrest, htne, hkind⟩ := hts
    refine ⟨ih hrest, ?_, ?_⟩
    · unfold substTok
      split
      · exact hnat
      · exact htne
    · by_cases heq : t = english
      · left
        unfold substTok
        rw [if_pos heq]
        exact hn
      · have hsame : substTok english native t = t := by
          unfold substTok
          rw [if_neg heq]
        rw [hsame]
        rcases hkind with hother | ⟨hword, hnext⟩
        · exact Or.inl hother
        · exact Or.inr ⟨hword, startsWithWordChar_map_substTok _ _ hw ts hrest hnext⟩

theorem plainRules_cons (k v : Str) (rest : Table) (h : PlainRules ((k, v) :: rest) = true) :
    k ≠ [] ∧ (∀ c ∈ k, isWordChar c = true) ∧ v ≠ [] ∧
    (∀ c ∈ v, isWordChar c = false ∧ isWhiteSpace c = false ∧ (c == '$') = false) ∧
    PlainRules rest = true := by
  unfold PlainRules at h ⊢
  rw [List.all_cons] at h
  simp only [Bool.and_eq_true, Bool.not_eq_true', List.all_eq_true] at h
  obtain ⟨⟨⟨⟨h1, h2⟩, h3⟩, h4⟩, h5⟩ := h
  refine ⟨?_, h2, ?_, ?_, ?_⟩
  · intro h0
    rw [h0] at h1
    cases h1
  · intro h0
    rw [h0] at h3
    cases h3
  · intro c hc
    have := h4 c hc
    exact ⟨this.1.1, this.1.2, this.2⟩
  · rw [List.all_eq_true]
    intro p hp
    have := h5 p hp
    simp only [Bool.and_eq_true, Bool.not_eq_true', List.all_eq_true]
    exact this

theorem plainRules_lookup_nonword (rules : Table) (h : PlainRules rules = true) (v : Str)
    (hnat : v ≠ []) (hn : ∀ c ∈ v, isWordChar c = false) : rules.lookup v = none := by
  induction rules with
  | nil => rfl
  | cons p rest ih =>
    obtain ⟨k, u⟩ := p
    obtain ⟨hk, hkw, _, _, hrest⟩ := plainRules_cons k u rest h
    have hne : (v == k) = false := by
      rw [beq_eq_false_iff_ne]
      intro heq
      cases v with
      | nil => exact absurd rfl hnat
      | cons x xs =>
        have h1 := hn x (List.mem_cons_self _ _)
        rw [hkw x (by rw [← heq]; exact List.mem_cons_self _ _)] at h1
        cases h1
    rw [List.lookup_cons, hne]
    exact ih hrest

theorem lookupOr_substTok (k v : Str) (rest : Table) (h : PlainRules ((k, v) :: rest) = true)
    (t : Str) : lookupOr rest (substTok k v t) = lookupOr ((k, v) :: rest) t := by
  obtain ⟨_, _, hv, hvn, hrest⟩ := plainRules_cons k v rest h
  unfold substTok lookupOr
  by_cases heq : t = k
  · subst heq
    rw [if_pos rfl, plainRules_lookup_nonword rest hrest v hv fun c hc => (hvn c hc).1,
      List.lookup_cons]
    simp
  · have hne : (t == k) = false := beq_eq_false_iff_ne.mpr heq
    rw [if_neg heq, List.lookup_cons, hne]

theorem replaceWord_plain (k v : Str) (rest : Table) (h : PlainRules ((k, v) :: rest) = true)
    (result : Str) :
    replaceWord k v result = .returned (replaceWordFrom k v false 0 result) := by
  obtain ⟨hk, hkw, _, hvn, _⟩ := plainRules_cons k v rest h
  unfold replaceWord
  have h1 : k.isEmpty = false := by
    cases k with
    | nil => exact absurd rfl hk
    | cons x xs => rfl
  have h2 : k.all isWordChar = true := List.all_eq_true.mpr hkw
  have h3 : v.contains '$' = false := by
    rw [Bool.eq_false_iff]
    intro hc
    rw [List.contains_iff_exists_mem_beq] at hc
    obtain ⟨c, hc, hbeq⟩ := hc
    have hcd : c = '$' := by
      have := (hvn c hc).2.2
      rw [beq_iff_eq] at hbeq
      exact hbeq.symm
    have := (hvn c hc).2.2
    rw [hcd] at this
    cases this
  rw [h1, h2, h3]
  rfl

theorem applyWordMappings_toks (rules : Table) (h : PlainRules rules = true) (ts : List Str)
    (hts : ValidToks ts) :
    applyWordMappings rules ts.flatten = .returned (ts.map (lookupOr rules)).flatten := by
  induction rules generalizing ts with
  | nil =>
    have hid : ts.map (lookupOr []) = ts := by
      conv => rhs; rw [← List.map_id ts]
      apply List.map_congr_left
      intro t _
      rfl
    rw [hid]
    rfl
  | cons p rest ih =>
    obtain ⟨k, v⟩ := p
    obtain ⟨hk, hkw, hv, hvn, hrest⟩ := plainRules_cons k v rest h
    rw [applyWordMappings, replaceWord_plain k v rest h]
    simp only
    rw [replaceWordFrom_toks k v hk hkw ts hts,
      ih hrest _ (validToks_map_substTok k v hkw hv (fun c hc => (hvn c hc).1) ts hts),
      List.map_map]
    congr 2
    apply List.map_congr_left
    intro t _
    exact lookupOr_substTok k v rest h t

theorem lookupOr_cases (rules : Table) (h : PlainRules rules = true) (t : Str) :
    lookupOr rules t = t ∨
      (lookupOr rules t ≠ [] ∧ ∀ c ∈ lookupOr rules t, isWhiteSpace c = false) := by
  unfold lookupOr
  cases hl : rules.lookup t with
  | none => exact Or.inl rfl
  | some v =>
    right
    obtain ⟨p, hp, hpv⟩ := List.mem_map.mp (lookup_mem_values rules t v hl)
    unfold PlainRules at h
    rw [List.all_eq_true] at h
    have h1 := h p hp
    simp only [Bool.and_eq_true, Bool.not_eq_true', List.all_eq_true] at h1
    simp only at hpv ⊢
    rw [← hpv]
    refine ⟨?_, fun c hc => (h1.2 c hc).1.2⟩
    intro h0
    rw [h0] at h1
    cases h1.1.2

theorem validToks_ne_nil (t : Str) (ts : List Str) (h : ValidToks (t :: ts)) : t ≠ [] := h.2.1

theorem lookupOr_ne_nil (rules : Table) (h : PlainRules rules = true) (t : Str) (ht : t ≠ []) :
    lookupOr rules t ≠ [] := by
  rcases lookupOr_cases rules h t with h1 | h1
  · rw [h1]; exact ht
  · exact h1.1

theorem head_map_lookupOr (rules : Table) (h : PlainRules rules = true) (ts : List Str)
    (hts : ValidToks ts) (hhead : ∀ c ∈ ts.flatten.head?, isWhiteSpace c = false) :
    ∀ c ∈ (ts.map (lookupOr rules)).flatten.head?, isWhiteSpace c = false := by
  cases ts with
  | nil => intro c hc; cases hc
  | cons t ts =>
    have htne := validToks_ne_nil t ts hts
    rw [List.flatten_cons, List.head?_append_of_ne_nil _ htne] at hhead
    rw [List.map_cons, List.flatten_cons,
      List.head?_append_of_ne_nil _ (lookupOr_ne_nil rules h t htne)]
    rcases lookupOr_cases rules h t with h1 | h1
    · rw [h1]; exact hhead
    · intro c hc
      exact h1.2 c (List.mem_of_mem_head? hc)

theorem last_map_lookupOr (rules : Table) (h : PlainRules rules = true) (ts : List Str)
    (hts : ValidToks ts) (hlast : ∀ c ∈ ts.flatten.getLast?, isWhiteSpace c = false) :
    ∀ c ∈ (ts.map (lookupOr rules)).flatten.getLast?, isWhiteSpace c = false := by
  induction ts with
  | nil => intro c hc; cases hc
  | cons t ts ih =>
    have htne := validToks_ne_nil t ts hts
    cases ts with
    | nil =>
      simp only [List.flatten_cons, List.flatten_nil, List.append_nil, List.map_cons,
        List.map_nil] at hlast ⊢
      rcases lookupOr_cases rules h t with h1 | h1
      · rw [h1]; exact hlast
      · intro c hc
        exact h1.2 c (List.mem_of_mem_getLast? hc)
    | cons t2 ts2 =>
      have ht2 := validToks_ne_nil t2 ts2 hts.1
      have hne1 : (t2 :: ts2).flatten ≠ [] := by
        rw [List.flatten_cons]
        intro h0
        exact ht2 (List.append_eq_nil.mp h0).1
      have hne2 : ((t2 :: ts2).map (lookupOr rules)).flatten ≠ [] := by
        rw [List.map_cons, List.flatten_cons]
        intro h0
        exact lookupOr_ne_nil rules h t2 ht2 (List.append_eq_nil.mp h0).1
      rw [List.flatten_cons, List.getLast?_append_of_ne_nil _ hne1] at hlast
      rw [List.map_cons, List.flatten_cons, List.getLast?_append_of_ne_nil _ hne2]
      exact ih hts.1 hlast

theorem replaceWholeWords_trimmed (rules : Table) (h : PlainRules rules = true) (s : Str)
    (hs : Trimmed s) : Trimmed (replaceWholeWords rules s) := by
  unfold replaceWholeWords
  have hflat := tokens_flatten s
  constructor
  · apply head_map_lookupOr rules h _ (tokens_valid s)
    rw [hflat]
    exact hs.1
  · apply last_map_lookupOr rules h _ (tokens_valid s)
    rw [hflat]
    exact hs.2

theorem applyWordMappings_eq (rules : Table) (h : PlainRules rules = true) (s : Str) :
    applyWordMappings rules s = .returned (replaceWholeWords rules s) := by
  have h1 := applyWordMappings_toks rules h (tokens s) (tokens_valid s)
  rw [tokens_flatten] at h1
  exact h1

theorem trim_of_trimmed (m : Str) (hm : Trimmed m) : trim m = m := by
  have h := trim_sandwich [] m [] (by simp) (by simp) hm
  simpa using h

theorem catalog_rules_plain : ∀ p ∈ availablePackages, packRulesPlain p.2 = true := by
  decide

/-! ## The fallback off the inherited names -/

set_option maxRecDepth 100000 in
theorem fallbackTables_valuesPlain : ∀ map ∈ fallbackTables, valuesPlain map = true := by
  decide

theorem valuesPlain_lookup (map : Table) (hv : valuesPlain map = true) (k v : Str)
    (h : map.lookup k = some v) : v ≠ [] ∧ ∀ c ∈ v, isWhiteSpace c = false := by
  obtain ⟨p, hp, hpv⟩ := List.mem_map.mp (lookup_mem_values map k v h)
  unfold valuesPlain at hv
  rw [List.all_eq_true] at hv
  have h1 := hv p hp
  simp only [Bool.and_eq_true, Bool.not_eq_true', List.all_eq_true] at h1
  have hpv1 : p.2 = v := hpv
  rw [← hpv1]
  refine ⟨?_, h1.2⟩
  intro h0
  rw [h0] at h1
  cases h1.1

theorem isEmpty_eq_false {v : Str} (h : v ≠ []) : v.isEmpty = false := by
  cases v with
  | nil => exact absurd rfl h
  | cons x xs => rfl

theorem mapChar_eq_substituteChar (map : Table) (hv : valuesPlain map = true) (c : Char) :
    mapChar map c = substituteChar map c := by
  unfold mapChar substituteChar
  rw [getProp_singleton]
  cases h : map.lookup [c] with
  | none => rfl
  | some v =>
    simp only
    rw [isEmpty_eq_false (valuesPlain_lookup map hv _ v h).1]
    rfl

theorem mapWord_eq_substituteWord (map : Table) (hv : valuesPlain map = true) (word : Str)
    (hw : isInherited word = false) :
    mapWord map [] word = substituteWord map word ++ [' '] := by
  unfold mapWord substituteWord getProp
  cases h : map.lookup word with
  | some v =>
    simp only
    rw [isEmpty_eq_false (valuesPlain_lookup map hv _ v h).1]
    rfl
  | none =>
    have hnone : (mkTable objectPrototype).lookup word = none := by
      unfold isInherited at hw
      cases h2 : (mkTable objectPrototype).lookup word with
      | none => rfl
      | some v =>
        rw [h2] at hw
        cases hw
    simp only [hnone]
    rw [mapChars_eq, List.nil_append]
    congr 1
    apply List.flatMap_congr
    intro c _
    exact mapChar_eq_substituteChar map hv c

theorem flatten_map_append_space (g : Str → Str) (ws : List Str) (hne : ws ≠ []) :
    (ws.map fun w => g w ++ [' ']).flatten = List.intercalate [' '] (ws.map g) ++ [' '] := by
  induction ws with
  | nil => exact absurd rfl hne
  | cons w ws ih =>
    cases ws with
    | nil => simp [List.intercalate]
    | cons w2 ws2 =>
      have h2 := ih (by simp)
      rw [List.map_cons, List.flatten_cons, h2]
      simp [List.intercalate]

theorem splitSpace_head (c : Char) (s : Str) (hc : c ≠ ' ') :
    ∃ u us, splitSpace (c :: s) = (c :: u) :: us := by
  unfold splitSpace
  rw [if_neg hc]
  cases splitSpace s with
  | nil => exact ⟨[], [], rfl⟩
  | cons w ws => exact ⟨w, ws, rfl⟩

theorem splitSpace_concat (s : Str) (c : Char) (hc : c ≠ ' ') :
    ∃ init u, splitSpace (s ++ [c]) = init ++ [u ++ [c]] := by
  induction s with
  | nil =>
    refine ⟨[], [], ?_⟩
    simp [splitSpace, hc]
  | cons x xs ih =>
    obtain ⟨init, u, hsplit⟩ := ih
    rw [List.cons_append]
    unfold splitSpace
    split
    · exact ⟨[] :: init, u, by rw [hsplit]; rfl⟩
    · rw [hsplit]
      cases init with
      | nil => exact ⟨[], x :: u, rfl⟩
      | cons i0 init1 => exact ⟨(x :: i0) :: init1, u, rfl⟩

theorem substituteChar_plain (map : Table) (hv : valuesPlain map = true) (c : Char)
    (hc : isWhiteSpace c = false) :
    substituteChar map c ≠ [] ∧ ∀ d ∈ substituteChar map c, isWhiteSpace d = false := by
  unfold substituteChar
  cases h : map.lookup [c] with
  | none =>
    refine ⟨by simp, ?_⟩
    intro d hd
    rw [List.mem_singleton.mp hd]
    exact hc
  | some v => exact valuesPlain_lookup map hv _ v h

theorem substituteWord_head (map : Table) (hv : valuesPlain map = true) (c : Char) (u : Str)
    (hc : isWhiteSpace c = false) :
    substituteWord map (c :: u) ≠ [] ∧
      ∀ d ∈ (substituteWord map (c :: u)).head?, isWhiteSpace d = false := by
  unfold substituteWord
  cases h : map.lookup (c :: u) with
  | some v =>
    have h1 := valuesPlain_lookup map hv _ v h
    exact ⟨h1.1, fun d hd => h1.2 d (List.mem_of_mem_head? hd)⟩
  | none =>
    have h1 := substituteChar_plain map hv c hc
    simp only [List.flatMap_cons]
    refine ⟨fun h0 => h1.1 (List.append_eq_nil.mp h0).1, ?_⟩
    rw [List.head?_append_of_ne_nil _ h1.1]
    exact fun d hd => h1.2 d (List.mem_of_mem_head? hd)

theorem substituteWord_last (map : Table) (hv : valuesPlain map = true) (u : Str) (c : Char)
    (hc : isWhiteSpace c = false) :
    substituteWord map (u ++ [c]) ≠ [] ∧
      ∀ d ∈ (substituteWord map (u ++ [c])).getLast?, isWhiteSpace d = false := by
  unfold substituteWord
  cases h : map.lookup (u ++ [c]) with
  | some v =>
    have h1 := valuesPlain_lookup map hv _ v h
    exact ⟨h1.1, fun d hd => h1.2 d (List.mem_of_mem_getLast? hd)⟩
  | none =>
    have h1 := substituteChar_plain map hv c hc
    simp only [List.flatMap_append, List.flatMap_cons, List.flatMap_nil, List.append_nil]
    refine ⟨fun h0 => h1.1 (List.append_eq_nil.mp h0).2, ?_⟩
    rw [List.getLast?_append_of_ne_nil _ h1.1]
    exact fun d hd => h1.2 d (List.mem_of_mem_getLast? hd)

theorem intercalate_head (y : Str) (l : List Str) (hy : y ≠ []) :
    (List.intercalate [' '] (y :: l)).head? = y.head? := by
  cases l with
  | nil => simp [List.intercalate]
  | cons z l =>
    have : List.intercalate [' '] (y :: z :: l) =
        y ++ ([' '] ++ List.intercalate [' '] (z :: l)) := by
      simp [List.intercalate]
    rw [this, List.head?_append_of_ne_nil _ hy]

theorem intercalate_last (l : List Str) (y : Str) (hy : y ≠ []) :
    List.intercalate [' '] (l ++ [y]) ≠ [] ∧
      (List.intercalate [' '] (l ++ [y])).getLast? = y.getLast? := by
  induction l with
  | nil =>
    have : List.intercalate [' '] ([] ++ [y]) = y := by simp [List.intercalate]
    rw [this]
    exact ⟨hy, rfl⟩
  | cons a l ih =>
    have hform : ∃ z zs, l ++ [y] = z :: zs := by
      cases l with
      | nil => exact ⟨y, [], rfl⟩
      | cons z zs => exact ⟨z, zs ++ [y], rfl⟩
    obtain ⟨z, zs, hz⟩ := hform
    have : List.intercalate [' '] (a :: l ++ [y]) =
        (a ++ [' ']) ++ List.intercalate [' '] (l ++ [y]) := by
      rw [List.cons_append, hz]
      simp [List.intercalate]
    rw [this]
    refine ⟨fun h0 => ih.1 (List.append_eq_nil.mp h0).2, ?_⟩
    rw [List.getLast?_append_of_ne_nil _ ih.1]
    exact ih.2

theorem wordwise_trimmed (map : Table) (hv : valuesPlain map = true) (s : Str)
    (hne : s ≠ []) (hs : Trimmed s) :
    Trimmed (List.intercalate [' '] ((splitSpace s).map (substituteWord map))) := by
  constructor
  · cases s with
    | nil => exact absurd rfl hne
    | cons c cs =>
      have hc : isWhiteSpace c = false := hs.1 c rfl
      have hsp : c ≠ ' ' := by
        intro h0
        rw [h0] at hc
        revert hc
        decide
      obtain ⟨u, us, hsplit⟩ := splitSpace_head c cs hsp
      have h1 := substituteWord_head map hv c u hc
      rw [hsplit, List.map_cons, intercalate_head _ _ h1.1]
      exact h1.2
  · rcases List.eq_nil_or_concat s with h0 | ⟨s0, c, hcat⟩
    · exact absurd h0 hne
    · rw [List.concat_eq_append] at hcat
      subst hcat
      have hc : isWhiteSpace c = false := hs.2 c (by rw [List.getLast?_concat]; rfl)
      have hsp : c ≠ ' ' := by
        intro h0
        rw [h0] at hc
        revert hc
        decide
      obtain ⟨init, u, hsplit⟩ := splitSpace_concat s0 c hsp
      have h1 := substituteWord_last map hv u c hc
      rw [hsplit, List.map_append, List.map_cons, List.map_nil,
        (intercalate_last _ _ h1.1).2]
      exact h1.2

/-- The fallback of the nine codes, off the inherited names: when no word of the
trimmed, lower-cased text is the name of a property inherited from
`Object.prototype`, the result is the word-by-word replacement the claims
describe. -/
theorem transliterate_wordwise (pm : PackageManager)
    (provider text targetLang sourceLang : Str) (map : Table)
    (hmap : readBasicMap targetLang = .table map)
    (hd : getLanguageData pm targetLang = .returned none) (h : NonBlank text)
    (hwords : ∀ w ∈ splitSpace (toLowerCase (trim text)), isInherited w = false) :
    transliterate pm provider text targetLang sourceLang =
      .returned (wordwiseFallback map text) := by
  have hv := fallbackTables_valuesPlain map (readBasicMap_table _ _ hmap)
  rw [transliterate_of_noData pm provider _ _ sourceLang hd h,
    basicTransliteration_table _ _ map hmap, foldl_mapWord, List.nil_append]
  have hpieces : (splitSpace (toLowerCase (trim text))).map (mapWord map []) =
      (splitSpace (toLowerCase (trim text))).map fun w => substituteWord map w ++ [' '] := by
    apply List.map_congr_left
    intro w hw
    exact mapWord_eq_substituteWord map hv w (hwords w hw)
  have hne : toLowerCase (trim text) ≠ [] := by
    unfold toLowerCase
    intro h0
    exact h (List.map_eq_nil_iff.mp h0)
  rw [hpieces, flatten_map_append_space _ _ (splitSpace_ne_nil _),
    trim_append_space _ (wordwise_trimmed map hv _ hne
      (trimmed_toLowerCase _ (trim_trimmed text)))]
  rfl

/-! ## The store: the installed set against storage -/

theorem hasItem_setItem_same (storage : List (Str × Blob)) (key : Str) (value : Blob) :
    hasItem (setItem storage key value) key = true := by
  unfold hasItem
  rw [getItem_setItem]
  rfl

theorem lookup_map_replace_other (storage : List (Str × Blob)) (key other : Str) (value : Blob)
    (h : other ≠ key) :
    List.lookup other (storage.map fun p => if p.1 = key then (key, value) else p) =
      List.lookup other storage := by
  induction storage with
  | nil => rfl
  | cons p rest ih =>
    obtain ⟨a, b⟩ := p
    rw [List.map_cons]
    by_cases hk : a = key
    · subst hk
      have hne : (other == a) = false := beq_eq_false_iff_ne.mpr h
      simp only [if_true]
      rw [List.lookup_cons, List.lookup_cons, hne]
      exact ih
    · simp only [if_neg hk]
      rw [List.lookup_cons, List.lookup_cons, ih]

theorem getItem_setItem_other (storage : List (Str × Blob)) (key other : Str) (value : Blob)
    (h : other ≠ key) :
    getItem (setItem storage key value) other = getItem storage other := by
  unfold getItem setItem
  split
  · exact lookup_map_replace_other storage key other value h
  · have hne : (other == key) = false := beq_eq_false_iff_ne.mpr h
    rw [List.lookup_append]
    cases List.lookup other storage with
    | some v => rfl
    | none =>
      rw [List.lookup_cons, hne]
      rfl

theorem getItem_removeItem_other (storage : List (Str × Blob)) (key other : Str)
    (h : other ≠ key) :
    getItem (removeItem storage key) other = getItem storage other := by
  unfold getItem removeItem
  induction storage with
  | nil => rfl
  | cons p rest ih =>
    obtain ⟨a, b⟩ := p
    by_cases hk : a = key
    · subst hk
      have hne : (other == a) = false := beq_eq_false_iff_ne.mpr h
      rw [List.filter_cons]
      simp only [beq_self_eq_true, Bool.not_true, Bool.false_eq_true, if_false]
      rw [List.lookup_cons, hne]
      exact ih
    · have hne : (a == key) = false := beq_eq_false_iff_ne.mpr hk
      rw [List.filter_cons]
      simp only [hne, Bool.not_false, if_true]
      rw [List.lookup_cons, List.lookup_cons, ih]

theorem hasItem_setItem_other (storage : List (Str × Blob)) (key other : Str) (value : Blob)
    (h : other ≠ key) :
    hasItem (setItem storage key value) other = hasItem storage other := by
  unfold hasItem
  rw [getItem_setItem_other storage key other value h]

theorem hasItem_removeItem_same (storage : List (Str × Blob)) (key : Str) :
    hasItem (removeItem storage key) key = false := by
  unfold hasItem
  rw [getItem_removeItem]
  rfl

theorem hasItem_removeItem_other (storage : List (Str × Blob)) (key other : Str)
    (h : other ≠ key) :
    hasItem (removeItem storage key) other = hasItem storage other := by
  unfold hasItem
  rw [getItem_removeItem_other storage key other h]

theorem mem_setAdd_iff (set : List Str) (x y : Str) : y ∈ setAdd set x ↔ y ∈ set ∨ y = x := by
  unfold setAdd
  split
  · rename_i hx
    constructor
    · exact Or.inl
    · rintro (h | h)
      · exact h
      · rw [h]; exact hx
  · rw [List.mem_append, List.mem_singleton]

theorem mem_setDelete_iff (set : List Str) (x y : Str) :
    y ∈ setDelete set x ↔ y ∈ set ∧ y ≠ x := by
  unfold setDelete
  rw [List.mem_filter]
  simp only [Bool.not_eq_true', beq_eq_false_iff_ne, ne_eq]

theorem packageKey_injective (a b : Str) (h : packageKey a = packageKey b) : a = b := by
  unfold packageKey at h
  exact List.append_cancel_left h

theorem downloadPackage_state (host : DownloadHost) (pm : PackageManager) (packageId : Str) :
    (downloadPackage host pm packageId).1 = pm ∨
    (∃ data, (downloadPackage host pm packageId).1 =
      { localStorage := setItem pm.localStorage (packageKey packageId) (.record data)
        installedPackages := setAdd pm.installedPackages packageId }) ∨
    (failsAfterWrite (.download host packageId) = true ∧
      ∃ data, (downloadPackage host pm packageId).1 =
        { localStorage := setItem pm.localStorage (packageKey packageId) (.record data)
          installedPackages := pm.installedPackages }) := by
  unfold downloadPackage failsAfterWrite
  cases hr : readPackage packageId with
  | undefined => exact Or.inl rfl
  | inherited => exact Or.inl rfl
  | pack pack =>
    simp only
    unfold storePackage
    by_cases hw : host.writeOk = true
    · by_cases hq : host.quotaOk = true
      · right; left
        simp only [hw, hq, if_true]
        exact ⟨_, rfl⟩
      · right; right
        have hq1 : host.quotaOk = false := Bool.eq_false_iff.mpr hq
        simp only [hw, hq1, if_true, Bool.false_eq_true, if_false, Bool.not_false, Bool.and_self,
          true_and]
        exact ⟨by simp [hr], _, rfl⟩
    · left
      have hw1 : host.writeOk = false := Bool.eq_false_iff.mpr hw
      simp only [hw1, Bool.false_eq_true, if_false]

theorem uninstallPackage_state (pm : PackageManager) (packageId : Str) (confirmed : Bool) :
    applyCall pm (.uninstall packageId confirmed) = pm ∨
    applyCall pm (.uninstall packageId confirmed) =
      { localStorage := removeItem pm.localStorage (packageKey packageId)
        installedPackages := setDelete pm.installedPackages packageId } := by
  unfold applyCall uninstallPackage
  by_cases hin : packageId ∈ pm.installedPackages
  · simp only [hin, not_true_eq_false, if_false]
    cases readPackage packageId with
    | undefined => exact Or.inl rfl
    | inherited =>
      cases confirmed with
      | true => exact Or.inr rfl
      | false => exact Or.inl rfl
    | pack p =>
      cases confirmed with
      | true => exact Or.inr rfl
      | false => exact Or.inl rfl
  · simp only [hin, not_false_eq_true, if_true]
    exact Or.inl trivial

theorem hasItem_iff (storage : List (Str × Blob)) (key : Str) :
    hasItem storage key = true ↔ ∃ p ∈ storage, p.1 = key := by
  unfold hasItem getItem
  induction storage with
  | nil =>
    constructor
    · intro h
      cases h
    · rintro ⟨p, hp, _⟩
      cases hp
  | cons p rest ih =>
    obtain ⟨a, b⟩ := p
    rw [List.lookup_cons]
    by_cases hk : a = key
    · subst hk
      simp only [beq_self_eq_true, Option.isSome_some, true_iff]
      exact ⟨(a, b), List.mem_cons_self _ _, rfl⟩
    · have hne : (key == a) = false := beq_eq_false_iff_ne.mpr fun h => hk h.symm
      rw [hne]
      simp only
      rw [ih]
      constructor
      · rintro ⟨q, hq, hqk⟩
        exact ⟨q, List.mem_cons_of_mem _ hq, hqk⟩
      · rintro ⟨q, hq, hqk⟩
        rcases List.mem_cons.mp hq with h | h
        · rw [h] at hqk
          exact absurd hqk hk
        · exact ⟨q, h, hqk⟩

theorem package_key_iff (key packageId : Str) :
    ("package_".toList.isPrefixOf key = true ∧ key.drop 8 = packageId) ↔
      key = packageKey packageId := by
  unfold packageKey
  constructor
  · rintro ⟨hp, hd⟩
    rw [List.isPrefixOf_iff_prefix] at hp
    obtain ⟨t, ht⟩ := hp
    rw [← ht, List.drop_left' (by rfl)] at hd
    rw [← ht, hd]
  · intro h
    subst h
    refine ⟨?_, List.drop_left' (by rfl)⟩
    rw [List.isPrefixOf_iff_prefix]
    exact List.prefix_append _ _

theorem mem_loadFold (storage : List (Str × Blob)) (init : List Str) (packageId : Str) :
    packageId ∈ storage.foldl
        (fun set p =>
          if "package_".toList.isPrefixOf p.1 then setAdd set (p.1.drop 8) else set) init ↔
      packageId ∈ init ∨ ∃ p ∈ storage, p.1 = packageKey packageId := by
  induction storage generalizing init with
  | nil =>
    constructor
    · exact Or.inl
    · rintro (h | ⟨p, hp, _⟩)
      · exact h
      · cases hp
  | cons q rest ih =>
    rw [List.foldl_cons, ih]
    by_cases hq : "package_".toList.isPrefixOf q.1 = true
    · rw [if_pos hq, mem_setAdd_iff]
      constructor
      · rintro ((h | h) | ⟨p, hp, hpk⟩)
        · exact Or.inl h
        · exact Or.inr ⟨q, List.mem_cons_self _ _, (package_key_iff _ _).mp ⟨hq, h.symm⟩⟩
        · exact Or.inr ⟨p, List.mem_cons_of_mem _ hp, hpk⟩
      · rintro (h | ⟨p, hp, hpk⟩)
        · exact Or.inl (Or.inl h)
        · rcases List.mem_cons.mp hp with h1 | h1
          · rw [h1] at hpk
            exact Or.inl (Or.inr ((package_key_iff _ _).mpr hpk).2.symm)
          · exact Or.inr ⟨p, h1, hpk⟩
    · rw [if_neg hq]
      constructor
      · rintro (h | ⟨p, hp, hpk⟩)
        · exact Or.inl h
        · exact Or.inr ⟨p, List.mem_cons_of_mem _ hp, hpk⟩
      · rintro (h | ⟨p, hp, hpk⟩)
        · exact Or.inl h
        · rcases List.mem_cons.mp hp with h1 | h1
          · rw [h1] at hpk
            exact absurd ((package_key_iff _ _).mpr hpk).1 hq
          · exact Or.inr ⟨p, h1, hpk⟩

theorem startup_storedIffInstalled (storage : List (Str × Blob)) :
    StoredIffInstalled (startup storage) := by
  intro packageId
  unfold startup loadInstalledPackages
  simp only
  rw [mem_loadFold, hasItem_iff]
  constructor
  · exact Or.inr
  · rintro (h | h)
    · cases h
    · exact h

theorem StoredIffInstalled.installedAreStored {pm : PackageManager}
    (h : StoredIffInstalled pm) : InstalledAreStored pm :=
  fun packageId hin => (h packageId).mpr hin

theorem applyCall_installedAreStored (pm : PackageManager) (call : StoreCall)
    (h : InstalledAreStored pm) : InstalledAreStored (applyCall pm call) := by
  cases call with
  | download host packageId =>
    show InstalledAreStored (downloadPackage host pm packageId).1
    rcases downloadPackage_state host pm packageId with h1 | ⟨data, h1⟩ | ⟨_, data, h1⟩
    · rw [h1]; exact h
    · rw [h1]
      intro other hin
      simp only at hin ⊢
      by_cases hk : other = packageId
      · rw [hk]; exact hasItem_setItem_same _ _ _
      · rw [hasItem_setItem_other _ _ _ _ fun hkey => hk (packageKey_injective _ _ hkey)]
        rcases (mem_setAdd_iff _ _ _).mp hin with h2 | h2
        · exact h other h2
        · exact absurd h2 hk
    · rw [h1]
      intro other hin
      simp only at hin ⊢
      by_cases hk : other = packageId
      · rw [hk]; exact hasItem_setItem_same _ _ _
      · rw [hasItem_setItem_other _ _ _ _ fun hkey => hk (packageKey_injective _ _ hkey)]
        exact h other hin
  | uninstall packageId confirmed =>
    rcases uninstallPackage_state pm packageId confirmed with h1 | h1
    · rw [h1]; exact h
    · rw [h1]
      intro other hin
      simp only at hin ⊢
      obtain ⟨h2, h3⟩ := (mem_setDelete_iff _ _ _).mp hin
      rw [hasItem_removeItem_other _ _ _ fun hkey => h3 (packageKey_injective _ _ hkey)]
      exact h other h2

theorem applyCall_storedIffInstalled (pm : PackageManager) (call : StoreCall)
    (hcall : failsAfterWrite call = false) (h : StoredIffInstalled pm) :
    StoredIffInstalled (applyCall pm call) := by
  cases call with
  | download host packageId =>
    show StoredIffInstalled (downloadPackage host pm packageId).1
    rcases downloadPackage_state host pm packageId with h1 | ⟨data, h1⟩ | ⟨hf, _⟩
    · rw [h1]; exact h
    · rw [h1]
      intro other
      simp only
      rw [mem_setAdd_iff]
      by_cases hk : other = packageId
      · rw [hk]
        simp [hasItem_setItem_same]
      · rw [hasItem_setItem_other _ _ _ _ fun hkey => hk (packageKey_injective _ _ hkey),
          h other]
        simp [hk]
    · rw [hcall] at hf
      cases hf
  | uninstall packageId confirmed =>
    rcases uninstallPackage_state pm packageId confirmed with h1 | h1
    · rw [h1]; exact h
    · rw [h1]
      intro other
      simp only
      rw [mem_setDelete_iff]
      by_cases hk : other = packageId
      · rw [hk]
        simp [hasItem_removeItem_same]
      · rw [hasItem_removeItem_other _ _ _ fun hkey => hk (packageKey_injective _ _ hkey),
          h other]
        simp [hk]

theorem runCalls_installedAreStored (pm : PackageManager) (calls : List StoreCall)
    (h : InstalledAreStored pm) : InstalledAreStored (runCalls pm calls) := by
  unfold runCalls
  induction calls generalizing pm with
  | nil => exact h
  | cons c cs ih => exact ih _ (applyCall_installedAreStored pm c h)

theorem runCalls_storedIffInstalled (pm : PackageManager) (calls : List StoreCall)
    (hcalls : ∀ c ∈ calls, failsAfterWrite c = false) (h : StoredIffInstalled pm) :
    StoredIffInstalled (runCalls pm calls) := by
  unfold runCalls
  induction calls generalizing pm with
  | nil => exact h
  | cons c cs ih =>
    exact ih _ (fun d hd => hcalls d (List.mem_cons_of_mem c hd))
      (applyCall_storedIffInstalled pm c (hcalls c (List.mem_cons_self _ _)) h)

/-- C11, as stated, fails: after the startup rebuild over an empty storage, a
download of `hindi` whose storage write succeeds and whose quota re-check fails
leaves the record under `package_hindi` while `hindi` is not in the installed
set. -/
theorem store_invariant_broken_by_quota_failure :
    hasItem (runCalls (startup [])
      [.download ⟨"2024-01-01T00:00:00.000Z".toList, true, false⟩ "hindi".toList]).localStorage
      (packageKey "hindi".toList) = true ∧
    "hindi".toList ∉ (runCalls (startup [])
      [.download ⟨"2024-01-01T00:00:00.000Z".toList, true, false⟩
        "hindi".toList]).installedPackages ∧
    ¬ StoredIffInstalled (runCalls (startup [])
      [.download ⟨"2024-01-01T00:00:00.000Z".toList, true, false⟩ "hindi".toList]) := by
  refine ⟨by decide, by decide, ?_⟩
  intro h
  have h1 := (h "hindi".toList).mp (by decide)
  revert h1
  decide

/-- C11, amended: the startup rebuild over any storage yields exactly the ids
whose `package_<id>` key exists; in every state reached from it by any sequence
of `download` and `uninstall` calls (any id, any failure, any answer) every
installed id has a record under `package_<id>`; and a record exists under
`package_<id>` exactly for the installed ids as long as no download in the
sequence failed at the quota re-check after its storage write succeeded. -/
theorem store_invariant (storage : List (Str × Blob)) (calls : List StoreCall) :
    StoredIffInstalled (startup storage) ∧
    InstalledAreStored (runCalls (startup storage) calls) ∧
    ((∀ c ∈ calls, failsAfterWrite c = false) →
      StoredIffInstalled (runCalls (startup storage) calls)) :=
  ⟨startup_storedIffInstalled storage,
   runCalls_installedAreStored _ calls (startup_storedIffInstalled storage).installedAreStored,
   fun hcalls => runCalls_storedIffInstalled _ calls hcalls (startup_storedIffInstalled storage)⟩

/-- C11 amended, for a storage with a foreign key and a `package_tamil` text
that is not valid JSON, followed by a download whose write fails, a download
that succeeds, a declined and a confirmed uninstall. -/
theorem store_invariant_witness :
    StoredIffInstalled (runCalls
      (startup [("theme".toList, .corrupt), ("package_tamil".toList, .corrupt)])
      [.download ⟨"2024-01-01T00:00:00.000Z".toList, false, true⟩ "hindi".toList,
       .download ⟨"2024-01-01T00:00:00.000Z".toList, true, true⟩ "telugu".toList,
       .uninstall "telugu".toList false,
       .uninstall "tamil".toList true]) :=
  (store_invariant [("theme".toList, .corrupt), ("package_tamil".toList, .corrupt)]
    [.download ⟨"2024-01-01T00:00:00.000Z".toList, false, true⟩ "hindi".toList,
     .download ⟨"2024-01-01T00:00:00.000Z".toList, true, true⟩ "telugu".toList,
     .uninstall "telugu".toList false,
     .uninstall "tamil".toList true]).2.2 (by decide)

/-! ## The store: installed languages -/

theorem nodup_setAdd (set : List Str) (x : Str) (h : set.Nodup) : (setAdd set x).Nodup := by
  unfold setAdd
  split
  · exact h
  · rename_i hx
    rw [List.nodup_append]
    refine ⟨h, List.nodup_singleton x, ?_⟩
    intro a ha hb
    rw [List.mem_singleton.mp hb] at ha
    exact hx ha

theorem foldl_setAdd (languages set : List Str) (h : set.Nodup) :
    (languages.foldl setAdd set).Nodup ∧
      ∀ lang, lang ∈ languages.foldl setAdd set ↔ lang ∈ set ∨ lang ∈ languages := by
  induction languages generalizing set with
  | nil =>
    refine ⟨h, fun lang => ?_⟩
    constructor
    · exact Or.inl
    · rintro (h1 | h1)
      · exact h1
      · cases h1
  | cons x xs ih =>
    obtain ⟨h1, h2⟩ := ih (setAdd set x) (nodup_setAdd set x h)
    refine ⟨h1, fun lang => ?_⟩
    rw [List.foldl_cons, h2, mem_setAdd_iff, List.mem_cons]
    constructor
    · rintro ((h3 | h3) | h3)
      · exact Or.inl h3
      · exact Or.inr (Or.inl h3)
      · exact Or.inr (Or.inr h3)
    · rintro (h3 | h3 | h3)
      · exact Or.inl (Or.inl h3)
      · exact Or.inl (Or.inr h3)
      · exact Or.inr h3

theorem getInstalledLanguagesFrom_spec (ids languages : List Str)
    (hids : ∀ packageId ∈ ids, isInherited packageId = false) (h : languages.Nodup) :
    ∃ result, getInstalledLanguagesFrom ids languages = .returned result ∧ result.Nodup ∧
      ∀ lang, lang ∈ result ↔
        lang ∈ languages ∨
          ∃ packageId ∈ ids, ∃ pack, readPackage packageId = .pack pack ∧
            lang ∈ pack.languages := by
  induction ids generalizing languages with
  | nil =>
    refine ⟨languages, rfl, h, fun lang => ?_⟩
    constructor
    · exact Or.inl
    · rintro (h1 | ⟨packageId, hp, _⟩)
      · exact h1
      · cases hp
  | cons packageId rest ih =>
    have hrest : ∀ q ∈ rest, isInherited q = false := fun q hq =>
      hids q (List.mem_cons_of_mem _ hq)
    unfold getInstalledLanguagesFrom
    cases hr : readPackage packageId with
    | pack pack =>
      simp only
      obtain ⟨hnd, hmem⟩ := foldl_setAdd pack.languages languages h
      obtain ⟨result, hres, hnd1, hmem1⟩ := ih _ hrest hnd
      refine ⟨result, hres, hnd1, fun lang => ?_⟩
      rw [hmem1, hmem]
      constructor
      · rintro ((h1 | h1) | ⟨q, hq, p, hqp, hl⟩)
        · exact Or.inl h1
        · exact Or.inr ⟨packageId, List.mem_cons_self _ _, pack, hr, h1⟩
        · exact Or.inr ⟨q, List.mem_cons_of_mem _ hq, p, hqp, hl⟩
      · rintro (h1 | ⟨q, hq, p, hqp, hl⟩)
        · exact Or.inl (Or.inl h1)
        · rcases List.mem_cons.mp hq with h2 | h2
          · rw [h2, hr] at hqp
            cases hqp
            exact Or.inl (Or.inr hl)
          · exact Or.inr ⟨q, h2, p, hqp, hl⟩
    | undefined =>
      simp only
      obtain ⟨result, hres, hnd1, hmem1⟩ := ih _ hrest h
      refine ⟨result, hres, hnd1, fun lang => ?_⟩
      rw [hmem1]
      constructor
      · rintro (h1 | ⟨q, hq, p, hqp, hl⟩)
        · exact Or.inl h1
        · exact Or.inr ⟨q, List.mem_cons_of_mem _ hq, p, hqp, hl⟩
      · rintro (h1 | ⟨q, hq, p, hqp, hl⟩)
        · exact Or.inl h1
        · rcases List.mem_cons.mp hq with h2 | h2
          · rw [h2, hr] at hqp
            cases hqp
          · exact Or.inr ⟨q, h2, p, hqp, hl⟩
    | inherited =>
      have hi := hids packageId (List.mem_cons_self _ _)
      unfold readPackage at hr
      split at hr
      · cases hr
      · rw [hi] at hr
        simp at hr

/-- The installed languages when no installed id is the name of a property
inherited from `Object.prototype`: a list without duplicates whose elements are
exactly the language codes of the installed catalog packs. -/
theorem getInstalledLanguages_union (pm : PackageManager)
    (hids : ∀ packageId ∈ pm.installedPackages, isInherited packageId = false) :
    ∃ result, getInstalledLanguages pm = .returned result ∧ result.Nodup ∧
      ∀ lang, lang ∈ result ↔
        ∃ packageId ∈ pm.installedPackages, ∃ pack,
          readPackage packageId = .pack pack ∧ lang ∈ pack.languages := by
  obtain ⟨result, hres, hnd, hmem⟩ :=
    getInstalledLanguagesFrom_spec pm.installedPackages [] hids List.nodup_nil
  refine ⟨result, hres, hnd, fun lang => ?_⟩
  rw [hmem]
  constructor
  · rintro (h1 | h1)
    · cases h1
    · exact h1
  · exact Or.inr

/-- C12, at the installed set `{constructor}`, which the startup rebuild gives
for a storage with the key `package_constructor`: the read
`availablePackages["constructor"]` finds the inherited function, the guard
`if (pack)` lets it pass, and `pack.languages.forEach` throws a `TypeError`;
no list is returned.  With only `multi-indic` installed the result is
`hi, ta, te, kn`, and with `hindi` and `multi-indic` installed `hi` comes
once. -/
theorem getInstalledLanguages_inherited_id :
    (startup [("package_constructor".toList, .corrupt)]).installedPackages =
      ["constructor".toList] ∧
    getInstalledLanguages (startup [("package_constructor".toList, .corrupt)]) =
      .threw .typeError ∧
    getInstalledLanguages { localStorage := [], installedPackages := ["multi-indic".toList] } =
      .returned ["hi".toList, "ta".toList, "te".toList, "kn".toList] ∧
    getInstalledLanguages
        { localStorage := [], installedPackages := ["hindi".toList, "multi-indic".toList] } =
      .returned ["hi".toList, "ta".toList, "te".toList, "kn".toList] := by
  decide

/-! ## The store: uninstall -/

/-- The method `uninstallPackage` on an id the catalog has (or an inherited
name): for an installed id a confirmed call removes the storage entry and the
set membership, a declined call changes nothing; for an id that is not
installed nothing changes, whatever the catalog has. -/
theorem uninstallPackage_frame (pm : PackageManager) (packageId : Str) (confirmed : Bool) :
    (packageId ∉ pm.installedPackages → uninstallPackage pm packageId confirmed = .returned pm) ∧
    (packageId ∈ pm.installedPackages → readPackage packageId ≠ .undefined →
      (confirmed = false → uninstallPackage pm packageId confirmed = .returned pm) ∧
      (confirmed = true →
        ∃ pm1, uninstallPackage pm packageId confirmed = .returned pm1 ∧
          hasItem pm1.localStorage (packageKey packageId) = false ∧
          packageId ∉ pm1.installedPackages ∧
          (∀ other, other ≠ packageId →
            getItem pm1.localStorage (packageKey other) =
              getItem pm.localStorage (packageKey other) ∧
            (other ∈ pm1.installedPackages ↔ other ∈ pm.installedPackages)))) := by
  constructor
  · intro hin
    unfold uninstallPackage
    rw [if_pos hin]
  · intro hin hpack
    unfold uninstallPackage
    rw [if_neg (not_not.mpr hin)]
    constructor
    · intro hc
      subst hc
      cases hr : readPackage packageId with
      | undefined => exact absurd hr hpack
      | inherited => rfl
      | pack p => rfl
    · intro hc
      subst hc
      refine ⟨{ localStorage := removeItem pm.localStorage (packageKey packageId)
                installedPackages := setDelete pm.installedPackages packageId }, ?_,
        hasItem_removeItem_same _ _, not_mem_setDelete _ _, ?_⟩
      · cases hr : readPackage packageId with
        | undefined => exact absurd hr hpack
        | inherited => rfl
        | pack p => rfl
      · intro other hne
        refine ⟨getItem_removeItem_other _ _ _ fun hkey =>
          hne (packageKey_injective _ _ hkey), ?_⟩
        simp only
        rw [mem_setDelete_iff]
        exact ⟨fun h => h.1, fun h => ⟨h, hne⟩⟩

/-- C13, at the installed id `foo`, which the startup rebuild gives for a
storage with the key `package_foo` and which the catalog does not have: the
read `pack.name` throws a `TypeError` before `confirm` is reached, so the entry
and the membership stay even for a user who would confirm. -/
theorem uninstall_foreign_id_throws :
    "foo".toList ∈ foreignStore.installedPackages ∧
    hasItem foreignStore.localStorage (packageKey "foo".toList) = true ∧
    uninstallPackage foreignStore "foo".toList true = .threw .typeError ∧
    applyCall foreignStore (.uninstall "foo".toList true) = foreignStore := by
  decide

/-! ## OCR engine: dispatch -/

theorem recognizeWith_engine (host : OcrHost) (engine : OCREngine) :
    (recognizeWith host engine).engine = engine := by
  unfold recognizeWith
  cases engine.tesseractWorker with
  | none => rfl
  | some worker =>
    simp only
    split
    · rfl
    · cases host.recognize <;> rfl

theorem recognizeWith_events (host : OcrHost) (engine : OCREngine) :
    ∀ ev ∈ (recognizeWith host engine).events, ∃ worker, ev = .recognizeCalled worker := by
  unfold recognizeWith
  cases engine.tesseractWorker with
  | none => intro ev hev; cases hev
  | some worker =>
    simp only
    split
    · intro ev hev; cases hev
    · cases host.recognize with
      | none =>
        intro ev hev
        exact ⟨worker, List.mem_singleton.mp hev⟩
      | some data =>
        intro ev hev
        exact ⟨worker, List.mem_singleton.mp hev⟩

theorem initializeTesseract_events (host : OcrHost) (pm : PackageManager) (engine : OCREngine) :
    ∀ ev ∈ (initializeTesseract host pm engine).events, ∃ worker, ev = .workerCreated worker := by
  unfold initializeTesseract
  split
  · intro ev hev; cases hev
  · split
    · intro ev hev; cases hev
    · cases host.createWorker with
      | none => intro ev hev; cases hev
      | some worker =>
        simp only
        cases getInstalledLanguages pm with
        | returned langs =>
          simp only
          split
          · intro ev hev; exact ⟨worker, List.mem_singleton.mp hev⟩
          · split
            · intro ev hev; exact ⟨worker, List.mem_singleton.mp hev⟩
            · intro ev hev; exact ⟨worker, List.mem_singleton.mp hev⟩
        | threw e => intro ev hev; exact ⟨worker, List.mem_singleton.mp hev⟩
        | hostDefined => intro ev hev; exact ⟨worker, List.mem_singleton.mp hev⟩

theorem processLocally_events (host : OcrHost) (pm : PackageManager) (engine : OCREngine) :
    ∃ rest, (processLocally host pm engine).events = .localPath :: rest ∧
      ∀ ev ∈ rest, (∃ worker, ev = .workerCreated worker) ∨
        ∃ worker, ev = .recognizeCalled worker := by
  unfold processLocally
  split
  · exact ⟨_, rfl, fun ev hev => Or.inr (recognizeWith_events host engine ev hev)⟩
  · have hinit := initializeTesseract_events host pm engine
    cases hi : initializeTesseract host pm engine with
    | mk engine1 result events =>
      rw [hi] at hinit
      cases result with
      | failed failure => exact ⟨_, rfl, fun ev hev => Or.inl (hinit ev hev)⟩
      | done value =>
        refine ⟨_, rfl, fun ev hev => ?_⟩
        rcases List.mem_append.mp hev with h | h
        · exact Or.inl (hinit ev h)
        · exact Or.inr (recognizeWith_events host engine1 ev h)

theorem processLocally_count (host : OcrHost) (pm : PackageManager) (engine : OCREngine) :
    (processLocally host pm engine).events.count .localPath = 1 ∧
    (processLocally host pm engine).events.count .remotePath = 0 ∧
    (processLocally host pm engine).events.count .remoteRequest = 0 := by
  obtain ⟨rest, hev, hrest⟩ := processLocally_events host pm engine
  rw [hev]
  have hcount : ∀ target : OcrEvent,
      (∀ worker, target ≠ .workerCreated worker) → (∀ worker, target ≠ .recognizeCalled worker) →
      rest.count target = 0 := by
    intro target h1 h2
    rw [List.count_eq_zero]
    intro hmem
    rcases hrest target hmem with ⟨w, hw⟩ | ⟨w, hw⟩
    · exact h1 w hw
    · exact h2 w hw
  refine ⟨?_, ?_, ?_⟩
  · rw [List.count_cons_self, hcount .localPath (fun w h => by cases h) (fun w h => by cases h)]
  · rw [List.count_cons_of_ne (by decide),
      hcount .remotePath (fun w h => by cases h) (fun w h => by cases h)]
  · rw [List.count_cons_of_ne (by decide),
      hcount .remoteRequest (fun w h => by cases h) (fun w h => by cases h)]

theorem processWithAPI_count (host : OcrHost) (engine : OCREngine) :
    (processWithAPI host engine).events.count .localPath = 0 ∧
    (processWithAPI host engine).events.count .remotePath = 1 ∧
    (processWithAPI host engine).events.count .remoteRequest ≤ 1 := by
  unfold processWithAPI
  split
  · refine ⟨?_, ?_, ?_⟩ <;> simp only <;> decide
  · split
    · refine ⟨?_, ?_, ?_⟩ <;> simp only <;> decide
    · cases host.remote <;> refine ⟨?_, ?_, ?_⟩ <;> simp only <;> decide

/-- C14: in hybrid mode, when the local path fails (at initialisation or at
recognition) the dispatcher enters the remote path exactly once, sends at most
one request, and ends with that call's result or error; when the local path
succeeds the remote path is not entered and the local result is returned. -/
theorem hybrid_falls_through_once (host : OcrHost) (pm : PackageManager) (engine : OCREngine)
    (hp : engine.provider = "hybrid".toList) :
    (∀ failure, (processLocally host pm engine).result = .failed failure →
      (processImage host pm engine).result =
        (processWithAPI host (processLocally host pm engine).engine).result ∧
      (processImage host pm engine).events.count .localPath = 1 ∧
      (processImage host pm engine).events.count .remotePath = 1 ∧
      (processImage host pm engine).events.count .remoteRequest ≤ 1) ∧
    (∀ value, (processLocally host pm engine).result = .done value →
      (processImage host pm engine).result = .done value ∧
      (processImage host pm engine).engine = (processLocally host pm engine).engine ∧
      (processImage host pm engine).events.count .remotePath = 0 ∧
      (processImage host pm engine).events.count .remoteRequest = 0) := by
  have h1 : engine.provider ≠ "api".toList := by rw [hp]; decide
  have h2 : engine.provider ≠ "local".toList := by rw [hp]; decide
  have hl := processLocally_count host pm engine
  unfold processImage
  rw [if_neg h1, if_neg h2, if_pos hp]
  cases hloc : processLocally host pm engine with
  | mk engine1 result events =>
    rw [hloc] at hl
    simp only at hl
    have ha := processWithAPI_count host engine1
    cases result with
    | done value =>
      constructor
      · intro failure hf
        cases hf
      · intro v hv
        cases hv
        refine ⟨?_, ?_, hl.2.1, hl.2.2⟩ <;> trivial
    | failed failure =>
      constructor
      · intro f _
        simp only [List.count_append]
        refine ⟨trivial, ?_, ?_, ?_⟩
        · rw [hl.1, ha.1]
        · rw [hl.2.1, ha.2.1]
        · rw [hl.2.2]
          simpa using ha.2.2
      · intro v hv
        cases hv

/-- C14, for an engine in hybrid mode with a key, whose recognition library is
not loaded and whose remote call finds a text. -/
theorem hybrid_falls_through_once_witness :
    (processImage ⟨false, none, true, true, true, none, true,
        some ⟨false, none, some [⟨"MAIN ROAD".toList, 1⟩]⟩⟩ emptyStore
      (setApiKeys (setProvider newOCREngine "hybrid".toList) "K1".toList)).result =
      .done ⟨"MAIN ROAD".toList, 95, "api".toList⟩ ∧
    (processImage ⟨false, none, true, true, true, none, true,
        some ⟨false, none, some [⟨"MAIN ROAD".toList, 1⟩]⟩⟩ emptyStore
      (setApiKeys (setProvider newOCREngine "hybrid".toList) "K1".toList)).events.count
        .remotePath = 1 :=
  ⟨by decide,
   ((hybrid_falls_through_once ⟨false, none, true, true, true, none, true,
        some ⟨false, none, some [⟨"MAIN ROAD".toList, 1⟩]⟩⟩ emptyStore
      (setApiKeys (setProvider newOCREngine "hybrid".toList) "K1".toList) (by decide)).1
      (.error "Tesseract.js not loaded".toList) (by decide)).2.2.1⟩

/-! ## OCR engine: the remote and the local call -/

theorem processWithAPI_response (host : OcrHost) (engine : OCREngine) (data : ApiResponse)
    (hkey : engine.ocrSpace ≠ []) (hfetch : host.fetchImageOk = true)
    (hremote : host.remote = some data) :
    (processWithAPI host engine).result = readResponse data := by
  unfold processWithAPI
  rw [isEmpty_eq_false hkey, hfetch, hremote]
  rfl

/-- C15: with an API key configured, for every remote response whose
`IsErroredOnProcessing` flag is set, `processWithAPI` fails, also when the
response carries parsed results; the message of the failure is the provider's
`ErrorMessage` when one is present (an empty text counts as none, the code
tests `data.ErrorMessage ||`), and `"OCR processing failed"` otherwise. -/
theorem processWithAPI_errored (host : OcrHost) (engine : OCREngine) (data : ApiResponse)
    (hkey : engine.ocrSpace ≠ []) (hfetch : host.fetchImageOk = true)
    (hremote : host.remote = some data) (hflag : data.isErroredOnProcessing = true) :
    (∀ value, (processWithAPI host engine).result ≠ .done value) ∧
    (∀ message, data.errorMessage = some message → message ≠ [] →
      (processWithAPI host engine).result = .failed (.error message)) ∧
    ((data.errorMessage = none ∨ data.errorMessage = some []) →
      (processWithAPI host engine).result =
        .failed (.error "OCR processing failed".toList)) := by
  rw [processWithAPI_response host engine data hkey hfetch hremote]
  unfold readResponse
  rw [if_pos hflag]
  refine ⟨fun value h => (by cases h), ?_, ?_⟩
  · intro message hm hne
    rw [hm]
    unfold errorMessageOrDefault
    simp only
    rw [isEmpty_eq_false hne]
    rfl
  · rintro (hm | hm) <;> rw [hm] <;> rfl

/-- C15, for a response with the flag, a message and a parsed result. -/
theorem processWithAPI_errored_witness :
    (processWithAPI ⟨true, none, true, true, true, none, true,
        some ⟨true, some "Timed out".toList, some [⟨"MAIN ROAD".toList, 1⟩]⟩⟩
      (setApiKeys newOCREngine "K1".toList)).result =
      .failed (.error "Timed out".toList) :=
  (processWithAPI_errored ⟨true, none, true, true, true, none, true,
      some ⟨true, some "Timed out".toList, some [⟨"MAIN ROAD".toList, 1⟩]⟩⟩
    (setApiKeys newOCREngine "K1".toList)
    ⟨true, some "Timed out".toList, some [⟨"MAIN ROAD".toList, 1⟩]⟩
    (by decide) (by decide) (by decide) (by decide)).2.1 "Timed out".toList (by decide)
    (by decide)

/-- C16: with an API key configured, for every remote response without the
error flag: when the list of parsed results is missing or empty
`processWithAPI` fails with `"No text found in image"`; otherwise it returns
the text of the first result with provider `api` and a confidence of 95 when
that result's exit code is 1 and of 75 for every other exit code; a confidence
it returns is at most 100. -/
theorem processWithAPI_parsed (host : OcrHost) (engine : OCREngine) (data : ApiResponse)
    (hkey : engine.ocrSpace ≠ []) (hfetch : host.fetchImageOk = true)
    (hremote : host.remote = some data) (hflag : data.isErroredOnProcessing = false) :
    ((data.parsedResults = none ∨ data.parsedResults = some []) →
      (processWithAPI host engine).result =
        .failed (.error "No text found in image".toList)) ∧
    (∀ first rest, data.parsedResults = some (first :: rest) →
      (processWithAPI host engine).result =
        .done
          { text := first.parsedText
            confidence := if first.fileParseExitCode = 1 then 95 else 75
            provider := "api".toList }) ∧
    (∀ value, (processWithAPI host engine).result = .done value →
      value.confidence ≤ 100 ∧ (value.confidence = 95 ∨ value.confidence = 75)) := by
  rw [processWithAPI_response host engine data hkey hfetch hremote]
  unfold readResponse
  rw [hflag]
  simp only [Bool.false_eq_true, if_false]
  refine ⟨?_, ?_, ?_⟩
  · rintro (h | h) <;> rw [h]
  · intro first rest h
    rw [h]
  · intro value hv
    cases hp : data.parsedResults with
    | none =>
      rw [hp] at hv
      cases hv
    | some results =>
      cases results with
      | nil =>
        rw [hp] at hv
        cases hv
      | cons first rest =>
        rw [hp] at hv
        simp only [Attempt.done.injEq] at hv
        rw [← hv]
        simp only
        split
        · exact ⟨by decide, Or.inl rfl⟩
        · exact ⟨by decide, Or.inr rfl⟩

/-- C16, for a response whose first result has exit code 2. -/
theorem processWithAPI_parsed_witness :
    (processWithAPI ⟨true, none, true, true, true, none, true,
        some ⟨false, none, some [⟨"MAIN ROAD".toList, 2⟩, ⟨"x".toList, 1⟩]⟩⟩
      (setApiKeys newOCREngine "K1".toList)).result =
      .done ⟨"MAIN ROAD".toList, 75, "api".toList⟩ :=
  (processWithAPI_parsed ⟨true, none, true, true, true, none, true,
      some ⟨false, none, some [⟨"MAIN ROAD".toList, 2⟩, ⟨"x".toList, 1⟩]⟩⟩
    (setApiKeys newOCREngine "K1".toList)
    ⟨false, none, some [⟨"MAIN ROAD".toList, 2⟩, ⟨"x".toList, 1⟩]⟩
    (by decide) (by decide) (by decide) (by decide)).2.1 ⟨"MAIN ROAD".toList, 2⟩
    [⟨"x".toList, 1⟩] (by decide)

/-- The result of a successful local recognition on an initialised engine: the
trimmed text, provider `local`, and the reported score unless it is 0 or
absent, 85 then. -/
theorem processLocally_recognized (host : OcrHost) (pm : PackageManager) (engine : OCREngine)
    (worker : Nat) (data : Recognition) (hinit : engine.isInitialized = true)
    (hworker : engine.tesseractWorker = some worker) (hset : host.setParametersOk = true)
    (hrec : host.recognize = some data) :
    (processLocally host pm engine).result =
      .done
        { text := trim data.text, confidence := confidenceOr85 data.confidence,
          provider := "local".toList } ∧
    (∀ score, data.confidence = some score → score ≠ 0 →
      confidenceOr85 data.confidence = score) ∧
    (data.confidence = none → confidenceOr85 data.confidence = 85) := by
  refine ⟨?_, ?_, ?_⟩
  · unfold processLocally recognizeWith
    rw [if_pos hinit, hworker]
    simp only [hset, hrec, Bool.not_true, Bool.false_eq_true, if_false]
  · intro score hs hne
    rw [hs]
    unfold confidenceOr85
    simp only [if_neg hne]
  · intro hs
    rw [hs]
    rfl

/-- C17, at a recognition that reports the score 0: the expression
`result.data.confidence || 85` takes 0 for absent and the call returns the
confidence 85, not the reported 0. -/
theorem processLocally_score_zero :
    (processLocally ⟨true, some 1, true, true, true, some ⟨" road ".toList, some 0⟩, true, none⟩
      emptyStore newOCREngine).result =
      .done ⟨"road".toList, 85, "local".toList⟩ ∧
    (processLocally ⟨true, some 1, true, true, true, some ⟨" road ".toList, some 40⟩, true, none⟩
      emptyStore newOCREngine).result =
      .done ⟨"road".toList, 40, "local".toList⟩ ∧
    (processLocally ⟨true, some 1, true, true, true, some ⟨" road ".toList, none⟩, true, none⟩
      emptyStore newOCREngine).result =
      .done ⟨"road".toList, 85, "local".toList⟩ := by
  decide

/-- C19: for every provider other than `api`, `local` and `hybrid`,
`processImage` fails with `"Unknown provider: "` followed by the provider, enters
neither the remote nor the local path and leaves the engine as it was; so it
does for `online` and `offline`, the values `PackageManager.setMode` passes to
`setProvider`, and for `online` passed by `handleModeChange` with a key in the
field. -/
theorem processImage_unknown_provider (host : OcrHost) (pm : PackageManager)
    (engine : OCREngine) :
    (engine.provider ≠ "api".toList → engine.provider ≠ "local".toList →
      engine.provider ≠ "hybrid".toList →
      (processImage host pm engine).result =
        .failed (.error ("Unknown provider: ".toList ++ engine.provider)) ∧
      (processImage host pm engine).events = [] ∧
      (processImage host pm engine).engine = engine) ∧
    (processImage host pm (setMode engine "online".toList)).result =
      .failed (.error "Unknown provider: online".toList) ∧
    (processImage host pm (setMode engine "offline".toList)).result =
      .failed (.error "Unknown provider: offline".toList) ∧
    (∀ apiKeyField engine1, apiKeyField ≠ [] →
      handleModeChange engine "online".toList apiKeyField = .done engine1 →
      (processImage host pm engine1).result =
        .failed (.error "Unknown provider: online".toList)) := by
  have hgen : ∀ e : OCREngine, e.provider ≠ "api".toList → e.provider ≠ "local".toList →
      e.provider ≠ "hybrid".toList →
      processImage host pm e =
        ⟨e, .failed (.error ("Unknown provider: ".toList ++ e.provider)), []⟩ := by
    intro e h1 h2 h3
    unfold processImage
    rw [if_neg h1, if_neg h2, if_neg h3]
  have on1 : "online".toList ≠ "api".toList := by decide
  have on2 : "online".toList ≠ "local".toList := by decide
  have on3 : "online".toList ≠ "hybrid".toList := by decide
  have off1 : "offline".toList ≠ "api".toList := by decide
  have off2 : "offline".toList ≠ "local".toList := by decide
  have off3 : "offline".toList ≠ "hybrid".toList := by decide
  refine ⟨?_, ?_, ?_, ?_⟩
  · intro h1 h2 h3
    rw [hgen engine h1 h2 h3]
    exact ⟨rfl, rfl, rfl⟩
  · rw [hgen (setMode engine "online".toList) on1 on2 on3]
    rfl
  · rw [hgen (setMode engine "offline".toList) off1 off2 off3]
    rfl
  · intro apiKeyField engine1 hkey hdone
    unfold handleModeChange at hdone
    rw [if_neg (by decide), if_pos rfl, isEmpty_eq_false hkey] at hdone
    simp only [Bool.false_eq_true, if_false, Attempt.done.injEq] at hdone
    rw [← hdone, hgen (setProvider engine "online".toList) on1 on2 on3]
    rfl

/-- C19, for the default mode `online` set on a new engine. -/
theorem processImage_unknown_provider_witness :
    (processImage ⟨true, some 1, true, true, true, none, true, none⟩ emptyStore
      (setMode newOCREngine "online".toList)).result =
      .failed (.error "Unknown provider: online".toList) ∧
    (processImage ⟨true, some 1, true, true, true, none, true, none⟩ emptyStore
      (setMode newOCREngine "online".toList)).events = [] :=
  ⟨by decide,
   ((processImage_unknown_provider ⟨true, some 1, true, true, true, none, true, none⟩ emptyStore
      (setMode newOCREngine "online".toList)).1 (by decide) (by decide) (by decide)).2.1⟩

/-! ## OCR engine: one-time initialisation -/

/-- C18, at an initialisation that fails at language loading, followed by a
local recognition: after the first call the engine holds worker 1 and is not
marked initialised, and the second call creates worker 2 with no teardown
between the two.  The statement `this.tesseractWorker = await
Tesseract.createWorker(...)` stores the worker before the steps that can fail,
and the `catch` block does not put it away. -/
theorem init_failure_leaves_worker :
    (runLocal emptyStore newOCREngine
      [.init ⟨true, some 1, false, true, true, none, true, none⟩]).1 =
      { provider := "api".toList, tesseractWorker := some 1, isInitialized := false,
        ocrSpace := [] } ∧
    ¬ InitializedIffWorker (runLocal emptyStore newOCREngine
      [.init ⟨true, some 1, false, true, true, none, true, none⟩]).1 ∧
    (runLocal emptyStore newOCREngine
      [.init ⟨true, some 1, false, true, true, none, true, none⟩,
       .recognize ⟨true, some 2, true, true, true, some ⟨"road".toList, some 90⟩, true,
         none⟩]).2 =
      [.workerCreated 1, .localPath, .workerCreated 2, .recognizeCalled 2] ∧
    createdOnceBetweenTeardowns false (runLocal emptyStore newOCREngine
      [.init ⟨true, some 1, false, true, true, none, true, none⟩,
       .recognize ⟨true, some 2, true, true, true, some ⟨"road".toList, some 90⟩, true,
         none⟩]).2 = false := by
  decide

theorem terminate_resets (engine : OCREngine) :
    (terminate engine).engine.tesseractWorker = none ∧
    (engine.tesseractWorker.isSome = true → (terminate engine).engine.isInitialized = false) := by
  unfold terminate
  cases h : engine.tesseractWorker with
  | none => exact ⟨h, fun h1 => by cases h1⟩
  | some worker => exact ⟨rfl, fun _ => rfl⟩

theorem processLocally_reuses_worker (host : OcrHost) (pm : PackageManager) (engine : OCREngine)
    (hinit : engine.isInitialized = true) :
    (processLocally host pm engine).engine = engine ∧
    ∀ worker, OcrEvent.workerCreated worker ∉ (processLocally host pm engine).events := by
  unfold processLocally
  rw [if_pos hinit]
  refine ⟨recognizeWith_engine host engine, fun worker hmem => ?_⟩
  rcases List.mem_cons.mp hmem with h | h
  · cases h
  · obtain ⟨w, hw⟩ := recognizeWith_events host engine _ h
    cases hw

theorem initializeTesseract_clean (host : OcrHost) (pm : PackageManager) (engine : OCREngine)
    (hc : initCompletes pm host = true) :
    (engine.isInitialized = true ∧ initializeTesseract host pm engine = ⟨engine, .done (), []⟩) ∨
    (engine.isInitialized = false ∧ ∃ failure,
      initializeTesseract host pm engine = ⟨engine, .failed failure, []⟩) ∨
    (engine.isInitialized = false ∧ ∃ worker,
      initializeTesseract host pm engine =
        ⟨{ engine with tesseractWorker := some worker, isInitialized := true }, .done (),
         [.workerCreated worker]⟩) := by
  unfold initializeTesseract
  by_cases hi : engine.isInitialized = true
  · left
    exact ⟨hi, by rw [if_pos hi]⟩
  · right
    have hi1 : engine.isInitialized = false := Bool.eq_false_iff.mpr hi
    rw [if_neg hi]
    by_cases hl : host.tesseractLoaded = true
    · simp only [hl, Bool.not_true, Bool.false_eq_true, if_false]
      cases hw : host.createWorker with
      | none => exact Or.inl ⟨hi1, _, rfl⟩
      | some worker =>
        right
        refine ⟨hi1, worker, ?_⟩
        unfold initCompletes at hc
        rw [hl, hw] at hc
        simp only [Bool.not_true, Option.isNone_some, Bool.or_self, Bool.false_or,
          Bool.and_eq_true] at hc
        obtain ⟨⟨hlang, hload⟩, hinit⟩ := hc
        cases hg : getInstalledLanguages pm with
        | returned langs =>
          simp only [hload, hinit, Bool.not_true, Bool.false_eq_true, if_false]
        | threw e =>
          rw [hg] at hlang
          cases hlang
        | hostDefined =>
          rw [hg] at hlang
          cases hlang
    · have hl1 : host.tesseractLoaded = false := Bool.eq_false_iff.mpr hl
      simp only [hl1, Bool.not_false, if_true]
      exact Or.inl ⟨hi1, _, rfl⟩

theorem createdOnce_recognizeWith (host : OcrHost) (engine : OCREngine) (live : Bool)
    (tail : List OcrEvent) :
    createdOnceBetweenTeardowns live ((recognizeWith host engine).events ++ tail) =
      createdOnceBetweenTeardowns live tail := by
  unfold recognizeWith
  cases engine.tesseractWorker with
  | none => rfl
  | some worker =>
    simp only
    split
    · rfl
    · cases host.recognize <;> rfl

theorem applyLocal_recognize (pm : PackageManager) (engine : OCREngine) (host : OcrHost) :
    applyLocal pm engine (.recognize host) =
      ((processLocally host pm engine).engine, (processLocally host pm engine).events) := rfl

theorem applyLocal_init (pm : PackageManager) (engine : OCREngine) (host : OcrHost) :
    applyLocal pm engine (.init host) =
      ((initializeTesseract host pm engine).engine,
        (initializeTesseract host pm engine).events) := rfl

theorem applyLocal_teardown (pm : PackageManager) (engine : OCREngine) :
    applyLocal pm engine .teardown = ((terminate engine).engine, (terminate engine).events) :=
  rfl

theorem applyLocal_clean (pm : PackageManager) (engine : OCREngine) (call : LocalCall)
    (hinv : InitializedIffWorker engine) (hc : completesInit pm call = true) :
    InitializedIffWorker (applyLocal pm engine call).1 ∧
    ∀ tail, createdOnceBetweenTeardowns engine.tesseractWorker.isSome
        ((applyLocal pm engine call).2 ++ tail) =
      createdOnceBetweenTeardowns (applyLocal pm engine call).1.tesseractWorker.isSome tail := by
  have hnone : engine.isInitialized = false → engine.tesseractWorker.isSome = false := by
    intro hi
    cases hs : engine.tesseractWorker.isSome with
    | false => rfl
    | true =>
      have := hinv.mpr hs
      rw [hi] at this
      cases this
  cases call with
  | teardown =>
    rw [applyLocal_teardown]
    unfold terminate
    cases hw : engine.tesseractWorker with
    | none =>
      refine ⟨hinv, fun tail => ?_⟩
      simp only [hw, List.nil_append]
    | some worker =>
      refine ⟨?_, fun tail => rfl⟩
      unfold InitializedIffWorker
      simp
  | init host =>
    rw [applyLocal_init]
    rcases initializeTesseract_clean host pm engine hc with ⟨_, h⟩ | ⟨_, f, h⟩ | ⟨hi, w, h⟩
    · rw [h]
      exact ⟨hinv, fun tail => rfl⟩
    · rw [h]
      exact ⟨hinv, fun tail => rfl⟩
    · rw [h]
      refine ⟨?_, fun tail => ?_⟩
      · unfold InitializedIffWorker
        simp
      · simp only [List.singleton_append, Option.isSome_some]
        rw [hnone hi]
        rfl
  | recognize host =>
    rw [applyLocal_recognize]
    unfold processLocally
    rcases initializeTesseract_clean host pm engine hc with ⟨hi, _⟩ | ⟨hi, f, h⟩ | ⟨hi, w, h⟩
    · rw [if_pos hi]
      simp only [recognizeWith_engine]
      refine ⟨hinv, fun tail => ?_⟩
      rw [List.cons_append]
      exact createdOnce_recognizeWith host engine _ tail
    · rw [if_neg (by rw [hi]; decide), h]
      exact ⟨hinv, fun tail => rfl⟩
    · rw [if_neg (by rw [hi]; decide), h]
      simp only [recognizeWith_engine]
      refine ⟨?_, fun tail => ?_⟩
      · unfold InitializedIffWorker
        simp
      · simp only [List.singleton_append, List.cons_append, Option.isSome_some]
        rw [hnone hi]
        show (!false && createdOnceBetweenTeardowns true
          ((recognizeWith host _).events ++ tail)) = _
        rw [createdOnce_recognizeWith]
        rfl

/-- The local engine over sequences of local recognitions, initialisation
attempts and teardowns in which no initialisation fails after it has created its
worker: from an engine that is marked initialised exactly when it holds a
worker, the engine reached is so too, and no two workers are created without a
teardown between them. -/
theorem local_engine_one_time (pm : PackageManager) (engine : OCREngine)
    (calls : List LocalCall) (hinv : InitializedIffWorker engine)
    (hcalls : ∀ call ∈ calls, completesInit pm call = true) :
    InitializedIffWorker (runLocal pm engine calls).1 ∧
    createdOnceBetweenTeardowns engine.tesseractWorker.isSome (runLocal pm engine calls).2 =
      true := by
  induction calls generalizing engine with
  | nil => exact ⟨hinv, rfl⟩
  | cons call rest ih =>
    obtain ⟨h1, h2⟩ := applyLocal_clean pm engine call hinv
      (hcalls call (List.mem_cons_self _ _))
    obtain ⟨h3, h4⟩ := ih (applyLocal pm engine call).1 h1
      fun c hc => hcalls c (List.mem_cons_of_mem call hc)
    unfold runLocal
    simp only
    exact ⟨h3, by rw [h2, h4]⟩

/-! ## The fallback applied twice -/

/-- C20, at the text `constructor` for Hindi: the first call returns the text of
the inherited `Object.prototype.constructor`, and the second call, made on that
text, substitutes its letters, so the two results differ. -/
theorem transliterate_twice_constructor :
    getLanguageData emptyStore "hi".toList = .returned none ∧
    transliterate emptyStore "local".toList "constructor".toList "hi".toList "auto".toList =
      .returned "function Object() \x7b [native code] \x7d".toList ∧
    transliterateTwice emptyStore "local".toList "constructor".toList "hi".toList
        "auto".toList =
      .returned "फउनकतइओन ओबजएकत() \x7b [नअतइवए कओदए] \x7d".toList ∧
    transliterateTwice emptyStore "local".toList "constructor".toList "hi".toList
        "auto".toList ≠
      transliterate emptyStore "local".toList "constructor".toList "hi".toList "auto".toList := by
  decide

set_option maxRecDepth 100000 in
theorem fallbackTables_tableFixed : ∀ map ∈ fallbackTables, tableFixed map = true := by
  decide

theorem toLower_of_not_upper (x : Char) (h : ¬ (65 ≤ x.toNat ∧ x.toNat ≤ 90)) :
    x.toLower = x := by
  unfold Char.toLower
  simp only [ge_iff_le]
  rw [if_neg h]

theorem toUpper_of_not_lower (x : Char) (h : ¬ (97 ≤ x.toNat ∧ x.toNat ≤ 122)) :
    x.toUpper = x := by
  unfold Char.toUpper
  simp only [ge_iff_le]
  rw [if_neg h]

theorem toLower_toLower (c : Char) : c.toLower.toLower = c.toLower := by
  have h1 := toNat_toLower c
  have h2 : ¬ (65 ≤ c.toLower.toNat ∧ c.toLower.toNat ≤ 90) := by
    rw [h1]
    split <;> omega
  exact toLower_of_not_upper _ h2

theorem toNat_toUpper (c : Char) :
    c.toUpper.toNat = if 97 ≤ c.toNat ∧ c.toNat ≤ 122 then c.toNat - 32 else c.toNat := by
  unfold Char.toUpper
  simp only [ge_iff_le]
  split
  · rename_i h
    exact toNat_ofNat_small _ (by omega)
  · rfl

theorem toUpper_toUpper (c : Char) : c.toUpper.toUpper = c.toUpper := by
  have h1 := toNat_toUpper c
  have h2 : ¬ (97 ≤ c.toUpper.toNat ∧ c.toUpper.toNat ≤ 122) := by
    rw [h1]
    split <;> omega
  exact toUpper_of_not_lower _ h2

theorem isWhiteSpace_toUpper (c : Char) : isWhiteSpace c.toUpper = isWhiteSpace c := by
  by_cases h : 97 ≤ c.toNat ∧ c.toNat ≤ 122
  · have h1 : c.toUpper.toNat = c.toNat - 32 := by rw [toNat_toUpper, if_pos h]
    rw [isWhiteSpace_of_printable c (by omega), isWhiteSpace_of_printable c.toUpper (by omega)]
  · have h1 : c.toUpper = c := by
      unfold Char.toUpper
      simp only [ge_iff_le]
      rw [if_neg h]
    rw [h1]

theorem trimmed_toUpperCase (m : Str) (hm : Trimmed m) : Trimmed (toUpperCase m) := by
  unfold Trimmed toUpperCase at *
  rw [List.head?_map, List.getLast?_map]
  constructor
  · intro c hc
    simp only [Option.mem_def, Option.map_eq_some'] at hc
    obtain ⟨d, hd, rfl⟩ := hc
    rw [isWhiteSpace_toUpper]
    exact hm.1 d hd
  · intro c hc
    simp only [Option.mem_def, Option.map_eq_some'] at hc
    obtain ⟨d, hd, rfl⟩ := hc
    rw [isWhiteSpace_toUpper]
    exact hm.2 d hd

theorem toUpperCase_toUpperCase (s : Str) : toUpperCase (toUpperCase s) = toUpperCase s := by
  unfold toUpperCase
  rw [List.map_map]
  apply List.map_congr_left
  intro c _
  exact toUpper_toUpper c

theorem basicTransliteration_of_unmapped (s targetLang : Str) (map : Table)
    (hmap : readBasicMap targetLang = .table map) (hs : Trimmed s)
    (hall : ∀ d ∈ s, map.lookup [d.toLower] = none) :
    basicTransliteration s targetLang = .returned (toLowerCase s) := by
  rw [basicTransliteration_table _ _ map hmap, foldl_mapWord, List.nil_append]
  have hk := fallbackTables_keysHaveMappedChar map (readBasicMap_table _ _ hmap)
  have hwords : (splitSpace (toLowerCase s)).map (mapWord map []) =
      (splitSpace (toLowerCase s)).map fun w => w ++ [' '] := by
    apply List.map_congr_left
    intro w hw
    apply mapWord_of_unmapped map hk
    intro d hdw
    have hmem := mem_of_mem_splitSpace _ w hw d hdw
    unfold toLowerCase at hmem
    obtain ⟨c, hc, rfl⟩ := List.mem_map.mp hmem
    exact hall c hc
  rw [hwords, splitSpace_flatten, trim_append_space _ (trimmed_toLowerCase _ hs)]

theorem mem_intercalate (sep : Str) (l : List Str) (d : Char)
    (h : d ∈ List.intercalate sep l) : d ∈ sep ∨ ∃ x ∈ l, d ∈ x := by
  induction l with
  | nil =>
    have : List.intercalate sep [] = [] := by simp [List.intercalate]
    rw [this] at h
    cases h
  | cons a l ih =>
    cases l with
    | nil =>
      have : List.intercalate sep [a] = a := by simp [List.intercalate]
      rw [this] at h
      exact Or.inr ⟨a, List.mem_cons_self _ _, h⟩
    | cons b l =>
      have : List.intercalate sep (a :: b :: l) = a ++ (sep ++ List.intercalate sep (b :: l)) := by
        simp [List.intercalate]
      rw [this] at h
      rcases List.mem_append.mp h with h1 | h1
      · exact Or.inr ⟨a, List.mem_cons_self _ _, h1⟩
      · rcases List.mem_append.mp h1 with h2 | h2
        · exact Or.inl h2
        · rcases ih h2 with h3 | ⟨x, hx, hdx⟩
          · exact Or.inl h3
          · exact Or.inr ⟨x, List.mem_cons_of_mem _ hx, hdx⟩

theorem tableFixed_value (map : Table) (hf : tableFixed map = true) (k v : Str)
    (h : map.lookup k = some v) (d : Char) (hd : d ∈ v) :
    d.toLower = d ∧ map.lookup [d] = none := by
  obtain ⟨p, hp, hpv⟩ := List.mem_map.mp (lookup_mem_values map k v h)
  unfold tableFixed at hf
  rw [List.all_eq_true] at hf
  have h1 := hf p hp
  simp only [Bool.and_eq_true, List.all_eq_true, beq_iff_eq, Option.isNone_iff_eq_none] at h1
  have hpv1 : p.2 = v := hpv
  rw [← hpv1] at hd
  exact h1.2 d hd

theorem tableFixed_key (map : Table) (hf : tableFixed map = true) (c : Char) (v : Str)
    (h : map.lookup [c] = some v) : 97 ≤ c.toNat ∧ c.toNat ≤ 122 := by
  obtain ⟨p, hp, hpk⟩ := List.mem_map.mp (lookup_mem_keys map [c] v h)
  unfold tableFixed at hf
  rw [List.all_eq_true] at hf
  have h1 := hf p hp
  simp only [Bool.and_eq_true, List.all_eq_true, decide_eq_true_eq] at h1
  have hpk1 : p.1 = [c] := hpk
  exact h1.1 c (by rw [hpk1]; exact List.mem_singleton.mpr rfl)

theorem substituteWord_chars (map : Table) (hf : tableFixed map = true) (w : Str)
    (hw : ∀ c ∈ w, c.toLower = c) (d : Char) (hd : d ∈ substituteWord map w) :
    d.toLower = d ∧ map.lookup [d] = none := by
  unfold substituteWord at hd
  cases h : map.lookup w with
  | some v =>
    rw [h] at hd
    exact tableFixed_value map hf w v h d hd
  | none =>
    rw [h] at hd
    simp only [List.mem_flatMap] at hd
    obtain ⟨c, hc, hdc⟩ := hd
    unfold substituteChar at hdc
    cases h1 : map.lookup [c] with
    | some v =>
      rw [h1] at hdc
      exact tableFixed_value map hf [c] v h1 d hdc
    | none =>
      rw [h1] at hdc
      rw [List.mem_singleton.mp hdc]
      exact ⟨hw c hc, h1⟩

theorem wordwise_chars (map : Table) (hf : tableFixed map = true) (s : Str) (d : Char)
    (hd : d ∈ List.intercalate [' '] ((splitSpace (toLowerCase s)).map (substituteWord map))) :
    d.toLower = d ∧ map.lookup [d] = none := by
  rcases mem_intercalate _ _ d hd with h | ⟨x, hx, hdx⟩
  · rw [List.mem_singleton.mp h]
    refine ⟨by decide, ?_⟩
    cases hl : map.lookup [' '] with
    | none => rfl
    | some v =>
      have h3 : ¬ (97 ≤ ' '.toNat ∧ ' '.toNat ≤ 122) := by decide
      exact absurd (tableFixed_key map hf ' ' v hl) h3
  · obtain ⟨w, hw, rfl⟩ := List.mem_map.mp hx
    apply substituteWord_chars map hf w _ d hdx
    intro c hc
    have hmem := mem_of_mem_splitSpace _ w hw c hc
    unfold toLowerCase at hmem
    obtain ⟨c0, _, rfl⟩ := List.mem_map.mp hmem
    exact toLower_toLower c0

theorem wordwise_ne_nil (map : Table) (hv : valuesPlain map = true) (s : Str)
    (hne : s ≠ []) (hs : Trimmed s) :
    List.intercalate [' '] ((splitSpace s).map (substituteWord map)) ≠ [] := by
  cases s with
  | nil => exact absurd rfl hne
  | cons c cs =>
    have hc : isWhiteSpace c = false := hs.1 c rfl
    have hsp : c ≠ ' ' := by
      intro h0
      rw [h0] at hc
      revert hc
      decide
    obtain ⟨u, us, hsplit⟩ := splitSpace_head c cs hsp
    have h1 := substituteWord_head map hv c u hc
    intro h0
    have h2 := intercalate_head (substituteWord map (c :: u)) (us.map (substituteWord map)) h1.1
    rw [hsplit, List.map_cons] at h0
    rw [h0] at h2
    cases hsub : substituteWord map (c :: u) with
    | nil => exact h1.1 hsub
    | cons x xs =>
      rw [hsub] at h2
      cases h2

theorem nonBlank_of_trimmed (m : Str) (hm : Trimmed m) (hne : m ≠ []) : NonBlank m := by
  unfold NonBlank
  rw [trim_of_trimmed m hm]
  exact hne

/-- The fallback applied twice, off the inherited names: with no installed pack
data, for a target language that is `en` or whose read in `basicMaps` is no
inherited property, and for a text none of whose trimmed, lower-cased words is
the name of an inherited property when the language has a table, the second
call returns what the first returned. -/
theorem transliterate_twice_off_inherited (pm : PackageManager)
    (provider text targetLang sourceLang : Str)
    (hd : getLanguageData pm targetLang = .returned none)
    (hlang : targetLang = "en".toList ∨ readBasicMap targetLang ≠ .inherited)
    (hwords : ∀ map, readBasicMap targetLang = .table map →
      ∀ w ∈ splitSpace (toLowerCase (trim text)), isInherited w = false) :
    transliterateTwice pm provider text targetLang sourceLang =
      transliterate pm provider text targetLang sourceLang := by
  unfold transliterateTwice
  by_cases hb : NonBlank text
  · by_cases hen : targetLang = "en".toList
    · subst hen
      have h1 : transliterate pm provider text "en".toList sourceLang =
          .returned (toUpperCase (trim text)) := by
        rw [transliterate_of_noData pm provider _ _ sourceLang hd hb]
        unfold basicTransliteration
        rw [if_pos rfl]
      have htr : Trimmed (toUpperCase (trim text)) := trimmed_toUpperCase _ (trim_trimmed text)
      have hne : toUpperCase (trim text) ≠ [] := by
        unfold toUpperCase
        intro h0
        exact hb (List.map_eq_nil_iff.mp h0)
      rw [h1]
      simp only
      rw [transliterate_of_noData pm provider _ _ sourceLang hd (nonBlank_of_trimmed _ htr hne),
        trim_of_trimmed _ htr]
      unfold basicTransliteration
      rw [if_pos rfl, toUpperCase_toUpperCase]
    · cases hr : readBasicMap targetLang with
      | inherited =>
        rcases hlang with h | h
        · exact absurd h hen
        · exact absurd hr h
      | undefined =>
        have hbasic : ∀ s, basicTransliteration s targetLang = .returned s := by
          intro s
          unfold basicTransliteration
          rw [if_neg hen, hr]
        have h1 : transliterate pm provider text targetLang sourceLang =
            .returned (trim text) := by
          rw [transliterate_of_noData pm provider _ _ sourceLang hd hb, hbasic]
        rw [h1]
        simp only
        rw [transliterate_of_noData pm provider _ _ sourceLang hd
          (nonBlank_of_trimmed _ (trim_trimmed text) hb), hbasic,
          trim_of_trimmed _ (trim_trimmed text)]
      | table map =>
        have hv := fallbackTables_valuesPlain map (readBasicMap_table _ _ hr)
        have hf := fallbackTables_tableFixed map (readBasicMap_table _ _ hr)
        have h1 := transliterate_wordwise pm provider text targetLang sourceLang map hr hd hb
          (hwords map hr)
        have hne0 : toLowerCase (trim text) ≠ [] := by
          unfold toLowerCase
          intro h0
          exact hb (List.map_eq_nil_iff.mp h0)
        have htr0 := trimmed_toLowerCase _ (trim_trimmed text)
        have htr : Trimmed (wordwiseFallback map text) := wordwise_trimmed map hv _ hne0 htr0
        have hne : wordwiseFallback map text ≠ [] := wordwise_ne_nil map hv _ hne0 htr0
        have hchars : ∀ d ∈ wordwiseFallback map text, d.toLower = d ∧ map.lookup [d] = none :=
          fun d hd => wordwise_chars map hf (trim text) d hd
        have hlow : toLowerCase (wordwiseFallback map text) = wordwiseFallback map text := by
          unfold toLowerCase
          conv => rhs; rw [← List.map_id (wordwiseFallback map text)]
          apply List.map_congr_left
          intro d hd
          exact (hchars d hd).1
        rw [h1]
        simp only
        rw [transliterate_of_noData pm provider _ _ sourceLang hd (nonBlank_of_trimmed _ htr hne),
          trim_of_trimmed _ htr,
          basicTransliteration_of_unmapped _ _ map hr htr
            (fun d hd => by rw [(hchars d hd).1]; exact (hchars d hd).2),
          hlow]
  · rw [transliterate_of_blank _ _ _ _ _ hb]
    simp only
    exact transliterate_of_blank _ _ _ _ _ (fun h => h trim_nil)

/-! ## The engine with the case conversions of the host -/

theorem transliterate_eq_asciiCase (pm : PackageManager)
    (provider text targetLang sourceLang : Str) :
    transliterate pm provider text targetLang sourceLang =
      asciiCase.transliterate pm provider text targetLang sourceLang := rfl

theorem transliterateOffline_eq_asciiCase (pm : PackageManager)
    (text targetLang sourceLang : Str) :
    transliterateOffline pm text targetLang sourceLang =
      asciiCase.transliterateOffline pm text targetLang sourceLang := rfl

theorem transliterateOffline_ne_threw_host (host : CaseHost) (pm : PackageManager)
    (text targetLang sourceLang : Str) (e : JSError) :
    host.transliterateOffline pm text targetLang sourceLang ≠ .threw e := by
  unfold CaseHost.transliterateOffline
  cases h : host.transliterateOfflineBody pm text targetLang <;> simp

theorem transliterate_of_nonBlank_host (host : CaseHost) (pm : PackageManager)
    (provider text targetLang sourceLang : Str) (h : NonBlank text) :
    host.transliterate pm provider text targetLang sourceLang =
      host.transliterateOffline pm text targetLang sourceLang := by
  have h1 : text.isEmpty = false := by
    cases text with
    | nil => exact absurd rfl h.ne_nil
    | cons c cs => rfl
  have h2 : (trim text).isEmpty = false := by
    unfold NonBlank at h
    cases ht : trim text with
    | nil => exact absurd ht h
    | cons c cs => rfl
  unfold CaseHost.transliterate
  simp only [h1, h2, Bool.or_self, Bool.false_eq_true, if_false]
  unfold CaseHost.transliterateOnline
  split
  · rfl
  · split
    · rfl
    · split
      · cases ho : host.transliterateOffline pm text targetLang sourceLang with
        | returned v => rfl
        | threw e => exact absurd ho (transliterateOffline_ne_threw_host _ _ _ _ _ e)
        | hostDefined => rfl
      · rfl

theorem basicTransliteration_ne_threw_host (host : CaseHost) (text targetLang : Str)
    (e : JSError) : host.basicTransliteration text targetLang ≠ .threw e := by
  unfold CaseHost.basicTransliteration
  split
  · simp
  · split <;> simp

theorem transliterateOffline_of_noData_host (host : CaseHost) (pm : PackageManager)
    (text targetLang sourceLang : Str)
    (h : getLanguageData pm targetLang = .returned none) :
    host.transliterateOffline pm text targetLang sourceLang =
      host.basicTransliteration (trim text) targetLang := by
  unfold CaseHost.transliterateOffline CaseHost.transliterateOfflineBody
  simp only [h]
  cases hb : host.basicTransliteration (trim text) targetLang with
  | returned v => rfl
  | threw e => exact absurd hb (basicTransliteration_ne_threw_host _ _ _ e)
  | hostDefined => rfl

theorem transliterate_of_noData_host (host : CaseHost) (pm : PackageManager)
    (provider text targetLang sourceLang : Str)
    (hd : getLanguageData pm targetLang = .returned none) (h : NonBlank text) :
    host.transliterate pm provider text targetLang sourceLang =
      host.basicTransliteration (trim text) targetLang := by
  rw [transliterate_of_nonBlank_host _ _ _ _ _ _ h,
    transliterateOffline_of_noData_host _ _ _ _ _ hd]

theorem basicTransliteration_table_host (host : CaseHost) (text targetLang : Str)
    (map : Table) (hmap : readBasicMap targetLang = .table map) :
    host.basicTransliteration text targetLang =
      .returned (trim ((splitSpace (host.toLowerCase text)).foldl (mapWord map) [])) := by
  have hen : targetLang ≠ "en".toList := by
    intro h
    subst h
    have hu : readBasicMap "en".toList = .undefined := by decide
    rw [hu] at hmap
    cases hmap
  unfold CaseHost.basicTransliteration
  rw [if_neg hen, hmap]

/-- C6, as stated, fails: for `en` the text `" a "` gives `"A"`, which is not
the input text in upper case, `" A "`. -/
theorem transliterate_en_not_upper_of_input :
    getLanguageData emptyStore "en".toList = .returned none ∧ NonBlank " a ".toList ∧
    latinCase.toUpperCase " a ".toList = " A ".toList ∧
    latinCase.transliterate emptyStore "local".toList " a ".toList "en".toList
      "auto".toList = .returned "A".toList ∧
    latinCase.transliterate emptyStore "local".toList " a ".toList "en".toList
      "auto".toList ≠ .returned (latinCase.toUpperCase " a ".toList) := by
  decide

/-- C6, amended: for target language `en` with no installed pack data for `en`,
for every non-blank text and whatever the upper-casing of the host does to the
letters, `transliterate` returns the trimmed text converted to upper case by
the host. -/
theorem transliterate_en_upper (host : CaseHost) (pm : PackageManager)
    (provider text sourceLang : Str)
    (hd : getLanguageData pm "en".toList = .returned none) (h : NonBlank text) :
    host.transliterate pm provider text "en".toList sourceLang =
      .returned (host.toUpperCase (trim text)) := by
  rw [transliterate_of_noData_host host pm provider _ _ sourceLang hd h]
  unfold CaseHost.basicTransliteration
  rw [if_pos rfl]

/-- C6 amended, for the text `" straße café "`, whose upper case has one
character more than the trimmed text. -/
theorem transliterate_en_upper_witness :
    latinCase.transliterate emptyStore "api".toList " straße café ".toList "en".toList
      "auto".toList = .returned "STRASSE CAFÉ".toList :=
  transliterate_en_upper latinCase emptyStore "api".toList " straße café ".toList
    "auto".toList (by decide) (by decide)

/-- C7: when the installed-package lookup supplies data for the target language
whose word map has plain keys and values (as the maps written by `storePackage`
have: the keys road, street, main and values in the target script), then for
every non-blank text and whatever the lower-casing of the host does to the
letters, `transliterate` returns the trimmed text, lower-cased by the host, in
which every run of word characters that is a key of the map is replaced by its
value, after the final `trim()`; the character-mapping pass changes nothing, a
key inside a longer word is not replaced, and the text outside the matched
words stays as it is.  The final `trim()` changes nothing either when the
lower-cased text has no white space at its ends, as it has on every host, whose
lower-casing neither drops a character nor yields white space. -/
theorem transliterate_installed_pack (host : CaseHost) (pm : PackageManager)
    (provider text targetLang sourceLang : Str) (d : LangData) (rules : Table)
    (hd : getLanguageData pm targetLang = .returned (some (.data d)))
    (hr : d.transliteration = some rules) (hp : PlainRules rules = true)
    (h : NonBlank text) :
    host.transliterate pm provider text targetLang sourceLang =
        .returned (trim (replaceWholeWords rules (host.toLowerCase (trim text)))) ∧
    (Trimmed (host.toLowerCase (trim text)) →
      host.transliterate pm provider text targetLang sourceLang =
        .returned (replaceWholeWords rules (host.toLowerCase (trim text)))) := by
  have hmain : host.transliterate pm provider text targetLang sourceLang =
      .returned (trim (replaceWholeWords rules (host.toLowerCase (trim text)))) := by
    rw [transliterate_of_nonBlank_host _ _ _ _ _ _ h]
    unfold CaseHost.transliterateOffline CaseHost.transliterateOfflineBody
    obtain ⟨cw, tr, op⟩ := d
    simp only at hr
    subst hr
    simp only [hd, applyWordMappings_eq rules hp, applyCharacterMapping]
  refine ⟨hmain, fun htr => ?_⟩
  rw [hmain, trim_of_trimmed _ (replaceWholeWords_trimmed rules hp _ htr)]

/-- C7, for the pack `hindi` and the text `" Main Road, Kroad, roadway, CAFÉ "`,
whose `K` is the Kelvin sign U+212A: `main` and `road` are replaced; `kroad`,
with the lower case `k` of the sign, and `roadway` are not; `CAFÉ` is
lower-cased. -/
theorem transliterate_installed_pack_witness :
    isPackageInstalled hindiStore "hindi".toList = true ∧
    latinCase.transliterate hindiStore "local".toList
      " Main Road, Kroad, roadway, CAFÉ ".toList "hi".toList "auto".toList =
        .returned "मुख्य रोड, kroad, roadway, café".toList :=
  ⟨by decide,
   (transliterate_installed_pack latinCase hindiStore "local".toList
     " Main Road, Kroad, roadway, CAFÉ ".toList "hi".toList "auto".toList
     (generatedLangData "hi".toList)
     (mkTable [("road", "रोड"), ("street", "सड़क"), ("main", "मुख्य")])
     (by decide) (by decide) (by decide) (by decide)).2 (by decide)⟩

theorem trim_decompose (s : Str) :
    ∃ a b, (∀ c ∈ a, isWhiteSpace c = true) ∧ (∀ c ∈ b, isWhiteSpace c = true) ∧
      s = a ++ trim s ++ b := by
  refine ⟨s.takeWhile isWhiteSpace,
    ((trimStart s).reverse.takeWhile isWhiteSpace).reverse, ?_, ?_, ?_⟩
  · intro c hc
    exact List.mem_takeWhile_imp hc
  · intro c hc
    exact List.mem_takeWhile_imp (List.mem_reverse.mp hc)
  · have h1 : s = s.takeWhile isWhiteSpace ++ trimStart s :=
      (List.takeWhile_append_dropWhile _ _).symm
    have h2 : trim s ++ ((trimStart s).reverse.takeWhile isWhiteSpace).reverse =
        trimStart s := by
      unfold trim trimEnd
      rw [← List.reverse_append, List.takeWhile_append_dropWhile, List.reverse_reverse]
    rw [List.append_assoc, h2]
    exact h1

theorem trim_append_space_any (s : Str) : trim (s ++ [' ']) = trim s := by
  obtain ⟨a, b, ha, hb, hs⟩ := trim_decompose s
  have hcat : s ++ [' '] = a ++ trim s ++ (b ++ [' ']) := by
    rw [← List.append_assoc, ← hs]
  rw [hcat]
  apply trim_sandwich a (trim s) (b ++ [' ']) ha _ (trim_trimmed s)
  intro c hc
  rcases List.mem_append.mp hc with h | h
  · exact hb c h
  · rw [List.mem_singleton.mp h]
    decide

theorem trimmed_nil : Trimmed [] := by
  constructor <;> intro c hc <;> cases hc

theorem wordwise_trimmed_any (map : Table) (hv : valuesPlain map = true) (s : Str)
    (hs : Trimmed s) :
    Trimmed (List.intercalate [' '] ((splitSpace s).map (substituteWord map))) := by
  by_cases hne : s = []
  · subst hne
    have hone : List.intercalate [' '] ((splitSpace []).map (substituteWord map)) =
        substituteWord map [] := by
      simp [splitSpace, List.intercalate]
    rw [hone]
    unfold substituteWord
    cases h : map.lookup [] with
    | none => exact trimmed_nil
    | some v =>
      have h1 := valuesPlain_lookup map hv _ v h
      exact ⟨fun c hc => h1.2 c (List.mem_of_mem_head? hc),
        fun c hc => h1.2 c (List.mem_of_mem_getLast? hc)⟩
  · exact wordwise_trimmed map hv s hne hs

set_option maxRecDepth 100000 in
theorem fallbackTables_keysAllMapped : ∀ map ∈ fallbackTables, keysAllMapped map = true := by
  decide

theorem substituteChar_of_lookup_none (map : Table) (d : Char) (hd : map.lookup [d] = none) :
    substituteChar map d = [d] := by
  unfold substituteChar
  rw [hd]

theorem substituteWord_of_unmapped_char (map : Table) (hk : keysAllMapped map = true)
    (u : Str) (d : Char) (v : Str) (hd : map.lookup [d] = none) :
    substituteWord map (u ++ d :: v) =
      u.flatMap (substituteChar map) ++ d :: v.flatMap (substituteChar map) := by
  have hnone : map.lookup (u ++ d :: v) = none := by
    cases h1 : map.lookup (u ++ d :: v) with
    | none => rfl
    | some val =>
      obtain ⟨p, hp, hpk⟩ := List.mem_map.mp (lookup_mem_keys map _ val h1)
      unfold keysAllMapped at hk
      rw [List.all_eq_true] at hk
      have h2 := hk p hp
      rw [List.all_eq_true] at h2
      have hpk1 : p.1 = u ++ d :: v := hpk
      have h3 := h2 d (by rw [hpk1]; exact List.mem_append_right u (List.mem_cons_self d v))
      rw [hd] at h3
      cases h3
  unfold substituteWord
  rw [hnone]
  simp only [List.flatMap_append, List.flatMap_cons]
  rw [substituteChar_of_lookup_none map d hd]
  rfl

/-- The fallback of the nine codes on every host, off the inherited names: when
no word of the trimmed, lower-cased text is the name of a property inherited
from `Object.prototype`, the result is the word-by-word replacement the claims
describe, after the final `trim()`. -/
theorem transliterate_wordwise_host (host : CaseHost) (pm : PackageManager)
    (provider text targetLang sourceLang : Str) (map : Table)
    (hmap : readBasicMap targetLang = .table map)
    (hd : getLanguageData pm targetLang = .returned none) (h : NonBlank text)
    (hwords : ∀ w ∈ splitSpace (host.toLowerCase (trim text)), isInherited w = false) :
    host.transliterate pm provider text targetLang sourceLang =
      .returned (trim (host.wordwiseFallback map text)) := by
  have hv := fallbackTables_valuesPlain map (readBasicMap_table _ _ hmap)
  rw [transliterate_of_noData_host host pm provider _ _ sourceLang hd h,
    basicTransliteration_table_host _ _ _ map hmap, foldl_mapWord, List.nil_append]
  have hpieces : (splitSpace (host.toLowerCase (trim text))).map (mapWord map []) =
      (splitSpace (host.toLowerCase (trim text))).map
        fun w => substituteWord map w ++ [' '] := by
    apply List.map_congr_left
    intro w hw
    exact mapWord_eq_substituteWord map hv w (hwords w hw)
  rw [hpieces, flatten_map_append_space _ _ (splitSpace_ne_nil _), trim_append_space_any]
  rfl

/-- The fallback of the nine codes on every host, for a text whose trimmed,
lower-cased form has no character with an entry in the table: the result is
that form, after the final `trim()`. -/
theorem transliterate_all_unmapped_host (host : CaseHost) (pm : PackageManager)
    (provider text targetLang sourceLang : Str) (map : Table)
    (hmap : readBasicMap targetLang = .table map)
    (hd : getLanguageData pm targetLang = .returned none) (h : NonBlank text)
    (hall : ∀ d ∈ host.toLowerCase (trim text), map.lookup [d] = none) :
    host.transliterate pm provider text targetLang sourceLang =
      .returned (trim (host.toLowerCase (trim text))) := by
  rw [transliterate_of_noData_host host pm provider _ _ sourceLang hd h,
    basicTransliteration_table_host _ _ _ map hmap, foldl_mapWord, List.nil_append]
  have hk := fallbackTables_keysHaveMappedChar map (readBasicMap_table _ _ hmap)
  have hwords : (splitSpace (host.toLowerCase (trim text))).map (mapWord map []) =
      (splitSpace (host.toLowerCase (trim text))).map fun w => w ++ [' '] := by
    apply List.map_congr_left
    intro w hw
    apply mapWord_of_unmapped map hk
    intro d hdw
    exact hall d (mem_of_mem_splitSpace _ w hw d hdw)
  rw [hwords, splitSpace_flatten, trim_append_space_any]

/-- C3, as stated, fails: the Tamil table has no entry for `q`, `w` or `x` in
either letter case, and the trimmed text `"QWX"` comes back as `"qwx"`, not
unchanged. -/
theorem transliterate_unmapped_not_identical :
    readBasicMap "ta".toList = .table (fallbackTable "ta".toList) ∧
    getLanguageData emptyStore "ta".toList = .returned none ∧
    (∀ c ∈ "QWXqwx".toList, (fallbackTable "ta".toList).lookup [c] = none) ∧
    trim "QWX".toList = "QWX".toList ∧
    latinCase.toLowerCase "QWX".toList = "qwx".toList ∧
    latinCase.transliterate emptyStore "local".toList "QWX".toList "ta".toList
      "auto".toList = .returned "qwx".toList ∧
    latinCase.transliterate emptyStore "local".toList "QWX".toList "ta".toList
      "auto".toList ≠ .returned "QWX".toList := by
  decide

/-- C3, amended: for each of the nine fallback codes with no installed pack
data, for every non-blank text and whatever the lower-casing of the host does
to the letters, the characters are looked up in their lower-case form, and one
without an entry is kept in that form, not as it stands in the input.  First,
in the replacement of a word that has a character without an entry, that
character stands unchanged between the substitutions of the characters before
it and after it.  Second, when no word of the trimmed, lower-cased text is the
name of an inherited property, the result is that text with every word so
replaced, after the final `trim()`.  Third, a text whose trimmed, lower-cased
form is made only of characters without an entry is returned as that form,
after the final `trim()`.  The final `trim()` changes nothing when the
lower-cased text has no white space at its ends, as it has on every host. -/
theorem transliterate_unmapped_lowercased (host : CaseHost) (pm : PackageManager)
    (provider text targetLang sourceLang : Str) (map : Table)
    (hmap : readBasicMap targetLang = .table map)
    (hd : getLanguageData pm targetLang = .returned none) (h : NonBlank text) :
    (∀ u d v, map.lookup [d] = none →
      substituteWord map (u ++ d :: v) =
        u.flatMap (substituteChar map) ++ d :: v.flatMap (substituteChar map)) ∧
    ((∀ w ∈ splitSpace (host.toLowerCase (trim text)), isInherited w = false) →
      host.transliterate pm provider text targetLang sourceLang =
          .returned (trim (host.wordwiseFallback map text)) ∧
        (Trimmed (host.toLowerCase (trim text)) →
          host.transliterate pm provider text targetLang sourceLang =
            .returned (host.wordwiseFallback map text))) ∧
    ((∀ d ∈ host.toLowerCase (trim text), map.lookup [d] = none) →
      host.transliterate pm provider text targetLang sourceLang =
          .returned (trim (host.toLowerCase (trim text))) ∧
        (Trimmed (host.toLowerCase (trim text)) →
          host.transliterate pm provider text targetLang sourceLang =
            .returned (host.toLowerCase (trim text)))) := by
  have hmem := readBasicMap_table _ _ hmap
  refine ⟨fun u d v hdn =>
    substituteWord_of_unmapped_char map (fallbackTables_keysAllMapped map hmem) u d v hdn,
    fun hwords => ?_, fun hall => ?_⟩
  · have h1 := transliterate_wordwise_host host pm provider text targetLang sourceLang map
      hmap hd h hwords
    refine ⟨h1, fun htr => ?_⟩
    rw [h1]
    exact congrArg Outcome.returned (trim_of_trimmed _
      (wordwise_trimmed_any map (fallbackTables_valuesPlain map hmem) _ htr))
  · have h1 := transliterate_all_unmapped_host host pm provider text targetLang sourceLang map
      hmap hd h hall
    refine ⟨h1, fun htr => ?_⟩
    rw [h1, trim_of_trimmed _ htr]

/-- C3 amended, for Tamil and the text `" Q-42 É road "`: `q`, `-`, `4`, `2` and
`é` have no entry and stand in lower case, and `road` is replaced. -/
theorem transliterate_unmapped_lowercased_witness :
    latinCase.transliterate emptyStore "local".toList " Q-42 É road ".toList "ta".toList
      "auto".toList = .returned "q-42 é ரோடு".toList :=
  ((transliterate_unmapped_lowercased latinCase emptyStore "local".toList
    " Q-42 É road ".toList "ta".toList "auto".toList (fallbackTable "ta".toList)
    (by decide) (by decide) (by decide)).2.1 (by decide)).2 (by decide)

/-! ## Unknown codes, blank texts, failures and providers on every host -/

/-- On every host, a code that is not `en`, not one of the nine codes and not an
inherited name gives the trimmed text. -/
theorem transliterate_unknown_host (host : CaseHost) (pm : PackageManager)
    (provider text targetLang sourceLang : Str)
    (hen : targetLang ≠ "en".toList) (hcodes : targetLang ∉ fallbackCodes)
    (hinh : isInherited targetLang = false)
    (hd : getLanguageData pm targetLang = .returned none) (h : NonBlank text) :
    host.transliterate pm provider text targetLang sourceLang = .returned (trim text) := by
  rw [transliterate_of_noData_host host pm provider _ _ sourceLang hd h]
  unfold CaseHost.basicTransliteration
  rw [if_neg hen, readBasicMap_of_not_mem targetLang hcodes hinh]

/-- On every host, a blank text gives the empty string. -/
theorem transliterate_of_blank_host (host : CaseHost) (pm : PackageManager)
    (provider text targetLang sourceLang : Str) (h : ¬ NonBlank text) :
    host.transliterate pm provider text targetLang sourceLang = .returned [] := by
  unfold NonBlank at h
  have ht : trim text = [] := not_not.mp h
  unfold CaseHost.transliterate
  simp [ht]

/-- On every host, a throw inside the `try` block gives the original text. -/
theorem transliterate_fail_soft_host (host : CaseHost) (pm : PackageManager)
    (provider text targetLang sourceLang : Str) (e : JSError) (h : NonBlank text)
    (hfail : host.transliterateOfflineBody pm text targetLang = .threw e) :
    host.transliterate pm provider text targetLang sourceLang = .returned text := by
  rw [transliterate_of_nonBlank_host _ _ _ _ _ _ h]
  unfold CaseHost.transliterateOffline
  rw [hfail]

/-- On every host, the provider setting and the source hint do not change the
outcome. -/
theorem transliterate_provider_host (host : CaseHost) (pm : PackageManager)
    (provider provider1 text targetLang sourceLang sourceLang1 : Str) :
    host.transliterate pm provider text targetLang sourceLang =
      host.transliterate pm provider1 text targetLang sourceLang1 := by
  by_cases h : NonBlank text
  · rw [transliterate_of_nonBlank_host _ _ _ _ _ _ h,
      transliterate_of_nonBlank_host _ _ _ _ _ _ h]
    rfl
  · rw [transliterate_of_blank_host _ _ _ _ _ _ h, transliterate_of_blank_host _ _ _ _ _ _ h]

end StreetSign
